import Mathlib

/-!
# gru: host-list tokenizer and Rome BIOS attribute dictionary

A shallow embedding of `pkg/cmd/cli/cli.go` (`isDelimiter`, `scanWords`,
`ParseHosts`, `MapPrint`) and of `pkg/cmd/cli/bios/rome_decoder.go`
(`NewEmbeddedRomeLibrary`, `RomeLibrary.RegisterAttribute`, `romeDecode`),
together with the parts of the Go standard library they call
(`unicode/utf8.DecodeRune`, the `bufio.Scanner` loop, `sort.Strings`, the verbs
of `fmt.Printf`).  `json.Unmarshal`, `json.MarshalIndent` and the embedded file
system are parameters of the functions that use them.

Conventions
* a Go `rune` (`int32`) is an `Int`;
* a Go `byte` is a `Nat`; the Go values are the naturals below 256.  A `[]byte`
  and a Go `string` holding arbitrary bytes are a `List Nat`;
* `data[a:b]` is `(data.drop a).take (b - a)` and `data[a:]` is `data.drop a`;
* a token that is `nil` in Go is `none`, a non-nil token is `some`;
* a Go `error` is an `Option String` (`none` is the nil error).
-/

namespace Gru

/-! ## unicode/utf8 (Go standard library) -/

/-- The "error" rune U+FFFD. -/
def RuneError : Nat := 0xFFFD
/-- Largest valid code point. -/
def MaxRune : Nat := 0x10FFFF
def surrogateMin : Nat := 0xD800
def surrogateMax : Nat := 0xDFFF

def tx : Nat := 0x80
def t2 : Nat := 0xC0
def t3 : Nat := 0xE0
def t4 : Nat := 0xF0
def maskx : Nat := 0x3F
def mask2 : Nat := 0x1F
def mask3 : Nat := 0x0F
def mask4 : Nat := 0x07
def rune1Max : Nat := 0x7F
def rune2Max : Nat := 0x7FF
def rune3Max : Nat := 0xFFFF
/-- Lowest continuation byte. -/
def locb : Nat := 0x80
/-- Highest continuation byte. -/
def hicb : Nat := 0xBF

/-- Table entry: invalid first byte, size 1. -/
def xx : Nat := 0xF1
/-- Table entry: ASCII, size 1. -/
def as : Nat := 0xF0
/-- Table entry: accept range 0, size 2. -/
def s1 : Nat := 0x02
/-- Table entry: accept range 1, size 3. -/
def s2 : Nat := 0x13
/-- Table entry: accept range 0, size 3. -/
def s3 : Nat := 0x03
/-- Table entry: accept range 2, size 3. -/
def s4 : Nat := 0x23
/-- Table entry: accept range 3, size 4. -/
def s5 : Nat := 0x34
/-- Table entry: accept range 0, size 4. -/
def s6 : Nat := 0x04
/-- Table entry: accept range 4, size 4. -/
def s7 : Nat := 0x44

/-- The table `first` of `unicode/utf8`: information about the first byte of a
UTF-8 sequence, one entry per byte value, sixteen entries a row. -/
def first : List Nat := [
  as, as, as, as, as, as, as, as, as, as, as, as, as, as, as, as, -- 0x00-0x0F
  as, as, as, as, as, as, as, as, as, as, as, as, as, as, as, as, -- 0x10-0x1F
  as, as, as, as, as, as, as, as, as, as, as, as, as, as, as, as, -- 0x20-0x2F
  as, as, as, as, as, as, as, as, as, as, as, as, as, as, as, as, -- 0x30-0x3F
  as, as, as, as, as, as, as, as, as, as, as, as, as, as, as, as, -- 0x40-0x4F
  as, as, as, as, as, as, as, as, as, as, as, as, as, as, as, as, -- 0x50-0x5F
  as, as, as, as, as, as, as, as, as, as, as, as, as, as, as, as, -- 0x60-0x6F
  as, as, as, as, as, as, as, as, as, as, as, as, as, as, as, as, -- 0x70-0x7F
  xx, xx, xx, xx, xx, xx, xx, xx, xx, xx, xx, xx, xx, xx, xx, xx, -- 0x80-0x8F
  xx, xx, xx, xx, xx, xx, xx, xx, xx, xx, xx, xx, xx, xx, xx, xx, -- 0x90-0x9F
  xx, xx, xx, xx, xx, xx, xx, xx, xx, xx, xx, xx, xx, xx, xx, xx, -- 0xA0-0xAF
  xx, xx, xx, xx, xx, xx, xx, xx, xx, xx, xx, xx, xx, xx, xx, xx, -- 0xB0-0xBF
  xx, xx, s1, s1, s1, s1, s1, s1, s1, s1, s1, s1, s1, s1, s1, s1, -- 0xC0-0xCF
  s1, s1, s1, s1, s1, s1, s1, s1, s1, s1, s1, s1, s1, s1, s1, s1, -- 0xD0-0xDF
  s2, s3, s3, s3, s3, s3, s3, s3, s3, s3, s3, s3, s3, s4, s3, s3, -- 0xE0-0xEF
  s5, s6, s6, s6, s7, xx, xx, xx, xx, xx, xx, xx, xx, xx, xx, xx] -- 0xF0-0xFF

/-- The table `acceptRanges` of `unicode/utf8`: the `(lo, hi)` range allowed
for the second byte of a sequence.  Entries 5 to 15 of the Go array are zero. -/
def acceptRanges : List (Nat × Nat) := [
  (locb, hicb),
  (0xA0, hicb),
  (locb, 0x9F),
  (0x90, hicb),
  (locb, 0x8F)]

/-- Go's `utf8.DecodeRune`: unpacks the first UTF-8 encoding in `p` and returns
the rune and its width in bytes.  An empty `p` gives `(RuneError, 0)`, an
invalid encoding `(RuneError, 1)`.  A list element that is no Go byte (256 or
more) has no entry in `first` and is read as an invalid byte. -/
def DecodeRune (p : List Nat) : Int × Nat :=
  let n := p.length
  if n < 1 then ((RuneError : Nat), 0) else
  let p0 := p.getD 0 0
  let x := first.getD p0 xx
  if x ≥ as then
    -- `mask := rune(x) << 31 >> 31` on an int32: bit 0 of `x` becomes the sign
    -- bit and the arithmetic shift copies it to all 32 bits.
    let mask : Nat := if (x <<< 31) % 2 ^ 32 ≥ 2 ^ 31 then 0xFFFFFFFF else 0
    -- `rune(p[0])&^mask | RuneError&mask`
    (((p0 &&& (0xFFFFFFFF ^^^ mask)) ||| (RuneError &&& mask) : Nat), 1)
  else
  let sz := x &&& 7
  let accept := acceptRanges.getD (x >>> 4) (0, 0)
  if n < sz then ((RuneError : Nat), 1) else
  let b1 := p.getD 1 0
  if b1 < accept.1 ∨ accept.2 < b1 then ((RuneError : Nat), 1) else
  if sz ≤ 2 then
    ((((p0 &&& mask2) <<< 6) ||| (b1 &&& maskx) : Nat), 2)
  else
  let b2 := p.getD 2 0
  if b2 < locb ∨ hicb < b2 then ((RuneError : Nat), 1) else
  if sz ≤ 3 then
    ((((p0 &&& mask3) <<< 12) ||| ((b1 &&& maskx) <<< 6) ||| (b2 &&& maskx) : Nat), 3)
  else
  let b3 := p.getD 3 0
  if b3 < locb ∨ hicb < b3 then ((RuneError : Nat), 1) else
  ((((p0 &&& mask4) <<< 18) ||| ((b1 &&& maskx) <<< 12) ||| ((b2 &&& maskx) <<< 6)
      ||| (b3 &&& maskx) : Nat), 4)

/-- Go's `utf8.EncodeRune` (as `utf8.AppendRune` appends it): the UTF-8
encoding of the rune `r`.  `uint32(r)` is `r` modulo `2 ^ 32`; `byte(v)` keeps
the low eight bits of `v`.  An out-of-range rune or a surrogate is encoded as
`RuneError`. -/
def EncodeRune (r : Int) : List Nat :=
  let i : Nat := (r % 2 ^ 32).toNat
  if i ≤ rune1Max then
    [i % 256]
  else if i ≤ rune2Max then
    [t2 ||| ((i >>> 6) % 256), tx ||| ((i % 256) &&& maskx)]
  else if i > MaxRune ∨ (surrogateMin ≤ i ∧ i ≤ surrogateMax) then
    [t3 ||| ((RuneError >>> 12) % 256), tx ||| (((RuneError >>> 6) % 256) &&& maskx),
      tx ||| ((RuneError % 256) &&& maskx)]
  else if i ≤ rune3Max then
    [t3 ||| ((i >>> 12) % 256), tx ||| (((i >>> 6) % 256) &&& maskx),
      tx ||| ((i % 256) &&& maskx)]
  else
    [t4 ||| ((i >>> 18) % 256), tx ||| (((i >>> 12) % 256) &&& maskx),
      tx ||| (((i >>> 6) % 256) &&& maskx), tx ||| ((i % 256) &&& maskx)]

/-! ## pkg/cmd/cli/cli.go -/

/-- Translation of `isDelimiter`: reports whether the character is a Unicode
white space character, or a delimiter ",", ";", or "|". -/
def isDelimiter (r : Int) : Bool :=
  if r ≤ 0xFF then
    -- case ' ', '\t', '\n', '\v', '\f', '\r'
    if r = 0x20 ∨ r = 0x09 ∨ r = 0x0A ∨ r = 0x0B ∨ r = 0x0C ∨ r = 0x0D then true
    -- case '\u0085', '\u00A0'
    else if r = 0x85 ∨ r = 0xA0 then true
    -- case ',', ';', '|'
    else if r = 0x2C ∨ r = 0x3B ∨ r = 0x7C then true
    else false
  else if 0x2000 ≤ r ∧ r ≤ 0x200A then true
  else if r = 0x1680 ∨ r = 0x2028 ∨ r = 0x2029 ∨ r = 0x202F ∨ r = 0x205F ∨ r = 0x3000 then true
  else false

/-- First loop of `scanWords` ("skip leading spaces"), entered with the current
value of `start`; the result is the value of `start` when the loop is left.
`fuel` bounds the number of iterations still possible: every iteration that
continues moves `start` forward by the positive width of a decoded rune. -/
def skipLeading (data : List Nat) : (fuel start : Nat) → data.length - start ≤ fuel → Nat
  | 0, start, _ => start
  | fuel + 1, start, h =>
    if hlt : start < data.length then
      let rw := DecodeRune (data.drop start)
      if !isDelimiter rw.1 then start
      else skipLeading data fuel (start + rw.2) (by
        have hpos : 1 ≤ (DecodeRune (data.drop start)).2 := by
          have hlen : ¬ (data.drop start).length < 1 := by
            rw [List.length_drop]; omega
          unfold DecodeRune
          simp only [hlen, if_false]
          split_ifs <;> simp
        show data.length - (start + (DecodeRune (data.drop start)).2) ≤ fuel
        omega)
    else start

/-- Second loop of `scanWords` ("scan until space"), entered with the current
value of `i`: `some (advance, token)` when the loop returns at a delimiter,
`none` when it runs to the end of `data` without finding one. -/
def scanUntilSpace (data : List Nat) (start : Nat) :
    (fuel i : Nat) → data.length - i ≤ fuel → Option (Nat × List Nat)
  | 0, _, _ => none
  | fuel + 1, i, h =>
    if hlt : i < data.length then
      let rw := DecodeRune (data.drop i)
      if isDelimiter rw.1 then some (i + rw.2, (data.drop start).take (i - start))
      else scanUntilSpace data start fuel (i + rw.2) (by
        have hpos : 1 ≤ (DecodeRune (data.drop i)).2 := by
          have hlen : ¬ (data.drop i).length < 1 := by
            rw [List.length_drop]; omega
          unfold DecodeRune
          simp only [hlen, if_false]
          split_ifs <;> simp
        show data.length - (i + (DecodeRune (data.drop i)).2) ≤ fuel
        omega)
    else none

/-- The three results of a `bufio.SplitFunc`. -/
structure SplitResult where
  advance : Nat
  token : Option (List Nat)
  err : Option String
  deriving DecidableEq

/-- Translation of `scanWords`: a split function for a Scanner that returns each
space-separated word of text, with surrounding spaces and other delimiters
deleted. -/
def scanWords (data : List Nat) (atEOF : Bool) : SplitResult :=
  -- Skip leading spaces.
  let start := skipLeading data data.length 0 (by omega)
  -- Scan until space, marking end of word.
  match scanUntilSpace data start data.length start (by omega) with
  | some (advance, token) => ⟨advance, some token, none⟩
  | none =>
    -- If we are at EOF, we have a final, non-empty, non-terminated word. Return it.
    if atEOF ∧ data.length > start then ⟨data.length, some (data.drop start), none⟩
    -- Request more data.
    else ⟨start, none, none⟩

/-- The split function applied again and again to the remaining input: `scanWords`
is applied to `buf`, a token that comes back is collected and the input advanced
by `advance`; when no token comes back the end of input is signalled
(`atEOF = true`) and the function applied once more, and the scan is over when no
token comes back at the end of input.  `none` means that `fuel` applications
were not enough. -/
def scanAll : Nat → List Nat → Bool → Option (List (List Nat))
  | 0, _, _ => none
  | fuel + 1, buf, atEOF =>
    let r := scanWords buf atEOF
    match r.token with
    | some token => (scanAll fuel (buf.drop r.advance) atEOF).map (fun rest => token :: rest)
    | none => if atEOF then some [] else scanAll fuel (buf.drop r.advance) true

/-! ### bufio.Scanner (Go standard library) -/

/-- `bufio.MaxScanTokenSize`: the maximum size used to buffer a token. -/
def MaxScanTokenSize : Nat := 64 * 1024

/-- `startBufSize`: size of initial allocation for buffer. -/
def startBufSize : Nat := 4096

/-- `maxConsecutiveEmptyReads` of package `bufio`. -/
def maxConsecutiveEmptyReads : Nat := 100

/-- The largest value of Go's `int`, on a platform of 64 bits. -/
def maxInt : Nat := 2 ^ 63 - 1

/-- The error `io.EOF`, by its text. -/
def EOF : String := "EOF"

/-- The error `io.ErrNoProgress`, by its text. -/
def ErrNoProgress : String := "multiple Read calls return no data or error"

/-- The error `bufio.ErrTooLong`, by its text. -/
def ErrTooLong : String := "bufio.Scanner: token too long"

/-- The error `bufio.ErrAdvanceTooFar`, by its text. -/
def ErrAdvanceTooFar : String := "bufio.Scanner: SplitFunc returns advance count beyond input"

/-- The state of a `bufio.Scanner`, without the content of the buffer outside the
window: `bufLen` is `len(s.buf)`, `start` is `s.start`, `window` is
`s.buf[s.start:s.end]`, the bytes read and not yet consumed, so that `s.end` is
`start + window.length`; `err` is `s.err`, the sticky error, which is `io.EOF`
after the end of input; `empties` is `s.empties`. -/
structure Scanner where
  bufLen : Nat
  start : Nat
  window : List Nat
  err : Option String
  empties : Nat
  deriving DecidableEq

/-- The Scanner that `bufio.NewScanner` returns: no buffer yet, no error. -/
def NewScanner : Scanner :=
  { bufLen := 0, start := 0, window := [], err := none, empties := 0 }

/-- Method `setErr`: records the first error encountered. -/
def Scanner.setErr (s : Scanner) (err : String) : Scanner :=
  if s.err = none ∨ s.err = some EOF then { s with err := some err } else s

/-- Method `Err`: the first error that was not `io.EOF`. -/
def Scanner.Err (s : Scanner) : Option String :=
  if s.err = some EOF then none else s.err

/-- The loop at the end of `Scan` that reads input into the free part
`s.buf[s.end:len(s.buf)]` of the buffer; `loop` counts the reads that brought
nothing.  `reads` are the pieces that the calls of `s.r.Read` still to come
deliver, in order: a call takes from the first piece the bytes that fit into the
free part and leaves the others of the piece for the next call; a piece of no
bytes is a call that returns 0 bytes and no error; when no piece is left the
call returns 0 bytes and `io.EOF`.  The result is the Scanner and the pieces
still to come when the loop is left. -/
def Scanner.read (s : Scanner) : Nat → List (List Nat) → Scanner × List (List Nat)
  | _, [] => (s.setErr EOF, [])
  | loop, c :: cs =>
    if c = [] then
      if loop + 1 > maxConsecutiveEmptyReads then (s.setErr ErrNoProgress, cs)
      else Scanner.read s (loop + 1) cs
    else
      let free := s.bufLen - (s.start + s.window.length)
      ({ s with window := s.window ++ c.take free, empties := 0 },
        if c.length ≤ free then cs else c.drop free :: cs)

/-- What one round of the loop of `Scan` leads to. -/
inductive ScanStep where
  /-- `Scan` returns true, with the token in `s.token`. -/
  | token (t : List Nat) (s : Scanner) (reads : List (List Nat))
  /-- The loop goes round once more. -/
  | again (s : Scanner) (reads : List (List Nat))
  /-- `Scan` returns false. -/
  | stop (s : Scanner)
  /-- `Scan` panics. -/
  | panic (msg : String)

/-- The second half of a round of the loop of `Scan`, reached when no token can
be made of what the buffer holds: the scan stops at the end of input or after an
error; otherwise the data are shifted to the beginning of the buffer if there is
much empty space or space is needed, a full buffer is resized to twice its size,
up to `MaxScanTokenSize` bytes, where the scan stops with `ErrTooLong`, and
input is read. -/
def Scanner.fill (s : Scanner) (reads : List (List Nat)) : ScanStep :=
  -- If we have already hit EOF or an I/O error, we are done.
  if s.err ≠ none then ScanStep.stop { s with start := 0, window := [] }
  else
    -- Must read more data.  First, shift data to beginning of buffer.
    let s1 : Scanner :=
      if s.start > 0 ∧ (s.start + s.window.length = s.bufLen ∨ s.start > s.bufLen / 2) then
        { s with start := 0 }
      else s
    -- Is the buffer full?  If so, resize.
    if s1.start + s1.window.length = s1.bufLen then
      if s1.bufLen ≥ MaxScanTokenSize ∨ s1.bufLen > maxInt / 2 then
        ScanStep.stop (s1.setErr ErrTooLong)
      else
        let newSize := if s1.bufLen * 2 = 0 then startBufSize else s1.bufLen * 2
        let newSize := min newSize MaxScanTokenSize
        let r := Scanner.read { s1 with bufLen := newSize, start := 0 } 0 reads
        ScanStep.again r.1 r.2
    else
      let r := Scanner.read s1 0 reads
      ScanStep.again r.1 r.2

/-- One round of the loop of `Scan`, with `scanWords` as split function.  The
function is applied to the window when it holds bytes or the input has ended,
with `atEOF` telling the latter; an error that it returns stops the scan
(`scanWords` returns none, the error `ErrFinalToken` included); the window
advances by `advance`, and a token ends the call of `Scan`. -/
def Scanner.step (s : Scanner) (reads : List (List Nat)) : ScanStep :=
  -- See if we can get a token with what we already have.
  if s.window.length > 0 ∨ s.err ≠ none then
    let r := scanWords s.window (decide (s.err ≠ none))
    match r.err with
    | some err => ScanStep.stop (s.setErr err)
    | none =>
      if r.advance > s.window.length then ScanStep.stop (s.setErr ErrAdvanceTooFar)
      else
        let s1 : Scanner :=
          { s with start := s.start + r.advance, window := s.window.drop r.advance }
        match r.token with
        | some token =>
          if s1.err = none ∨ r.advance > 0 then ScanStep.token token { s1 with empties := 0 } reads
          -- Returning tokens not advancing input at EOF.
          else if s1.empties + 1 > maxConsecutiveEmptyReads then
            ScanStep.panic "bufio.Scan: too many empty tokens without progressing"
          else ScanStep.token token { s1 with empties := s1.empties + 1 } reads
        | none => s1.fill reads
  else s.fill reads

/-- How the loop `for scanner.Scan()` ends: `Scan` returns false, or it panics. -/
inductive ScanEnd where
  | stopped (s : Scanner)
  | panicked (msg : String)

/-- The loop `for scanner.Scan() { newArgs = append(newArgs, scanner.Text()) }` of
`ParseHosts`: the tokens in the order in which `Scan` finds them, and how the
loop ends.  `none` means that `fuel` rounds were not enough. -/
def scanLoop : Nat → Scanner → List (List Nat) → Option (List (List Nat) × ScanEnd)
  | 0, _, _ => none
  | fuel + 1, s, reads =>
    match s.step reads with
    | ScanStep.token t s1 rest => (scanLoop fuel s1 rest).map (fun r => (t :: r.1, r.2))
    | ScanStep.again s1 rest => scanLoop fuel s1 rest
    | ScanStep.stop s1 => some ([], ScanEnd.stopped s1)
    | ScanStep.panic msg => some ([], ScanEnd.panicked msg)

/-- A bound on the rounds that the loop of `Scan` still makes from the state `s`
with the pieces `reads` to come: every round consumes a byte of the window,
reads a byte, uses up a piece, or meets the end of input. -/
def scanMeasure (s : Scanner) (reads : List (List Nat)) : Nat :=
  s.window.length + 2 * reads.flatten.length + reads.length + (if s.err = none then 1 else 0)

/-! ### `ParseHosts` -/

/-- How a call of `ParseHosts` ends. -/
inductive Outcome where
  /-- The function returned the list of hosts; `stderr` is what was written to
  standard error. -/
  | returned (hosts : List (List Nat)) (stderr : String)
  /-- The call `os.Exit(status)` was reached; `stderr` is what was written to standard error. -/
  | exited (status : Nat) (stderr : String)
  /-- A panic was raised. -/
  | panicked (exc : String)
  deriving DecidableEq

/-- Go's `fmt.Fprintln` on a stream held as the text written so far: the
operands, a space between two of them, and a newline are appended; the second
component is the write error, which a stream held in memory never gives. -/
def Fprintln (w : String) (a : List String) : String × Option String :=
  (w ++ " ".intercalate a ++ "\n", none)

/-- Translation of `ParseHosts`.  `piped` is the result of `isInputFromPipe()`,
`reads` the pieces in which standard input delivers its bytes to the calls of
`Read`, and `args` the given arguments.  A piece of `os.Stdin` holds at least
one byte, and the input ends with `io.EOF`: a read error of another kind is not
part of the model.  The result is `none` only if the scanning loop does not
finish within its fuel, which `scanLoop_terminates` excludes. -/
def ParseHosts (piped : Bool) (reads : List (List Nat)) (args : List (List Nat)) :
    Option Outcome :=
  if piped then
    match scanLoop (2 * reads.flatten.length + reads.length + 2) NewScanner reads with
    | none => none
    | some (_, ScanEnd.panicked msg) => some (Outcome.panicked msg)
    | some (newArgs, ScanEnd.stopped scanner) =>
      match scanner.Err with
      | some err => some (Outcome.returned newArgs (Fprintln "" ["reading input:", err]).1)
      | none => some (Outcome.returned newArgs "")
  else if args.length < 1 then
    let err := "no hosts given"
    match Fprintln "" [err] with
    | (_, some exc) => some (Outcome.panicked exc)
    | (stderr, none) => some (Outcome.exited 1 stderr)
  else some (Outcome.returned args "")

/-! ### Inputs of the tokenizer, as the specification describes them -/

/-- Go's `utf8.ValidRune`: `r` can be legally encoded as UTF-8. -/
def ValidRune (r : Int) : Bool :=
  if 0 ≤ r ∧ r < (surrogateMin : Nat) then true
  else if (surrogateMax : Nat) < r ∧ r ≤ (MaxRune : Nat) then true
  else false

/-- UTF-8 encoding of a sequence of runes (Go's `string(runes)`). -/
def encodeRunes : List Int → List Nat
  | [] => []
  | r :: rs => EncodeRune r ++ encodeRunes rs

/-- A word of the specification, given by its runes: not empty, every rune a
valid one and none a delimiter.  Its bytes `encodeRunes w` are valid UTF-8. -/
def isWord (w : List Int) : Bool :=
  !w.isEmpty && w.all (fun r => ValidRune r && !isDelimiter r)

/-- A run of delimiter runes (possibly empty). -/
def isDelimiterRun (ds : List Int) : Bool :=
  ds.all isDelimiter

/-- The words with the run of delimiters that follows each, in bytes. -/
def joinWords : List (List Int × List Int) → List Nat
  | [] => []
  | (w, sep) :: rest => encodeRunes w ++ encodeRunes sep ++ joinWords rest

/-- Each item is a word and the run of delimiters after it; the run is not
empty when another word follows, and may be empty after the last word. -/
def wellFormed : List (List Int × List Int) → Bool
  | [] => true
  | (w, sep) :: rest =>
    isWord w && isDelimiterRun sep && (!sep.isEmpty || rest.isEmpty) && wellFormed rest

/-- Bytes whose runes, decoded one after the other as `scanWords` reads them,
include no delimiter. -/
inductive NoDelimiter : List Nat → Prop where
  | nil : NoDelimiter []
  | rune (p : List Nat) : p ≠ [] → isDelimiter (DecodeRune p).1 = false →
      NoDelimiter (p.drop (DecodeRune p).2) → NoDelimiter p

/-- The number `n` is the byte length of the leading run of delimiter runes of
the bytes `p`, decoded one rune after the other as `scanWords` reads them. -/
inductive LeadingRun : List Nat → Nat → Prop where
  | stop (p : List Nat) : (p = [] ∨ isDelimiter (DecodeRune p).1 = false) → LeadingRun p 0
  | step (p : List Nat) (n : Nat) : p ≠ [] → isDelimiter (DecodeRune p).1 = true →
      LeadingRun (p.drop (DecodeRune p).2) n → LeadingRun p ((DecodeRune p).2 + n)

/-- Specification of the delimiter class, in the words of the documentation of
`isDelimiter`: the white space of `unicode.IsSpace`, or ",", ";", "|". -/
def specIsSpace (r : Int) : Prop :=
  (0x0009 ≤ r ∧ r ≤ 0x000D) ∨ r = 0x0020 ∨ r = 0x0085 ∨ r = 0x00A0 ∨ r = 0x1680 ∨
  (0x2000 ≤ r ∧ r ≤ 0x200A) ∨ r = 0x2028 ∨ r = 0x2029 ∨ r = 0x202F ∨ r = 0x205F ∨
  r = 0x3000

/-! ## pkg/cmd/cli/bios/rome_decoder.go -/

/-- A value held in an `interface{}` field: "can be int or string, maybe bool". -/
inductive AnyValue where
  | null
  | int (v : Int)
  | str (v : String)
  | bool (v : Bool)
  deriving DecidableEq

/-- Translation of `Value`: the display name and a name. -/
structure Value where
  ValueDisplayName : String
  ValueName : String
  deriving DecidableEq

/-- Translation of `Attribute`: a single bios attribute. -/
structure Attribute where
  AttributeName : String
  DefaultValue : AnyValue
  DisplayName : String
  HelpText : String
  ReadOnly : Bool
  /-- The field `Type` of the source (a reserved word here). -/
  AttrType : String
  Value : List Value
  deriving DecidableEq

/-- Translation of `RomeLibrary`: a map of rome bios attributes.  The Go map
`map[string]Attribute` is held as its lookup function: `Attributes k` is
`some a` when `k` is a key with value `a` and `none` when `k` is no key.  The
map of a library is an allocated one, as `NewEmbeddedRomeLibrary` makes it (a
nil map, on which an assignment panics, is no value of this type). -/
structure RomeLibrary where
  Attributes : String → Option Attribute

/-- The map assignment `m[k] = v`. -/
def mapSet (m : String → Option Attribute) (k : String) (v : Attribute) :
    String → Option Attribute :=
  fun k2 => if k2 = k then some v else m k2

/-- Translation of `RomeLibrary.RegisterAttribute`: adds an attribute to the
library.  The result is the library after the call and the returned error. -/
def RomeLibrary.RegisterAttribute (l : RomeLibrary) (attr : Attribute) :
    RomeLibrary × Option String :=
  match l.Attributes attr.AttributeName with
  | some _ => (l, some (attr.AttributeName ++ " already exists"))
  | none => (⟨mapSet l.Attributes attr.AttributeName attr⟩, none)

/-- Translation of `romeDecode`: accepts a key and changes it to a friendly name
if it exists and json is not requested.  `romeMap` is the package variable the
function reads, `json` the value of `viper.GetBool("json")`. -/
def romeDecode (romeMap : RomeLibrary) (json : Bool) (key : String) : String :=
  match romeMap.Attributes key with
  | some romeAttr =>
    -- convert to a friendly name for non-json
    if json then romeAttr.AttributeName
    else romeAttr.AttributeName ++ " (" ++ romeAttr.DisplayName ++ ")"
  | none => key

/-- The embedded file system `embed.FS` behind `romeFS`, given by what its two
read operations return: the names of the entries of a directory, in the order
of enumeration, and the content of a file. -/
structure EmbedFS where
  ReadDir : String → Except String (List String)
  ReadFile : String → Except String String

/-- Go's `path.Join` of a directory and an entry name. -/
def pathJoin (dir name : String) : String :=
  dir ++ "/" ++ name

/-- Go's `errors.Join(err, fmt.Errorf("%+v", string(data)))`, as the message of
the joined error: the two messages, one a line. -/
def errorsJoin (err data : String) : String :=
  err ++ "\n" ++ data

/-- The loop of `NewEmbeddedRomeLibrary` over the files of the directory that
are still to be read, with the library built so far.  `unmarshal data` is what
`json.Unmarshal(data, &attribute)` makes of a fresh `Attribute`: the attribute
read, or the parse error. -/
def loadFiles (unmarshal : String → Except String Attribute) (romeFS : EmbedFS)
    (basePath : String) : List String → RomeLibrary → Except String RomeLibrary
  | [], library => Except.ok library
  | file :: rest, library =>
    -- read the file's contents
    let filePath := pathJoin basePath file
    match romeFS.ReadFile filePath with
    | Except.error err => Except.error err
    | Except.ok data =>
      -- create an Attribute and unmarshal the JSON to it
      match unmarshal data with
      | Except.error err => Except.error (errorsJoin err data)
      | Except.ok attr =>
        -- add the attribute to the library if it does not yet exist
        match library.Attributes attr.AttributeName with
        | some _ => loadFiles unmarshal romeFS basePath rest library
        | none =>
          loadFiles unmarshal romeFS basePath rest
            ⟨mapSet library.Attributes attr.AttributeName attr⟩

/-- Translation of `NewEmbeddedRomeLibrary`: the library of the attributes in
the embedded JSON files, or the error of the load. -/
def NewEmbeddedRomeLibrary (unmarshal : String → Except String Attribute) (romeFS : EmbedFS)
    (customDir : String) : Except String RomeLibrary :=
  let library : RomeLibrary := ⟨fun _ => none⟩
  -- read the embedded directory
  let basePath := "amd/epyc/rome"
  match romeFS.ReadDir basePath with
  | Except.error err => Except.error err
  | Except.ok builtin =>
    -- loop through each json file in the dir
    loadFiles unmarshal romeFS basePath builtin library

/-- A finite sequence of calls of `RegisterAttribute`, one after the other on
the same library; the result is the library after the last call. -/
def registerAll (l : RomeLibrary) : List Attribute → RomeLibrary
  | [] => l
  | a :: rest => registerAll (l.RegisterAttribute a).1 rest

/-- The first attribute of a list that carries the name. -/
def firstNamed (name : String) (attrs : List Attribute) : Option Attribute :=
  attrs.find? (fun a => decide (a.AttributeName = name))

/-- Every attribute of the library is stored under its own `AttributeName`. -/
def KeyedByName (l : RomeLibrary) : Prop :=
  ∀ k a, l.Attributes k = some a → a.AttributeName = k

/-- The lookup in a library to which attributes were added where their name
was free: what was there stays, and a free name gets the first attribute of
the list that carries it. -/
def addedFirst (l : RomeLibrary) (attrs : List Attribute) (name : String) : Option Attribute :=
  match l.Attributes name with
  | some a => some a
  | none => firstNamed name attrs

/-! ## pkg/cmd/cli/cli.go: `MapPrint` -/

/-- The value of a struct field, `v.Field(i).Interface()`, as `MapPrint` tells it
apart by its dynamic type. -/
inductive FieldValue where
  /-- The dynamic type is `map[string]interface{}`; `none` is the nil map. -/
  | mapping (m : Option (List (String × AnyValue)))
  /-- The dynamic type is `[]string`; `none` is the nil slice. -/
  | strings (l : Option (List String))
  /-- The nil interface (`null`), or a value whose dynamic type is `int`, `string`
  or `bool`. -/
  | other (v : AnyValue)
  /-- A value of any other dynamic type (a defined string type, another map or
  slice type, a pointer, an `error`, ...), given by `text`, what `fmt` writes for
  it under `%-60s`.  Such a value is not the nil interface, it is neither a
  `map[string]interface{}` nor a `[]string`, and it is not equal to the untyped
  constant `""`, whose type is `string`. -/
  | formatted (text : String)
  deriving DecidableEq

/-- A result record: a struct with exported fields, given by the names and the
values of its fields in the order of declaration. -/
abbrev Record := List (String × FieldValue)

/-- The order of `sort.Strings`: Go compares strings byte by byte, and the order
of UTF-8 byte sequences is that of the sequences of code points. -/
def strLe (a b : String) : Prop := a.data ≤ b.data

instance strLe.decidable : DecidableRel strLe :=
  fun a b => inferInstanceAs (Decidable (a.data ≤ b.data))

/-- Go's `sort.Strings`: the strings in increasing order. -/
def sortStrings (keys : List String) : List String :=
  keys.insertionSort strLe

/-- Padding of the flag `-` with a width: spaces are added on the right up to
the width, counted in code points; a longer text is left as it is. -/
def padRight (width : Nat) (s : String) : String :=
  s ++ String.mk (List.replicate (width - s.length) ' ')

/-- The text of a value under the verb `%v`. -/
def fmtV : AnyValue → String
  | AnyValue.null => "<nil>"
  | AnyValue.int v => toString v
  | AnyValue.str v => v
  | AnyValue.bool v => if v then "true" else "false"

/-- The text of a value under `%-60s`.  The verb `%s` fits a string; for a value
of another type `fmt` reports the bad verb as `%!s(type=value)`, with the width
applied to the value inside. -/
def fmtPadS : AnyValue → String
  | AnyValue.null => "%!s(<nil>)"
  | AnyValue.int v => "%!s(int=" ++ padRight 60 (toString v) ++ ")"
  | AnyValue.str v => padRight 60 v
  | AnyValue.bool v => "%!s(bool=" ++ padRight 60 (if v then "true" else "false") ++ ")"

/-- The text of `v.Field(i).MapIndex(reflect.ValueOf(key))` under `%-60v`.  The
operand is a `reflect.Value` of the element type `interface{}`: `fmt` writes
`<nil>` for a nil element and `<invalid reflect.Value>` for the zero Value
without looking at the width, and formats the value held by any other element,
width and flag applied. -/
def fmtMapIndex (m : List (String × AnyValue)) (key : String) : String :=
  match m.lookup key with
  | some AnyValue.null => "<nil>"
  | some v => padRight 60 (fmtV v)
  | none => "<invalid reflect.Value>"

/-- The text of a `map[string]string` under `%-60s`: `fmt` writes `map[`, the
entries `key:value` in the order of their keys with a space between two of
them, and `]`; the width is applied to every key and to every value. -/
def fmtStringMap (m : List (String × String)) : String :=
  "map[" ++ " ".intercalate ((sortStrings (m.map (fun e => e.1))).map (fun k =>
    padRight 60 k ++ ":" ++ padRight 60 ((m.lookup k).getD ""))) ++ "]"

/-- A value of a defined string type without methods, such as `type State string`:
under `%-60s` it is written as the string it holds. -/
def definedString (s : String) : FieldValue :=
  FieldValue.formatted (padRight 60 s)

/-- A value of type `map[string]string`; `none` is the nil map. -/
def stringMap (m : Option (List (String × String))) : FieldValue :=
  FieldValue.formatted (fmtStringMap (m.getD []))

/-- The body of the loop of `MapPrint` over the fields of a record, for the
field with the given name and value: the texts that the calls of `fmt.Printf`
write, one element for each call. -/
def fieldLines (name : String) (value : FieldValue) : List String :=
  match value with
  | FieldValue.other AnyValue.null => []
  | FieldValue.mapping m =>
    let keys := (m.getD []).map (fun e => e.1)
    if keys.length ≠ 0 then
      ("\t" ++ name ++ ":\n") ::
        (sortStrings keys).map (fun key =>
          "\t\t" ++ padRight 60 key ++ ": " ++ fmtMapIndex (m.getD []) key ++ "\n")
    else []
  | FieldValue.strings l =>
    ("\t" ++ name ++ ":\n") :: (l.getD []).map (fun v => "\t\t" ++ padRight 60 v ++ "\n")
  | FieldValue.other v =>
    if v = AnyValue.null ∨ v = AnyValue.str "" then []
    else ["\t" ++ padRight 60 name ++ ": " ++ fmtPadS v ++ "\n"]
  | FieldValue.formatted text => ["\t" ++ padRight 60 name ++ ": " ++ text ++ "\n"]

/-- The texts written for the fields of one record. -/
def recordLines (s : Record) : List String :=
  s.flatMap (fun f => fieldLines f.1 f.2)

/-- The texts written for one host: the header and the fields of `content[k]`
(a key taken from the map is always found in it). -/
def hostLines (content : List (String × Record)) (k : String) : List String :=
  (k ++ ":\n") ::
    match content.lookup k with
    | some s => recordLines s
    | none => []

/-- How a call of `MapPrint` ends: with the texts written to standard output, one
element for each call of `fmt.Printf`, or with a panic. -/
inductive PrintOutcome where
  | printed (stdout : List String)
  | panicked (msg : String)
  deriving DecidableEq

/-- Translation of `MapPrint`: outputs a given map to stdout.  `content` holds
the entries of the map in the order in which `range` happens to visit them,
`json` is the value of `viper.GetBool("json")`, and `marshalIndent content` is
what `json.MarshalIndent(content, "", "  ")` returns. -/
def MapPrint (marshalIndent : List (String × Record) → Except String String) (json : Bool)
    (content : List (String × Record)) : PrintOutcome :=
  if json then
    match marshalIndent content with
    | Except.error _ => PrintOutcome.panicked "could not create valid JSON"
    | Except.ok text => PrintOutcome.printed [text ++ "\n"]
  else
    let keys := content.map (fun e => e.1)
    PrintOutcome.printed ((sortStrings keys).flatMap (fun k => hostLines content k))

/-! ### Values for the examples -/

/-- The attribute of the end-to-end example of the specification. -/
def tempAttr : Attribute :=
  { AttributeName := "Temp1ThresholdCritical", DefaultValue := AnyValue.int 95,
    DisplayName := "CPU1 Critical Temperature", HelpText := "", ReadOnly := false,
    AttrType := "Integer", Value := [] }

/-- A second attribute with the name of `tempAttr` and another display name. -/
def tempAttr2 : Attribute :=
  { AttributeName := "Temp1ThresholdCritical", DefaultValue := AnyValue.int 80,
    DisplayName := "Another Label", HelpText := "", ReadOnly := true,
    AttrType := "Integer", Value := [] }

/-- The library with no attribute: `map[string]Attribute{}`. -/
def emptyLibrary : RomeLibrary := ⟨fun _ => none⟩

/-- The library after `tempAttr` is registered in the empty one. -/
def tempLibrary : RomeLibrary := (emptyLibrary.RegisterAttribute tempAttr).1

/-- The embedded file system that holds the given files, name and content, in
the directory "amd/epyc/rome". -/
def listFS (entries : List (String × String)) : EmbedFS where
  ReadDir := fun dir =>
    if dir = "amd/epyc/rome" then Except.ok (entries.map (fun e => e.1))
    else Except.error ("open " ++ dir ++ ": file does not exist")
  ReadFile := fun file =>
    match entries.find? (fun e => decide (pathJoin "amd/epyc/rome" e.1 = file)) with
    | some e => Except.ok e.2
    | none => Except.error ("open " ++ file ++ ": file does not exist")

/-- A third attribute, with a name of its own. -/
def fanAttr : Attribute :=
  { AttributeName := "FanMode", DefaultValue := AnyValue.str "Auto",
    DisplayName := "Fan Mode", HelpText := "", ReadOnly := false,
    AttrType := "Enumeration", Value := [⟨"Automatic", "Auto"⟩, ⟨"Maximum", "Max"⟩] }

/-- A parse function for the examples: three documents are well formed, every
other content is malformed. -/
def exampleUnmarshal (data : String) : Except String Attribute :=
  if data = "temp-document" then Except.ok tempAttr
  else if data = "temp-document-2" then Except.ok tempAttr2
  else if data = "fan-document" then Except.ok fanAttr
  else Except.error "unexpected end of JSON input"

/-- A record with a field of each kind. -/
def exampleRecord : Record :=
  [("State", FieldValue.other (AnyValue.str "On")),
   ("Error", FieldValue.other AnyValue.null),
   ("Attributes", FieldValue.mapping (some [("b", AnyValue.int 2), ("a", AnyValue.str "x")])),
   ("Pending", FieldValue.mapping none),
   ("Members", FieldValue.strings (some []))]

/-- A `json.MarshalIndent` for the examples; the text mode does not call it. -/
def exampleMarshal (_ : List (String × Record)) : Except String String :=
  Except.error "unsupported type"

/-! # Theorems -/

/-! ## unicode/utf8: decoding inverts encoding -/

theorem land_maskx (x : Nat) : x &&& maskx = x % 64 :=
  Nat.and_pow_two_sub_one_eq_mod x 6
theorem land_mask2 (x : Nat) : x &&& mask2 = x % 32 :=
  Nat.and_pow_two_sub_one_eq_mod x 5
theorem land_mask3 (x : Nat) : x &&& mask3 = x % 16 :=
  Nat.and_pow_two_sub_one_eq_mod x 4
theorem land_mask4 (x : Nat) : x &&& mask4 = x % 8 :=
  Nat.and_pow_two_sub_one_eq_mod x 3

theorem lor_pow (i a b : Nat) (hb : b < 2 ^ i) : (a * 2 ^ i) ||| b = a * 2 ^ i + b := by
  have := Nat.mul_add_lt_is_or hb a
  rw [Nat.mul_comm] at this
  exact this.symm

set_option maxRecDepth 100000 in
theorem first_lt (b : Nat) (hb : b < 256) : first.getD b xx =
    (if b < 0x80 then as else if b < 0xC2 then xx else if b < 0xE0 then s1
     else if b = 0xE0 then s2 else if b < 0xED then s3 else if b = 0xED then s4
     else if b < 0xF0 then s3 else if b = 0xF0 then s5 else if b < 0xF4 then s6
     else if b = 0xF4 then s7 else xx) := by
  revert b
  decide

set_option maxRecDepth 100000 in
theorem first_length : first.length = 256 := by decide

theorem first_ge (b : Nat) (hb : 256 ≤ b) : first.getD b xx = xx := by
  apply List.getD_eq_default
  rw [first_length]; exact hb

theorem decode1 (b0 : Nat) (rest : List Nat) (h0 : b0 < 0x80) :
    DecodeRune (b0 :: rest) = (((b0 : Nat) : Int), 1) := by
  have hx : first.getD b0 xx = as := by
    rw [first_lt b0 (by omega)]; simp [h0]
  have hm : b0 &&& 0xFFFFFFFF = b0 := by
    have := Nat.and_pow_two_sub_one_eq_mod b0 32
    rw [Nat.mod_eq_of_lt (by omega)] at this
    exact this
  unfold DecodeRune
  simp only [List.length_cons, List.getD_cons_zero, hx]
  have e1 : ¬ (rest.length + 1 < 1) := by omega
  have e2 : (as ≥ as) := le_refl _
  have e3 : ¬ ((as <<< 31) % 2 ^ 32 ≥ 2 ^ 31) := by decide
  simp only [e1, e2, e3, if_true, if_false]
  have e4 : (0xFFFFFFFF ^^^ 0 : Nat) = 0xFFFFFFFF := by decide
  simp only [e4, hm, Nat.and_zero, Nat.or_zero]

theorem decode2 (b0 b1 : Nat) (rest : List Nat) (h0 : 0xC2 ≤ b0 ∧ b0 ≤ 0xDF)
    (h1 : 0x80 ≤ b1 ∧ b1 ≤ 0xBF) :
    DecodeRune (b0 :: b1 :: rest) = ((((b0 % 32) * 64 + b1 % 64 : Nat) : Int), 2) := by
  have hx : first.getD b0 xx = s1 := by
    rw [first_lt b0 (by omega)]
    rw [if_neg (by omega), if_neg (by omega), if_pos (by omega)]
  unfold DecodeRune
  simp only [List.length_cons, List.getD_cons_zero, List.getD_cons_succ, hx]
  have e1 : ¬ (rest.length + 1 + 1 < 1) := by omega
  have e2 : ¬ (s1 ≥ as) := by decide
  have e3 : s1 &&& 7 = 2 := by decide
  have e4 : acceptRanges.getD (s1 >>> 4) (0, 0) = (0x80, 0xBF) := by decide
  simp only [e1, e2, e3, e4, if_false]
  rw [if_neg (by omega), if_neg (by omega), if_pos (le_refl _)]
  rw [land_mask2, land_maskx, Nat.shiftLeft_eq, lor_pow 6 _ _ (by omega)]
  rfl


theorem lor_of_mod (i x b : Nat) (hx : x % 2 ^ i = 0) (hb : b < 2 ^ i) : x ||| b = x + b := by
  have hx2 : x = (x / 2 ^ i) * 2 ^ i := (Nat.div_mul_cancel (Nat.dvd_of_mod_eq_zero hx)).symm
  rw [hx2, lor_pow i _ _ hb]

theorem decode3_of (b0 b1 b2 lo hi : Nat) (rest : List Nat)
    (hx1 : ¬ first.getD b0 xx ≥ as) (hx2 : first.getD b0 xx &&& 7 = 3)
    (hx3 : acceptRanges.getD (first.getD b0 xx >>> 4) (0, 0) = (lo, hi))
    (h1 : lo ≤ b1 ∧ b1 ≤ hi) (h2 : 0x80 ≤ b2 ∧ b2 ≤ 0xBF) :
    DecodeRune (b0 :: b1 :: b2 :: rest) =
      ((((b0 % 16) * 4096 + (b1 % 64) * 64 + b2 % 64 : Nat) : Int), 3) := by
  unfold DecodeRune
  simp only [List.length_cons, List.getD_cons_zero, List.getD_cons_succ, hx2, hx3]
  have e1 : ¬ (rest.length + 1 + 1 + 1 < 1) := by omega
  simp only [e1, hx1, if_false, locb, hicb]
  rw [if_neg (by omega), if_neg (by omega), if_neg (by omega), if_neg (by omega),
    if_pos (le_refl _)]
  rw [land_mask3, land_maskx, land_maskx, Nat.shiftLeft_eq, Nat.shiftLeft_eq,
    lor_of_mod 12 (b0 % 16 * 2 ^ 12) _ (by omega) (by omega),
    lor_of_mod 6 (b0 % 16 * 2 ^ 12 + b1 % 64 * 2 ^ 6) _ (by omega) (by omega)]

theorem decode4_of (b0 b1 b2 b3 lo hi : Nat) (rest : List Nat)
    (hx1 : ¬ first.getD b0 xx ≥ as) (hx2 : first.getD b0 xx &&& 7 = 4)
    (hx3 : acceptRanges.getD (first.getD b0 xx >>> 4) (0, 0) = (lo, hi))
    (h1 : lo ≤ b1 ∧ b1 ≤ hi) (h2 : 0x80 ≤ b2 ∧ b2 ≤ 0xBF) (h3 : 0x80 ≤ b3 ∧ b3 ≤ 0xBF) :
    DecodeRune (b0 :: b1 :: b2 :: b3 :: rest) =
      ((((b0 % 8) * 262144 + (b1 % 64) * 4096 + (b2 % 64) * 64 + b3 % 64 : Nat) : Int), 4) := by
  unfold DecodeRune
  simp only [List.length_cons, List.getD_cons_zero, List.getD_cons_succ, hx2, hx3]
  have e1 : ¬ (rest.length + 1 + 1 + 1 + 1 < 1) := by omega
  simp only [e1, hx1, if_false, locb, hicb]
  rw [if_neg (by omega), if_neg (by omega), if_neg (by omega), if_neg (by omega),
    if_neg (by omega), if_neg (by omega)]
  rw [land_mask4, land_maskx, land_maskx, land_maskx, Nat.shiftLeft_eq, Nat.shiftLeft_eq,
    Nat.shiftLeft_eq,
    lor_of_mod 18 (b0 % 8 * 2 ^ 18) _ (by omega) (by omega),
    lor_of_mod 12 (b0 % 8 * 2 ^ 18 + b1 % 64 * 2 ^ 12) _ (by omega) (by omega),
    lor_of_mod 6 (b0 % 8 * 2 ^ 18 + b1 % 64 * 2 ^ 12 + b2 % 64 * 2 ^ 6) _ (by omega) (by omega)]


theorem ValidRune_iff (r : Int) : ValidRune r = true ↔
    (0 ≤ r ∧ r < 0xD800) ∨ (0xDFFF < r ∧ r ≤ 0x10FFFF) := by
  unfold ValidRune surrogateMin surrogateMax MaxRune
  split_ifs <;> simp <;> omega

theorem EncodeRune_nat (n : Nat) (hn : n ≤ 0x10FFFF) : EncodeRune (n : Int) =
    if n ≤ 0x7F then [n]
    else if n ≤ 0x7FF then [192 + n / 64, 128 + n % 64]
    else if 0xD800 ≤ n ∧ n ≤ 0xDFFF then [0xEF, 0xBF, 0xBD]
    else if n ≤ 0xFFFF then [224 + n / 4096, 128 + n / 64 % 64, 128 + n % 64]
    else [240 + n / 262144, 128 + n / 4096 % 64, 128 + n / 64 % 64, 128 + n % 64] := by
  have hi : (((n : Int)) % 2 ^ 32).toNat = n := by omega
  unfold EncodeRune
  simp only [hi, rune1Max, rune2Max, rune3Max, MaxRune, surrogateMin, surrogateMax, t2, t3, t4, tx,
    land_maskx, Nat.shiftRight_eq_div_pow, RuneError]
  by_cases h1 : n ≤ 0x7F
  · rw [if_pos h1, if_pos h1, Nat.mod_eq_of_lt (by omega)]
  rw [if_neg h1, if_neg h1]
  by_cases h2 : n ≤ 0x7FF
  · rw [if_pos h2, if_pos h2, lor_of_mod 6 192 _ (by omega) (by omega),
      lor_of_mod 6 128 _ (by omega) (by omega)]
    simp only [List.cons.injEq, and_true]
    omega
  rw [if_neg h2, if_neg h2]
  by_cases h3 : 0xD800 ≤ n ∧ n ≤ 0xDFFF
  · rw [if_pos (Or.inr h3), if_pos h3]
    decide
  rw [if_neg (by omega), if_neg h3]
  by_cases h4 : n ≤ 0xFFFF
  · rw [if_pos h4, if_pos h4, lor_of_mod 6 128 _ (by omega) (by omega),
      lor_of_mod 6 128 _ (by omega) (by omega), lor_of_mod 4 224 _ (by omega) (by omega)]
    simp only [List.cons.injEq, and_true]
    omega
  rw [if_neg h4, if_neg h4, lor_of_mod 6 128 _ (by omega) (by omega),
      lor_of_mod 6 128 _ (by omega) (by omega), lor_of_mod 6 128 _ (by omega) (by omega),
      lor_of_mod 3 240 _ (by omega) (by omega)]
  simp only [List.cons.injEq, and_true]
  omega

/-- Decoding inverts encoding: the bytes of a valid rune, followed by anything,
decode to that rune with the width of its encoding. -/
theorem DecodeRune_EncodeRune (r : Int) (hr : ValidRune r = true) (rest : List Nat) :
    DecodeRune (EncodeRune r ++ rest) = (r, (EncodeRune r).length) ∧
      1 ≤ (EncodeRune r).length := by
  rw [ValidRune_iff] at hr
  obtain ⟨n, rfl⟩ : ∃ n : Nat, r = (n : Int) := ⟨r.toNat, by omega⟩
  have hn : n ≤ 0x10FFFF := by omega
  rw [EncodeRune_nat n hn]
  by_cases h1 : n ≤ 0x7F
  · rw [if_pos h1]
    exact ⟨decode1 n rest (by omega), by simp⟩
  rw [if_neg h1]
  by_cases h2 : n ≤ 0x7FF
  · rw [if_pos h2]
    refine ⟨?_, by simp⟩
    show DecodeRune ((192 + n / 64) :: (128 + n % 64) :: rest) = _
    rw [decode2 _ _ rest (by omega) (by omega)]
    simp only [List.length_cons, List.length_nil, Prod.mk.injEq, and_true]
    omega
  rw [if_neg h2, if_neg (by omega)]
  by_cases h4 : n ≤ 0xFFFF
  · rw [if_pos h4]
    refine ⟨?_, by simp⟩
    show DecodeRune ((224 + n / 4096) :: (128 + n / 64 % 64) :: (128 + n % 64) :: rest) = _
    have hb0 : 224 + n / 4096 < 256 := by omega
    by_cases c1 : n / 4096 = 0
    · have hx : first.getD (224 + n / 4096) xx = s2 := by
        rw [first_lt _ hb0]
        rw [if_neg (by omega), if_neg (by omega), if_neg (by omega), if_pos (by omega)]
      rw [decode3_of _ _ _ 0xA0 0xBF rest (by rw [hx]; decide) (by rw [hx]; decide)
        (by rw [hx]; decide) (by omega) (by omega)]
      simp only [List.length_cons, List.length_nil, Prod.mk.injEq, and_true]
      omega
    by_cases c2 : n / 4096 = 13
    · have hx : first.getD (224 + n / 4096) xx = s4 := by
        rw [first_lt _ hb0]
        rw [if_neg (by omega), if_neg (by omega), if_neg (by omega), if_neg (by omega),
          if_neg (by omega), if_pos (by omega)]
      rw [decode3_of _ _ _ 0x80 0x9F rest (by rw [hx]; decide) (by rw [hx]; decide)
        (by rw [hx]; decide) (by omega) (by omega)]
      simp only [List.length_cons, List.length_nil, Prod.mk.injEq, and_true]
      omega
    have hx : first.getD (224 + n / 4096) xx = s3 := by
      rw [first_lt _ hb0]
      by_cases c3 : 224 + n / 4096 < 0xED
      · rw [if_neg (by omega), if_neg (by omega), if_neg (by omega), if_neg (by omega),
          if_pos c3]
      · rw [if_neg (by omega), if_neg (by omega), if_neg (by omega), if_neg (by omega),
          if_neg c3, if_neg (by omega), if_pos (by omega)]
    rw [decode3_of _ _ _ 0x80 0xBF rest (by rw [hx]; decide) (by rw [hx]; decide)
      (by rw [hx]; decide) (by omega) (by omega)]
    simp only [List.length_cons, List.length_nil, Prod.mk.injEq, and_true]
    omega
  rw [if_neg h4]
  refine ⟨?_, by simp⟩
  show DecodeRune ((240 + n / 262144) :: (128 + n / 4096 % 64) :: (128 + n / 64 % 64) ::
    (128 + n % 64) :: rest) = _
  have hb0 : 240 + n / 262144 < 256 := by omega
  by_cases c1 : n / 262144 = 0
  · have hx : first.getD (240 + n / 262144) xx = s5 := by
      rw [first_lt _ hb0]
      rw [if_neg (by omega), if_neg (by omega), if_neg (by omega), if_neg (by omega),
        if_neg (by omega), if_neg (by omega), if_neg (by omega), if_pos (by omega)]
    rw [decode4_of _ _ _ _ 0x90 0xBF rest (by rw [hx]; decide) (by rw [hx]; decide)
      (by rw [hx]; decide) (by omega) (by omega) (by omega)]
    simp only [List.length_cons, List.length_nil, Prod.mk.injEq, and_true]
    omega
  by_cases c2 : n / 262144 = 4
  · have hx : first.getD (240 + n / 262144) xx = s7 := by
      rw [first_lt _ hb0]
      rw [if_neg (by omega), if_neg (by omega), if_neg (by omega), if_neg (by omega),
        if_neg (by omega), if_neg (by omega), if_neg (by omega), if_neg (by omega),
        if_neg (by omega), if_pos (by omega)]
    rw [decode4_of _ _ _ _ 0x80 0x8F rest (by rw [hx]; decide) (by rw [hx]; decide)
      (by rw [hx]; decide) (by omega) (by omega) (by omega)]
    simp only [List.length_cons, List.length_nil, Prod.mk.injEq, and_true]
    omega
  have hx : first.getD (240 + n / 262144) xx = s6 := by
    rw [first_lt _ hb0]
    rw [if_neg (by omega), if_neg (by omega), if_neg (by omega), if_neg (by omega),
      if_neg (by omega), if_neg (by omega), if_neg (by omega), if_neg (by omega),
      if_pos (by omega)]
  rw [decode4_of _ _ _ _ 0x80 0xBF rest (by rw [hx]; decide) (by rw [hx]; decide)
    (by rw [hx]; decide) (by omega) (by omega) (by omega)]
  simp only [List.length_cons, List.length_nil, Prod.mk.injEq, and_true]
  omega


/-! ## The delimiter class -/

theorem isDelimiter_iff (r : Int) :
    isDelimiter r = true ↔ (specIsSpace r ∨ r = 0x2C ∨ r = 0x3B ∨ r = 0x7C) := by
  unfold isDelimiter specIsSpace
  split_ifs <;> simp <;> omega

/-! ## The two loops of `scanWords` -/

theorem DecodeRune_size_pos (p : List Nat) (hp : p ≠ []) : 1 ≤ (DecodeRune p).2 := by
  have hlen : ¬ p.length < 1 := by
    cases p with
    | nil => exact absurd rfl hp
    | cons a t => simp
  unfold DecodeRune
  simp only [hlen, if_false]
  split_ifs <;> simp

theorem skipLeading_spec (data : List Nat) (fuel start : Nat) (h : data.length - start ≤ fuel) :
    start ≤ skipLeading data fuel start h ∧
      (skipLeading data fuel start h < data.length →
        isDelimiter (DecodeRune (data.drop (skipLeading data fuel start h))).1 = false) := by
  induction fuel generalizing start with
  | zero =>
    unfold skipLeading
    exact ⟨le_refl _, fun hlt => by omega⟩
  | succ fuel ih =>
    unfold skipLeading
    by_cases hlt : start < data.length
    · rw [dif_pos hlt]
      by_cases hd : isDelimiter (DecodeRune (data.drop start)).1 = true
      · simp only [hd, Bool.not_true, Bool.false_eq_true, if_false]
        have := ih (start + (DecodeRune (data.drop start)).2) (by
          have := DecodeRune_size_pos (data.drop start) (by
            intro hnil
            have := congrArg List.length hnil
            rw [List.length_drop] at this; simp at this; omega)
          omega)
        exact ⟨by omega, this.2⟩
      · have hd2 : isDelimiter (DecodeRune (data.drop start)).1 = false := by
          simpa using hd
        rw [if_pos (by rw [hd2]; rfl)]
        exact ⟨le_refl _, fun _ => hd2⟩
    · rw [dif_neg hlt]
      exact ⟨le_refl _, fun h2 => absurd h2 hlt⟩

theorem scanUntilSpace_spec (data : List Nat) (start fuel i : Nat) (h : data.length - i ≤ fuel)
    (adv : Nat) (tok : List Nat) (hres : scanUntilSpace data start fuel i h = some (adv, tok)) :
    ∃ j, i ≤ j ∧ j < data.length ∧ isDelimiter (DecodeRune (data.drop j)).1 = true ∧
      adv = j + (DecodeRune (data.drop j)).2 ∧ tok = (data.drop start).take (j - start) := by
  induction fuel generalizing i with
  | zero =>
    unfold scanUntilSpace at hres
    exact absurd hres (by simp)
  | succ fuel ih =>
    unfold scanUntilSpace at hres
    by_cases hlt : i < data.length
    · rw [dif_pos hlt] at hres
      by_cases hd : isDelimiter (DecodeRune (data.drop i)).1 = true
      · simp only [hd, if_true, Option.some.injEq, Prod.mk.injEq] at hres
        exact ⟨i, le_refl _, hlt, hd, hres.1.symm, hres.2.symm⟩
      · simp only [hd, if_false] at hres
        obtain ⟨j, hj1, hj2⟩ := ih _ _ hres
        exact ⟨j, by omega, hj2⟩
    · rw [dif_neg hlt] at hres
      exact absurd hres (by simp)

/-- A token that `scanWords` returns holds at least one byte. -/
theorem scanWords_token_length_pos (data : List Nat) (atEOF : Bool) (token : List Nat)
    (h : (scanWords data atEOF).token = some token) : 1 ≤ token.length := by
  have hs := skipLeading_spec data data.length 0 (by omega)
  unfold scanWords at h
  simp only at h
  split at h
  · rename_i adv tok hres
    simp only [Option.some.injEq] at h
    obtain ⟨j, hj1, hj2, hj3, -, hj5⟩ := scanUntilSpace_spec data _ _ _ _ adv tok hres
    have hne : j ≠ skipLeading data data.length 0 (by omega) := by
      intro hEq
      rw [hEq] at hj3 hj2
      rw [hs.2 hj2] at hj3
      exact absurd hj3 (by simp)
    rw [← h, hj5, List.length_take, List.length_drop]
    omega
  · split_ifs at h with hc
    · simp only [Option.some.injEq] at h
      rw [← h, List.length_drop]
      omega

/-! ## `scanWords` on encoded runes -/

theorem isDelimiter_valid (d : Int) (hd : isDelimiter d = true) : ValidRune d = true := by
  rw [ValidRune_iff]
  have := (isDelimiter_iff d).mp hd
  unfold specIsSpace at this
  omega

theorem drop_ne_nil_of_lt (data : List Nat) (i : Nat) (h : i < data.length) :
    data.drop i ≠ [] := by
  intro hnil
  have := congrArg List.length hnil
  rw [List.length_drop] at this
  simp at this
  omega

/-- The first loop runs over a run of encoded delimiters and stops behind it. -/
theorem skipLeading_delims (ds : List Int) :
    ∀ (data pre rest : List Nat) (fuel start : Nat) (h : data.length - start ≤ fuel),
      data = pre ++ (encodeRunes ds ++ rest) → start = pre.length →
      isDelimiterRun ds = true →
      (rest = [] ∨ isDelimiter (DecodeRune rest).1 = false) →
      skipLeading data fuel start h = pre.length + (encodeRunes ds).length := by
  induction ds with
  | nil =>
    intro data pre rest fuel start h hd hs _ hrest
    subst hs
    simp only [encodeRunes, List.nil_append, List.length_nil, Nat.add_zero] at hd ⊢
    cases fuel with
    | zero => unfold skipLeading; rfl
    | succ fuel =>
      unfold skipLeading
      by_cases hlt : pre.length < data.length
      · rw [dif_pos hlt]
        have hdrop : data.drop pre.length = rest := by
          rw [hd, List.drop_left]
        rcases hrest with hnil | hnd
        · subst hnil
          rw [hd] at hlt; simp at hlt
        · rw [if_pos (by rw [hdrop, hnd]; rfl)]
      · rw [dif_neg hlt]
  | cons d ds ih =>
    intro data pre rest fuel start h hd hs hds hrest
    subst hs
    have hdd : isDelimiter d = true ∧ isDelimiterRun ds = true := by
      simpa [isDelimiterRun] using hds
    have hrt := DecodeRune_EncodeRune d (isDelimiter_valid d hdd.1) (encodeRunes ds ++ rest)
    have hdrop : data.drop pre.length = EncodeRune d ++ (encodeRunes ds ++ rest) := by
      rw [hd, List.drop_left]; simp [encodeRunes]
    have hlen : data.length = pre.length + (EncodeRune d).length + (encodeRunes ds ++ rest).length := by
      rw [hd]; simp [encodeRunes]; omega
    cases fuel with
    | zero => omega
    | succ fuel =>
      unfold skipLeading
      rw [dif_pos (by omega)]
      simp only [hdrop, hrt.1, hdd.1, Bool.not_true, Bool.false_eq_true, if_false]
      rw [ih data (pre ++ EncodeRune d) rest fuel _ _ (by rw [hd]; simp [encodeRunes])
        (by simp) hdd.2 hrest]
      simp [encodeRunes]; omega

theorem NoDelimiter_inv (p : List Nat) (h : NoDelimiter p) (hne : p ≠ []) :
    isDelimiter (DecodeRune p).1 = false ∧ NoDelimiter (p.drop (DecodeRune p).2) := by
  cases h with
  | nil => exact absurd rfl hne
  | rune _ _ h1 h2 => exact ⟨h1, h2⟩

/-- The second loop finds nothing to return in bytes that hold no delimiter. -/
theorem scanUntilSpace_none (data : List Nat) (start fuel : Nat) :
    ∀ (i : Nat) (h : data.length - i ≤ fuel), NoDelimiter (data.drop i) →
      scanUntilSpace data start fuel i h = none := by
  induction fuel with
  | zero => intro i h _; unfold scanUntilSpace; rfl
  | succ fuel ih =>
    intro i h hnd
    unfold scanUntilSpace
    by_cases hlt : i < data.length
    · rw [dif_pos hlt]
      obtain ⟨hdel, hrest⟩ := NoDelimiter_inv _ hnd (drop_ne_nil_of_lt data i hlt)
      simp only [hdel, Bool.false_eq_true, if_false]
      apply ih
      rw [List.drop_drop] at hrest
      exact hrest
    · rw [dif_neg hlt]

theorem NoDelimiter_encodeRunes (w : List Int)
    (hw : w.all (fun r => ValidRune r && !isDelimiter r) = true) :
    NoDelimiter (encodeRunes w) := by
  induction w with
  | nil => exact NoDelimiter.nil
  | cons r rs ih =>
    have hr : (ValidRune r = true ∧ isDelimiter r = false) ∧
        rs.all (fun r => ValidRune r && !isDelimiter r) = true := by
      simpa using hw
    have hrt := DecodeRune_EncodeRune r hr.1.1 (encodeRunes rs)
    have hne : EncodeRune r ++ encodeRunes rs ≠ [] := by
      intro hnil
      have := congrArg List.length hnil
      rw [List.length_append, List.length_nil] at this
      have := hrt.2
      omega
    refine NoDelimiter.rune _ hne ?_ ?_
    · show isDelimiter (DecodeRune (EncodeRune r ++ encodeRunes rs)).1 = false
      rw [hrt.1]; exact hr.1.2
    · show NoDelimiter ((EncodeRune r ++ encodeRunes rs).drop
        (DecodeRune (EncodeRune r ++ encodeRunes rs)).2)
      rw [hrt.1]
      simp only [List.drop_left]
      exact ih hr.2

/-- The second loop runs over the runes of a word and returns at the delimiter
that follows it. -/
theorem scanUntilSpace_word (w : List Int) :
    ∀ (data pre rest : List Nat) (d : Int) (start fuel i : Nat) (h : data.length - i ≤ fuel),
      data = pre ++ (encodeRunes w ++ (EncodeRune d ++ rest)) → i = pre.length →
      w.all (fun r => ValidRune r && !isDelimiter r) = true → isDelimiter d = true →
      scanUntilSpace data start fuel i h =
        some (pre.length + (encodeRunes w).length + (EncodeRune d).length,
          (data.drop start).take (pre.length + (encodeRunes w).length - start)) := by
  induction w with
  | nil =>
    intro data pre rest d start fuel i h hd hi _ hdel
    subst hi
    have hrt := DecodeRune_EncodeRune d (isDelimiter_valid d hdel) rest
    have hdrop : data.drop pre.length = EncodeRune d ++ rest := by
      rw [hd, List.drop_left]; simp [encodeRunes]
    have hlen : data.length = pre.length + (EncodeRune d).length + rest.length := by
      rw [hd]; simp [encodeRunes]; omega
    cases fuel with
    | zero => omega
    | succ fuel =>
      unfold scanUntilSpace
      rw [dif_pos (by omega)]
      simp only [hdrop, hrt.1, hdel, if_true, encodeRunes, List.length_nil, Nat.add_zero]
  | cons r rs ih =>
    intro data pre rest d start fuel i h hd hi hw hdel
    subst hi
    have hr : (ValidRune r = true ∧ isDelimiter r = false) ∧
        rs.all (fun r => ValidRune r && !isDelimiter r) = true := by
      simpa using hw
    have hrt := DecodeRune_EncodeRune r hr.1.1 (encodeRunes rs ++ (EncodeRune d ++ rest))
    have hdrop : data.drop pre.length =
        EncodeRune r ++ (encodeRunes rs ++ (EncodeRune d ++ rest)) := by
      rw [hd, List.drop_left]; simp [encodeRunes]
    have hlen : data.length = pre.length + (EncodeRune r).length +
        (encodeRunes rs ++ (EncodeRune d ++ rest)).length := by
      rw [hd]; simp [encodeRunes]; omega
    cases fuel with
    | zero => omega
    | succ fuel =>
      unfold scanUntilSpace
      rw [dif_pos (by omega)]
      simp only [hdrop, hrt.1, hr.1.2, Bool.false_eq_true, if_false]
      rw [ih data (pre ++ EncodeRune r) rest d start fuel _ _ (by rw [hd]; simp [encodeRunes])
        (by simp) hr.2 hdel]
      simp [encodeRunes]
      constructor
      · omega
      · congr 1; omega

theorem scanWords_of_some (data : List Nat) (atEOF : Bool) (s advance : Nat) (token : List Nat)
    (hs : skipLeading data data.length 0 (Nat.sub_le _ _) = s)
    (hres : ∀ h, scanUntilSpace data s data.length s h = some (advance, token)) :
    scanWords data atEOF = ⟨advance, some token, none⟩ := by
  subst hs
  unfold scanWords
  simp only [hres]

theorem scanWords_of_none (data : List Nat) (atEOF : Bool) (s : Nat)
    (hs : skipLeading data data.length 0 (Nat.sub_le _ _) = s)
    (hres : ∀ h, scanUntilSpace data s data.length s h = none) :
    scanWords data atEOF =
      if atEOF ∧ data.length > s then ⟨data.length, some (data.drop s), none⟩
      else ⟨s, none, none⟩ := by
  subst hs
  unfold scanWords
  simp only [hres]

theorem NoDelimiter_head (rest : List Nat) (hnd : NoDelimiter rest) :
    rest = [] ∨ isDelimiter (DecodeRune rest).1 = false := by
  by_cases hne : rest = []
  · exact Or.inl hne
  · exact Or.inr (NoDelimiter_inv rest hnd hne).1

/-- The form of `scanWords_of_run` for a leading run given by its runes. -/
theorem scanWords_no_delimiter (ds : List Int) (rest : List Nat)
    (hds : isDelimiterRun ds = true) (hnd : NoDelimiter rest) :
    scanWords (encodeRunes ds ++ rest) false = ⟨(encodeRunes ds).length, none, none⟩ ∧
    (rest ≠ [] → scanWords (encodeRunes ds ++ rest) true =
        ⟨(encodeRunes ds ++ rest).length, some rest, none⟩) := by
  have hskip := skipLeading_delims ds (encodeRunes ds ++ rest) [] rest
    (encodeRunes ds ++ rest).length 0 (Nat.sub_le _ _) rfl rfl hds (NoDelimiter_head rest hnd)
  simp only [List.length_nil, Nat.zero_add] at hskip
  have hscan : ∀ h, scanUntilSpace (encodeRunes ds ++ rest) (encodeRunes ds).length
      (encodeRunes ds ++ rest).length (encodeRunes ds).length h = none := fun h =>
    scanUntilSpace_none _ _ _ _ h (by rw [List.drop_left]; exact hnd)
  constructor
  · rw [scanWords_of_none _ false _ hskip hscan]
    simp
  · intro hne
    rw [scanWords_of_none _ true _ hskip hscan]
    have hpos : 0 < rest.length := List.length_pos.mpr hne
    simp [List.drop_left, hpos]

theorem scanWords_delims (ds : List Int) (atEOF : Bool) (hds : isDelimiterRun ds = true) :
    scanWords (encodeRunes ds) atEOF = ⟨(encodeRunes ds).length, none, none⟩ := by
  have hskip := skipLeading_delims ds (encodeRunes ds) [] []
    (encodeRunes ds).length 0 (Nat.sub_le _ _) (by simp) rfl hds (Or.inl rfl)
  simp only [List.length_nil, Nat.zero_add] at hskip
  have hscan : ∀ h, scanUntilSpace (encodeRunes ds) (encodeRunes ds).length
      (encodeRunes ds).length (encodeRunes ds).length h = none := fun h =>
    scanUntilSpace_none _ _ _ _ h (by rw [List.drop_length]; exact NoDelimiter.nil)
  rw [scanWords_of_none _ atEOF _ hskip hscan]
  simp

theorem isWord_iff (w : List Int) : isWord w = true ↔
    w ≠ [] ∧ w.all (fun r => ValidRune r && !isDelimiter r) = true := by
  unfold isWord
  cases w <;> simp

theorem encodeRunes_ne_nil (w : List Int) (hw : isWord w = true) : encodeRunes w ≠ [] := by
  obtain ⟨hne, hall⟩ := (isWord_iff w).mp hw
  cases w with
  | nil => exact absurd rfl hne
  | cons r rs =>
    have hr : (ValidRune r = true ∧ isDelimiter r = false) ∧
        rs.all (fun r => ValidRune r && !isDelimiter r) = true := by
      simpa using hall
    have := (DecodeRune_EncodeRune r hr.1.1 []).2
    intro hnil
    have h2 := congrArg List.length hnil
    simp only [encodeRunes, List.length_append, List.length_nil] at h2
    omega

theorem word_head (w : List Int) (hw : isWord w = true) (rest : List Nat) :
    isDelimiter (DecodeRune (encodeRunes w ++ rest)).1 = false := by
  obtain ⟨hne, hall⟩ := (isWord_iff w).mp hw
  cases w with
  | nil => exact absurd rfl hne
  | cons r rs =>
    have hr : (ValidRune r = true ∧ isDelimiter r = false) ∧
        rs.all (fun r => ValidRune r && !isDelimiter r) = true := by
      simpa using hall
    have := (DecodeRune_EncodeRune r hr.1.1 (encodeRunes rs ++ rest)).1
    simp only [encodeRunes, List.append_assoc]
    rw [this]; exact hr.1.2

/-- A word between delimiters is returned whole, whatever `atEOF` is. -/
theorem scanWords_word (lead w : List Int) (d : Int) (rest : List Nat) (atEOF : Bool)
    (hlead : isDelimiterRun lead = true) (hw : isWord w = true) (hd : isDelimiter d = true) :
    scanWords (encodeRunes lead ++ (encodeRunes w ++ (EncodeRune d ++ rest))) atEOF =
      ⟨(encodeRunes lead).length + (encodeRunes w).length + (EncodeRune d).length,
        some (encodeRunes w), none⟩ := by
  have hskip := skipLeading_delims lead _ [] (encodeRunes w ++ (EncodeRune d ++ rest))
    (encodeRunes lead ++ (encodeRunes w ++ (EncodeRune d ++ rest))).length 0 (Nat.sub_le _ _)
    rfl rfl hlead (Or.inr (word_head w hw _))
  simp only [List.length_nil, Nat.zero_add] at hskip
  have hscan := fun h => scanUntilSpace_word w
    (encodeRunes lead ++ (encodeRunes w ++ (EncodeRune d ++ rest))) (encodeRunes lead) rest d
    (encodeRunes lead).length
    (encodeRunes lead ++ (encodeRunes w ++ (EncodeRune d ++ rest))).length
    (encodeRunes lead).length h rfl rfl ((isWord_iff w).mp hw).2 hd
  rw [scanWords_of_some _ atEOF _ _ _ hskip hscan]
  simp [List.drop_left]

/-! ## The scan of a whole input -/

theorem wellFormed_cons (w sep : List Int) (rest : List (List Int × List Int))
    (h : wellFormed ((w, sep) :: rest) = true) :
    isWord w = true ∧ isDelimiterRun sep = true ∧ (sep ≠ [] ∨ rest = []) ∧
      wellFormed rest = true := by
  unfold wellFormed at h
  simp only [Bool.and_eq_true, Bool.or_eq_true] at h
  refine ⟨h.1.1.1, h.1.1.2, ?_, h.2⟩
  rcases h.1.2 with h1 | h1
  · left
    intro hnil
    rw [hnil] at h1
    exact absurd h1 (by decide)
  · exact Or.inr (List.isEmpty_iff.mp h1)

theorem scanWords_nil (atEOF : Bool) : scanWords [] atEOF = ⟨0, none, none⟩ := by
  cases atEOF <;> decide

theorem scanWords_last (lead w : List Int) (hlead : isDelimiterRun lead = true)
    (hw : isWord w = true) :
    scanWords (encodeRunes lead ++ encodeRunes w) false = ⟨(encodeRunes lead).length, none, none⟩ ∧
    scanWords (encodeRunes lead ++ encodeRunes w) true =
      ⟨(encodeRunes lead ++ encodeRunes w).length, some (encodeRunes w), none⟩ := by
  have h := scanWords_no_delimiter lead (encodeRunes w) hlead
    (NoDelimiter_encodeRunes w ((isWord_iff w).mp hw).2)
  exact ⟨h.1, h.2 (encodeRunes_ne_nil w hw)⟩

/-- The scan at end of input returns the words in order. -/
theorem scanAll_atEOF (items : List (List Int × List Int)) :
    ∀ (lead : List Int) (fuel : Nat), isDelimiterRun lead = true → wellFormed items = true →
      items.length + 1 ≤ fuel →
      scanAll fuel (encodeRunes lead ++ joinWords items) true =
        some (items.map (fun p => encodeRunes p.1)) := by
  induction items with
  | nil =>
    intro lead fuel hlead _ hfuel
    obtain ⟨f, rfl⟩ : ∃ f, fuel = f + 1 := ⟨fuel - 1, by simp at hfuel; omega⟩
    simp only [joinWords, List.append_nil, scanAll, scanWords_delims lead true hlead, if_true,
      List.map_nil]
  | cons it rest ih =>
    intro lead fuel hlead hwf hfuel
    obtain ⟨w, sep⟩ := it
    obtain ⟨hw, hsep, hlast, hrest⟩ := wellFormed_cons w sep rest hwf
    obtain ⟨f, rfl⟩ : ∃ f, fuel = f + 1 := ⟨fuel - 1, by simp at hfuel; omega⟩
    simp only [List.length_cons] at hfuel
    cases sep with
    | cons d ds =>
      have hdd : isDelimiter d = true ∧ isDelimiterRun ds = true := by
        simpa [isDelimiterRun] using hsep
      have hsw := scanWords_word lead w d (encodeRunes ds ++ joinWords rest) true hlead hw hdd.1
      have hbuf : encodeRunes lead ++ joinWords ((w, d :: ds) :: rest) =
          encodeRunes lead ++ (encodeRunes w ++ (EncodeRune d ++
            (encodeRunes ds ++ joinWords rest))) := by
        simp [joinWords, encodeRunes]
      rw [hbuf]
      unfold scanAll
      simp only [hsw]
      have hdrop : (encodeRunes lead ++ (encodeRunes w ++ (EncodeRune d ++
            (encodeRunes ds ++ joinWords rest)))).drop
          ((encodeRunes lead).length + (encodeRunes w).length + (EncodeRune d).length) =
          encodeRunes ds ++ joinWords rest := by
        rw [← List.append_assoc, ← List.append_assoc, ← List.length_append,
          ← List.length_append, List.drop_left]
      rw [hdrop, ih ds f hdd.2 hrest (by omega)]
      simp
    | nil =>
      have hr : rest = [] := by
        rcases hlast with h | h
        · exact absurd rfl h
        · exact h
      subst hr
      have hsw := (scanWords_last lead w hlead hw).2
      have hbuf : encodeRunes lead ++ joinWords [(w, [])] = encodeRunes lead ++ encodeRunes w := by
        simp [joinWords, encodeRunes]
      rw [hbuf]
      unfold scanAll
      simp only [hsw, List.drop_length]
      have := ih [] f rfl rfl (by omega)
      simp only [encodeRunes, joinWords, List.append_nil, List.map_nil] at this
      rw [this]
      simp

/-- The scan that starts before the end of input is signalled returns the words
in order. -/
theorem scanAll_notEOF (items : List (List Int × List Int)) :
    ∀ (lead : List Int) (fuel : Nat), isDelimiterRun lead = true → wellFormed items = true →
      items.length + 2 ≤ fuel →
      scanAll fuel (encodeRunes lead ++ joinWords items) false =
        some (items.map (fun p => encodeRunes p.1)) := by
  induction items with
  | nil =>
    intro lead fuel hlead _ hfuel
    obtain ⟨f, rfl⟩ : ∃ f, fuel = f + 1 := ⟨fuel - 1, by simp at hfuel; omega⟩
    have := scanAll_atEOF [] [] f rfl rfl (by simp at hfuel ⊢; omega)
    simp only [encodeRunes, joinWords, List.append_nil, List.map_nil] at this
    simp only [joinWords, List.append_nil, scanAll, scanWords_delims lead false hlead,
      List.drop_length, List.map_nil, this]
    simp
  | cons it rest ih =>
    intro lead fuel hlead hwf hfuel
    obtain ⟨w, sep⟩ := it
    obtain ⟨hw, hsep, hlast, hrest⟩ := wellFormed_cons w sep rest hwf
    obtain ⟨f, rfl⟩ : ∃ f, fuel = f + 1 := ⟨fuel - 1, by simp at hfuel; omega⟩
    simp only [List.length_cons] at hfuel
    cases sep with
    | cons d ds =>
      have hdd : isDelimiter d = true ∧ isDelimiterRun ds = true := by
        simpa [isDelimiterRun] using hsep
      have hsw := scanWords_word lead w d (encodeRunes ds ++ joinWords rest) false hlead hw hdd.1
      have hbuf : encodeRunes lead ++ joinWords ((w, d :: ds) :: rest) =
          encodeRunes lead ++ (encodeRunes w ++ (EncodeRune d ++
            (encodeRunes ds ++ joinWords rest))) := by
        simp [joinWords, encodeRunes]
      rw [hbuf]
      unfold scanAll
      simp only [hsw]
      have hdrop : (encodeRunes lead ++ (encodeRunes w ++ (EncodeRune d ++
            (encodeRunes ds ++ joinWords rest)))).drop
          ((encodeRunes lead).length + (encodeRunes w).length + (EncodeRune d).length) =
          encodeRunes ds ++ joinWords rest := by
        rw [← List.append_assoc, ← List.append_assoc, ← List.length_append,
          ← List.length_append, List.drop_left]
      rw [hdrop, ih ds f hdd.2 hrest (by omega)]
      simp
    | nil =>
      have hr : rest = [] := by
        rcases hlast with h | h
        · exact absurd rfl h
        · exact h
      subst hr
      have hsw := (scanWords_last lead w hlead hw).1
      have hbuf : encodeRunes lead ++ joinWords [(w, [])] = encodeRunes lead ++ encodeRunes w := by
        simp [joinWords, encodeRunes]
      rw [hbuf]
      unfold scanAll
      simp only [hsw, List.drop_left]
      have := scanAll_atEOF [(w, [])] [] f rfl hwf (by simp at hfuel ⊢; omega)
      simp only [encodeRunes, joinWords, List.append_nil, List.nil_append, List.map_cons,
        List.map_nil] at this
      rw [this]
      simp

theorem joinWords_length (items : List (List Int × List Int)) (hwf : wellFormed items = true) :
    items.length ≤ (joinWords items).length := by
  induction items with
  | nil => simp
  | cons it rest ih =>
    obtain ⟨w, sep⟩ := it
    obtain ⟨hw, -, -, hrest⟩ := wellFormed_cons w sep rest hwf
    have := List.length_pos.mpr (encodeRunes_ne_nil w hw)
    have := ih hrest
    simp only [joinWords, List.length_cons, List.length_append]
    omega

/-! ## Leading runs of delimiters in arbitrary bytes -/

theorem LeadingRun_stop_inv (p : List Nat) (n : Nat) (h : LeadingRun p n)
    (hs : p = [] ∨ isDelimiter (DecodeRune p).1 = false) : n = 0 := by
  cases h with
  | stop _ _ => rfl
  | step _ m hne hd _ =>
    rcases hs with hs | hs
    · exact absurd hs hne
    · rw [hs] at hd; exact absurd hd (by simp)

theorem LeadingRun_step_inv (p : List Nat) (n : Nat) (h : LeadingRun p n) (hne : p ≠ [])
    (hd : isDelimiter (DecodeRune p).1 = true) :
    ∃ m, n = (DecodeRune p).2 + m ∧ LeadingRun (p.drop (DecodeRune p).2) m := by
  cases h with
  | stop _ hs =>
    rcases hs with hs | hs
    · exact absurd hs hne
    · rw [hs] at hd; exact absurd hd (by simp)
  | step _ m _ _ hrest => exact ⟨m, rfl, hrest⟩

theorem skipLeading_run (data : List Nat) (fuel : Nat) :
    ∀ (start : Nat) (h : data.length - start ≤ fuel) (n : Nat),
      LeadingRun (data.drop start) n → skipLeading data fuel start h = start + n := by
  induction fuel with
  | zero =>
    intro start h n hrun
    have hnil : data.drop start = [] := List.drop_eq_nil_of_le (by omega)
    rw [LeadingRun_stop_inv _ n hrun (Or.inl hnil)]
    unfold skipLeading; rfl
  | succ fuel ih =>
    intro start h n hrun
    unfold skipLeading
    by_cases hlt : start < data.length
    · rw [dif_pos hlt]
      by_cases hd : isDelimiter (DecodeRune (data.drop start)).1 = true
      · obtain ⟨m, hn, hrest⟩ :=
          LeadingRun_step_inv _ n hrun (drop_ne_nil_of_lt data start hlt) hd
        simp only [hd, Bool.not_true, Bool.false_eq_true, if_false]
        rw [List.drop_drop] at hrest
        rw [ih _ _ m hrest, hn]
        omega
      · have hd2 : isDelimiter (DecodeRune (data.drop start)).1 = false := by simpa using hd
        rw [if_pos (by rw [hd2]; rfl), LeadingRun_stop_inv _ n hrun (Or.inr hd2)]
        rfl
    · rw [dif_neg hlt]
      have hnil : data.drop start = [] := List.drop_eq_nil_of_le (by omega)
      rw [LeadingRun_stop_inv _ n hrun (Or.inl hnil)]
      rfl

/-- Every byte sequence has a leading run of delimiters (possibly of length 0). -/
theorem LeadingRun_exists (k : Nat) : ∀ (p : List Nat), p.length ≤ k → ∃ n, LeadingRun p n := by
  induction k with
  | zero =>
    intro p hp
    exact ⟨0, LeadingRun.stop p (Or.inl (List.length_eq_zero.mp (by omega)))⟩
  | succ k ih =>
    intro p hp
    by_cases hne : p = []
    · exact ⟨0, LeadingRun.stop p (Or.inl hne)⟩
    by_cases hd : isDelimiter (DecodeRune p).1 = true
    · have hpos := DecodeRune_size_pos p hne
      have hlen : 0 < p.length := List.length_pos.mpr hne
      obtain ⟨m, hm⟩ := ih (p.drop (DecodeRune p).2) (by rw [List.length_drop]; omega)
      exact ⟨(DecodeRune p).2 + m, LeadingRun.step p m hne hd hm⟩
    · exact ⟨0, LeadingRun.stop p (Or.inr (by simpa using hd))⟩

/-- What `scanWords` returns on bytes with no delimiter behind their leading run
of delimiters. -/
theorem scanWords_of_run (data : List Nat) (n : Nat) (hrun : LeadingRun data n)
    (hnd : NoDelimiter (data.drop n)) :
    scanWords data false = ⟨n, none, none⟩ ∧
    (n < data.length → scanWords data true = ⟨data.length, some (data.drop n), none⟩) := by
  have hskip : skipLeading data data.length 0 (Nat.sub_le _ _) = n := by
    rw [skipLeading_run data data.length 0 _ n hrun, Nat.zero_add]
  have hscan : ∀ h, scanUntilSpace data n data.length n h = none := fun h =>
    scanUntilSpace_none _ _ _ _ h hnd
  constructor
  · rw [scanWords_of_none _ false _ hskip hscan]
    simp
  · intro hlt
    rw [scanWords_of_none _ true _ hskip hscan]
    simp [hlt]

/-! ## `romeDecode` -/

theorem append_paren_ne (s t : String) : s ≠ s ++ " (" ++ t ++ ")" := by
  intro h
  have := congrArg String.length h
  simp only [String.length_append] at this
  have h2 : " (".length = 2 := by decide
  omega

/-! ## The Scanner on input that arrives in pieces -/

theorem decode_cont (b0 : Nat) (t : List Nat) (h : 0x80 ≤ b0 ∧ b0 ≤ 0xBF) :
    DecodeRune (b0 :: t) = (((RuneError : Nat) : Int), 1) := by
  have hx : first.getD b0 xx = xx := by
    rw [first_lt b0 (by omega)]
    rw [if_neg (by omega), if_pos (by omega)]
  unfold DecodeRune
  simp only [List.length_cons, List.getD_cons_zero, hx]
  have e1 : ¬ (t.length + 1 < 1) := by omega
  have e2 : (xx ≥ as) := by decide
  have e3 : ((xx <<< 31) % 2 ^ 32 ≥ 2 ^ 31) := by decide
  simp only [e1, e2, e3, if_true, if_false]
  have e4 : (0xFFFFFFFF ^^^ 0xFFFFFFFF : Nat) = 0 := by decide
  have e5 : RuneError &&& 0xFFFFFFFF = RuneError := by decide
  simp only [e4, e5, Nat.and_zero, Nat.zero_or]

set_option maxRecDepth 100000 in
theorem first_lead (b0 : Nat) (hb : b0 < 256) : 0xC2 ≤ b0 ∧ b0 ≤ 0xF4 →
    ¬ (first.getD b0 xx ≥ as) ∧
      first.getD b0 xx &&& 7 = (if b0 < 0xE0 then 2 else if b0 < 0xF0 then 3 else 4) := by
  revert b0
  decide

theorem decode_short (b0 : Nat) (t : List Nat) (h0 : 0xC2 ≤ b0 ∧ b0 ≤ 0xF4)
    (hlen : t.length + 1 < (if b0 < 0xE0 then 2 else if b0 < 0xF0 then 3 else 4)) :
    DecodeRune (b0 :: t) = (((RuneError : Nat) : Int), 1) := by
  have hx := first_lead b0 (by omega) h0
  unfold DecodeRune
  simp only [List.length_cons, List.getD_cons_zero, hx.1, hx.2, if_false]
  rw [if_neg (by omega), if_pos hlen]

theorem isDelimiter_RuneError : isDelimiter ((RuneError : Nat) : Int) = false := by decide

theorem NoDelimiter_conts (t : List Nat) (h : ∀ b ∈ t, 0x80 ≤ b ∧ b ≤ 0xBF) : NoDelimiter t := by
  induction t with
  | nil => exact NoDelimiter.nil
  | cons b t ih =>
    have hd := decode_cont b t (h b (List.mem_cons_self _ _))
    refine NoDelimiter.rune _ (List.cons_ne_nil _ _) (by rw [hd]; exact isDelimiter_RuneError) ?_
    rw [hd]
    exact ih (fun c hc => h c (List.mem_cons_of_mem _ hc))

theorem NoDelimiter_short (b0 : Nat) (t : List Nat) (h0 : 0xC2 ≤ b0 ∧ b0 ≤ 0xF4)
    (hlen : t.length + 1 < (if b0 < 0xE0 then 2 else if b0 < 0xF0 then 3 else 4))
    (h : ∀ b ∈ t, 0x80 ≤ b ∧ b ≤ 0xBF) : NoDelimiter (b0 :: t) := by
  have hd := decode_short b0 t h0 hlen
  refine NoDelimiter.rune _ (List.cons_ne_nil _ _) (by rw [hd]; exact isDelimiter_RuneError) ?_
  rw [hd]
  exact NoDelimiter_conts t h

/-- A cut-off encoding of a valid rune holds no delimiter. -/
theorem NoDelimiter_take_EncodeRune (r : Int) (hr : ValidRune r = true) (k : Nat)
    (hk : k < (EncodeRune r).length) : NoDelimiter ((EncodeRune r).take k) := by
  rw [ValidRune_iff] at hr
  obtain ⟨n, rfl⟩ : ∃ n : Nat, r = (n : Int) := ⟨r.toNat, by omega⟩
  have hn : n ≤ 0x10FFFF := by omega
  rw [EncodeRune_nat n hn] at hk ⊢
  by_cases h1 : n ≤ 0x7F
  · rw [if_pos h1] at hk ⊢
    simp only [List.length_cons, List.length_nil] at hk
    have : k = 0 := by omega
    subst this
    exact NoDelimiter.nil
  rw [if_neg h1] at hk ⊢
  by_cases h2 : n ≤ 0x7FF
  · rw [if_pos h2] at hk ⊢
    simp only [List.length_cons, List.length_nil] at hk
    have hk2 : k = 0 ∨ k = 1 := by omega
    rcases hk2 with rfl | rfl
    · exact NoDelimiter.nil
    · exact NoDelimiter_short _ [] (by omega) (by rw [if_pos (by omega)]; simp) (by simp)
  rw [if_neg h2, if_neg (by omega)] at hk ⊢
  by_cases h4 : n ≤ 0xFFFF
  · rw [if_pos h4] at hk ⊢
    simp only [List.length_cons, List.length_nil] at hk
    have hk2 : k = 0 ∨ k = 1 ∨ k = 2 := by omega
    rcases hk2 with rfl | rfl | rfl
    · exact NoDelimiter.nil
    · exact NoDelimiter_short _ [] (by omega)
        (by rw [if_neg (by omega), if_pos (by omega)]; simp) (by simp)
    · exact NoDelimiter_short _ [_] (by omega)
        (by rw [if_neg (by omega), if_pos (by omega)]; simp)
        (by intro b hb; simp only [List.mem_singleton] at hb; omega)
  rw [if_neg h4] at hk ⊢
  simp only [List.length_cons, List.length_nil] at hk
  have hk2 : k = 0 ∨ k = 1 ∨ k = 2 ∨ k = 3 := by omega
  rcases hk2 with rfl | rfl | rfl | rfl
  · exact NoDelimiter.nil
  · exact NoDelimiter_short _ [] (by omega)
      (by rw [if_neg (by omega), if_neg (by omega)]; simp) (by simp)
  · exact NoDelimiter_short _ [_] (by omega)
      (by rw [if_neg (by omega), if_neg (by omega)]; simp)
      (by intro b hb; simp only [List.mem_singleton] at hb; omega)
  · exact NoDelimiter_short _ [_, _] (by omega)
      (by rw [if_neg (by omega), if_neg (by omega)]; simp)
      (by intro b hb; simp only [List.mem_cons, List.mem_singleton, List.mem_nil_iff,
            or_false] at hb; omega)

theorem encodeRunes_append (a b : List Int) :
    encodeRunes (a ++ b) = encodeRunes a ++ encodeRunes b := by
  induction a with
  | nil => rfl
  | cons r rs ih => simp [encodeRunes, ih]

theorem NoDelimiter_take_runes (w : List Int)
    (hw : w.all (fun r => ValidRune r && !isDelimiter r) = true) (tail : List Nat) (B : Nat)
    (htail : ∀ m, m < B → NoDelimiter (tail.take m)) :
    ∀ k, k < (encodeRunes w).length + B → NoDelimiter ((encodeRunes w ++ tail).take k) := by
  induction w with
  | nil =>
    intro k hk
    simp only [encodeRunes, List.length_nil, Nat.zero_add, List.nil_append] at hk ⊢
    exact htail k hk
  | cons r rs ih =>
    intro k hk
    have hr : (ValidRune r = true ∧ isDelimiter r = false) ∧
        rs.all (fun r => ValidRune r && !isDelimiter r) = true := by
      simpa using hw
    simp only [encodeRunes, List.length_append, List.append_assoc] at hk ⊢
    by_cases hlt : k < (EncodeRune r).length
    · rw [List.take_append_of_le_length (by omega)]
      exact NoDelimiter_take_EncodeRune r hr.1.1 k hlt
    · rw [List.take_append_eq_append_take, List.take_of_length_le (by omega)]
      have hrt := DecodeRune_EncodeRune r hr.1.1
        ((encodeRunes rs ++ tail).take (k - (EncodeRune r).length))
      have hne : EncodeRune r ++ (encodeRunes rs ++ tail).take (k - (EncodeRune r).length) ≠ [] := by
        intro hnil
        have := congrArg List.length hnil
        rw [List.length_append, List.length_nil] at this
        have := hrt.2
        omega
      refine NoDelimiter.rune _ hne (by rw [hrt.1]; exact hr.1.2) ?_
      rw [hrt.1]
      simp only [List.drop_left]
      exact ih hr.2 _ (by omega)

theorem LeadingRun_EncodeRune (d : Int) (hd : isDelimiter d = true) (X : List Nat) (n : Nat)
    (h : LeadingRun X n) : LeadingRun (EncodeRune d ++ X) ((EncodeRune d).length + n) := by
  have hrt := DecodeRune_EncodeRune d (isDelimiter_valid d hd) X
  have hne : EncodeRune d ++ X ≠ [] := by
    intro hnil
    have := congrArg List.length hnil
    rw [List.length_append, List.length_nil] at this
    have := hrt.2
    omega
  have := LeadingRun.step (EncodeRune d ++ X) n hne (by rw [hrt.1]; exact hd)
    (by rw [hrt.1]; simp only [List.drop_left]; exact h)
  rw [hrt.1] at this
  exact this

theorem LeadingRun_take_delims (lead : List Int) (hlead : isDelimiterRun lead = true)
    (tail : List Nat) (B : Nat) (htail : ∀ m, m < B → NoDelimiter (tail.take m)) :
    ∀ k, k < (encodeRunes lead).length + B →
      ∃ lead1 lead2, lead = lead1 ++ lead2 ∧ isDelimiterRun lead2 = true ∧
        (encodeRunes lead1).length ≤ k ∧
        LeadingRun ((encodeRunes lead ++ tail).take k) (encodeRunes lead1).length ∧
        NoDelimiter (((encodeRunes lead ++ tail).take k).drop (encodeRunes lead1).length) := by
  induction lead with
  | nil =>
    intro k hk
    simp only [encodeRunes, List.length_nil, Nat.zero_add, List.nil_append] at hk ⊢
    refine ⟨[], [], rfl, rfl, Nat.zero_le _, ?_, ?_⟩
    · exact LeadingRun.stop _ (NoDelimiter_head _ (htail k hk))
    · exact htail k hk
  | cons d ds ih =>
    intro k hk
    have hdd : isDelimiter d = true ∧ isDelimiterRun ds = true := by
      simpa [isDelimiterRun] using hlead
    simp only [encodeRunes, List.length_append, List.append_assoc] at hk ⊢
    by_cases hlt : k < (EncodeRune d).length
    · rw [List.take_append_of_le_length (by omega)]
      have hnd := NoDelimiter_take_EncodeRune d (isDelimiter_valid d hdd.1) k hlt
      exact ⟨[], d :: ds, rfl, hlead, Nat.zero_le _, LeadingRun.stop _ (NoDelimiter_head _ hnd), hnd⟩
    · rw [List.take_append_eq_append_take, List.take_of_length_le (by omega)]
      obtain ⟨l1, l2, hl, hl2, hle, hrun, hnd⟩ := ih hdd.2 (k - (EncodeRune d).length) (by omega)
      refine ⟨d :: l1, l2, by rw [hl]; rfl, hl2, ?_, ?_, ?_⟩
      · simp only [encodeRunes, List.length_append]; omega
      · simp only [encodeRunes, List.length_append]
        exact LeadingRun_EncodeRune d hdd.1 _ _ hrun
      · simp only [encodeRunes, List.length_append]
        rw [← List.drop_drop, List.drop_left]
        exact hnd

theorem buffer_eq_take (buf fut s : List Nat) (h : buf ++ fut = s) : buf = s.take buf.length := by
  rw [← h, List.take_left]

/-- On a buffer that does not yet hold a whole word with a delimiter behind it,
`scanWords` asks for more data and consumes only whole leading delimiters. -/
theorem scanWords_short_buffer (lead : List Int) (hlead : isDelimiterRun lead = true)
    (tail buf fut : List Nat) (B : Nat) (htail : ∀ m, m < B → NoDelimiter (tail.take m))
    (h : buf ++ fut = encodeRunes lead ++ tail) (hk : buf.length < (encodeRunes lead).length + B) :
    ∃ lead2, isDelimiterRun lead2 = true ∧ (scanWords buf false).token = none ∧
      buf.drop (scanWords buf false).advance ++ fut = encodeRunes lead2 ++ tail ∧
      NoDelimiter (buf.drop (scanWords buf false).advance) := by
  obtain ⟨l1, l2, hl, hl2, hle, hrun, hnd⟩ :=
    LeadingRun_take_delims lead hlead tail B htail buf.length hk
  rw [← buffer_eq_take buf fut _ h] at hrun hnd
  have hsw := (scanWords_of_run buf _ hrun hnd).1
  refine ⟨l2, hl2, by rw [hsw], ?_, by rw [hsw]; exact hnd⟩
  rw [hsw]
  show buf.drop (encodeRunes l1).length ++ fut = _
  rw [← List.drop_append_of_le_length hle, h, hl, encodeRunes_append, List.append_assoc,
    List.drop_left]

theorem NoDelimiter_take_nil (m : Nat) (_ : m < 1) : NoDelimiter (([] : List Nat).take m) := by
  rw [List.take_nil]; exact NoDelimiter.nil

/-- What `scanWords` does, before the end of input is signalled, on a buffer
that holds the first bytes of a well-formed input: it returns the first word, or
it asks for more data and leaves a well-formed input behind. -/
theorem scanWords_on_buffer (lead : List Int) (items : List (List Int × List Int))
    (buf fut : List Nat) (hlead : isDelimiterRun lead = true) (hwf : wellFormed items = true)
    (h : buf ++ fut = encodeRunes lead ++ joinWords items) :
    (∃ w sep rest lead2, items = (w, sep) :: rest ∧ isDelimiterRun lead2 = true ∧
      (scanWords buf false).token = some (encodeRunes w) ∧
      buf.drop (scanWords buf false).advance ++ fut = encodeRunes lead2 ++ joinWords rest) ∨
    (∃ lead2, isDelimiterRun lead2 = true ∧ (scanWords buf false).token = none ∧
      buf.drop (scanWords buf false).advance ++ fut = encodeRunes lead2 ++ joinWords items ∧
      NoDelimiter (buf.drop (scanWords buf false).advance)) := by
  cases items with
  | nil =>
    right
    have hlen : buf.length ≤ (encodeRunes lead).length := by
      have := congrArg List.length h
      simp only [joinWords, List.append_nil, List.length_append] at this
      omega
    exact scanWords_short_buffer lead hlead _ buf fut 1 NoDelimiter_take_nil h
      (by omega)
  | cons it rest =>
    obtain ⟨w, sep⟩ := it
    obtain ⟨hw, hsep, hlast, hrest⟩ := wellFormed_cons w sep rest hwf
    have hwall := ((isWord_iff w).mp hw).2
    cases sep with
    | nil =>
      right
      have hr : rest = [] := by
        rcases hlast with h1 | h1
        · exact absurd rfl h1
        · exact h1
      subst hr
      have hJ : joinWords [(w, ([] : List Int))] = encodeRunes w ++ [] := by
        simp [joinWords, encodeRunes]
      have hlen : buf.length ≤ (encodeRunes lead).length + (encodeRunes w).length := by
        have := congrArg List.length h
        rw [hJ] at this
        simp only [List.append_nil, List.length_append] at this
        omega
      rw [hJ] at h ⊢
      exact scanWords_short_buffer lead hlead _ buf fut ((encodeRunes w).length + 1)
        (NoDelimiter_take_runes w hwall [] 1 NoDelimiter_take_nil) h (by omega)
    | cons d ds =>
      have hdd : isDelimiter d = true ∧ isDelimiterRun ds = true := by
        simpa [isDelimiterRun] using hsep
      have hJ : joinWords ((w, d :: ds) :: rest) =
          encodeRunes w ++ (EncodeRune d ++ (encodeRunes ds ++ joinWords rest)) := by
        simp [joinWords, encodeRunes]
      rw [hJ] at h ⊢
      by_cases hk : buf.length <
          (encodeRunes lead).length + ((encodeRunes w).length + (EncodeRune d).length)
      · right
        refine scanWords_short_buffer lead hlead _ buf fut _ ?_ h hk
        refine NoDelimiter_take_runes w hwall _ (EncodeRune d).length ?_
        intro m hm
        rw [List.take_append_of_le_length (by omega)]
        exact NoDelimiter_take_EncodeRune d (isDelimiter_valid d hdd.1) m hm
      · left
        have hbuf : buf = encodeRunes lead ++ (encodeRunes w ++ (EncodeRune d ++
            (encodeRunes ds ++ joinWords rest).take (buf.length -
              ((encodeRunes lead).length + (encodeRunes w).length + (EncodeRune d).length)))) := by
          have h1 := buffer_eq_take buf fut _ h
          rw [List.take_append_eq_append_take, List.take_of_length_le (by omega),
            List.take_append_eq_append_take, List.take_of_length_le (by omega),
            List.take_append_eq_append_take, List.take_of_length_le (by omega)] at h1
          rw [Nat.sub_sub, Nat.sub_sub, ← Nat.add_assoc] at h1
          exact h1
        have hsw := scanWords_word lead w d
          ((encodeRunes ds ++ joinWords rest).take (buf.length -
              ((encodeRunes lead).length + (encodeRunes w).length + (EncodeRune d).length)))
          false hlead hw hdd.1
        rw [← hbuf] at hsw
        refine ⟨w, d :: ds, rest, ds, rfl, hdd.2, by rw [hsw], ?_⟩
        rw [hsw]
        show buf.drop ((encodeRunes lead).length + (encodeRunes w).length +
          (EncodeRune d).length) ++ fut = _
        rw [← List.drop_append_of_le_length (by omega), h, ← List.append_assoc,
          ← List.append_assoc, ← List.length_append, ← List.length_append, List.drop_left]

/-! ## The attribute library -/

theorem addedFirst_cons_present (l : RomeLibrary) (a old : Attribute) (rest : List Attribute)
    (h : l.Attributes a.AttributeName = some old) (name : String) :
    addedFirst l (a :: rest) name = addedFirst l rest name := by
  unfold addedFirst firstNamed
  cases hn : l.Attributes name with
  | some b => rfl
  | none =>
    have hne : ¬ a.AttributeName = name := by
      intro he
      rw [he, hn] at h
      exact absurd h (by simp)
    simp [List.find?_cons, hne]

theorem addedFirst_cons_absent (l : RomeLibrary) (a : Attribute) (rest : List Attribute)
    (h : l.Attributes a.AttributeName = none) (name : String) :
    addedFirst l (a :: rest) name =
      addedFirst ⟨mapSet l.Attributes a.AttributeName a⟩ rest name := by
  unfold addedFirst firstNamed mapSet
  by_cases he : name = a.AttributeName
  · subst he
    simp [h, List.find?_cons]
  · have he2 : ¬ a.AttributeName = name := fun h2 => he h2.symm
    simp [he, he2, List.find?_cons]

theorem registerAll_lookup (attrs : List Attribute) : ∀ (l : RomeLibrary) (name : String),
    (registerAll l attrs).Attributes name = addedFirst l attrs name := by
  induction attrs with
  | nil =>
    intro l name
    unfold registerAll addedFirst firstNamed
    cases l.Attributes name <;> simp
  | cons a rest ih =>
    intro l name
    unfold registerAll
    rw [ih]
    unfold RomeLibrary.RegisterAttribute
    cases h : l.Attributes a.AttributeName with
    | some old => exact (addedFirst_cons_present l a old rest h name).symm
    | none => exact (addedFirst_cons_absent l a rest h name).symm

theorem registerAll_append (as1 as2 : List Attribute) : ∀ (l : RomeLibrary),
    registerAll l (as1 ++ as2) = registerAll (registerAll l as1) as2 := by
  induction as1 with
  | nil => intro l; rfl
  | cons a rest ih =>
    intro l
    show registerAll (l.RegisterAttribute a).1 (rest ++ as2) = _
    exact ih _


theorem loadFiles_ok (unmarshal : String → Except String Attribute) (romeFS : EmbedFS)
    (basePath : String) (docs : List (String × String × Attribute)) :
    ∀ (l : RomeLibrary),
      (∀ d ∈ docs, romeFS.ReadFile (pathJoin basePath d.1) = Except.ok d.2.1 ∧
        unmarshal d.2.1 = Except.ok d.2.2) →
      loadFiles unmarshal romeFS basePath (docs.map (fun d => d.1)) l =
        Except.ok (registerAll l (docs.map (fun d => d.2.2))) := by
  induction docs with
  | nil => intro l _; rfl
  | cons d rest ih =>
    intro l h
    have hd := h d (List.mem_cons_self _ _)
    have hrest := ih
    simp only [List.map_cons, loadFiles, hd.1, hd.2, registerAll,
      RomeLibrary.RegisterAttribute]
    cases hl : l.Attributes d.2.2.AttributeName with
    | some old => exact ih l (fun e he => h e (List.mem_cons_of_mem _ he))
    | none => exact ih _ (fun e he => h e (List.mem_cons_of_mem _ he))

theorem KeyedByName_register (l : RomeLibrary) (a : Attribute) (h : KeyedByName l) :
    KeyedByName (l.RegisterAttribute a).1 := by
  unfold RomeLibrary.RegisterAttribute
  cases hl : l.Attributes a.AttributeName with
  | some old => exact h
  | none =>
    intro k b hb
    simp only [mapSet] at hb
    by_cases hk : k = a.AttributeName
    · rw [if_pos hk] at hb
      simp only [Option.some.injEq] at hb
      rw [← hb, hk]
    · rw [if_neg hk] at hb
      exact h k b hb

theorem KeyedByName_registerAll (attrs : List Attribute) : ∀ (l : RomeLibrary),
    KeyedByName l → KeyedByName (registerAll l attrs) := by
  induction attrs with
  | nil => intro l h; exact h
  | cons a rest ih => intro l h; exact ih _ (KeyedByName_register l a h)

theorem KeyedByName_loadFiles (unmarshal : String → Except String Attribute) (romeFS : EmbedFS)
    (basePath : String) (files : List String) : ∀ (l lib : RomeLibrary), KeyedByName l →
    loadFiles unmarshal romeFS basePath files l = Except.ok lib → KeyedByName lib := by
  induction files with
  | nil =>
    intro l lib h hl
    simp only [loadFiles, Except.ok.injEq] at hl
    rw [← hl]; exact h
  | cons f rest ih =>
    intro l lib h hl
    unfold loadFiles at hl
    simp only at hl
    split at hl
    · exact absurd hl (by simp)
    · split at hl
      · exact absurd hl (by simp)
      · rename_i attr _
        split at hl
        · exact ih l lib h hl
        · rename_i hnone
          refine ih _ lib ?_ hl
          have := KeyedByName_register l attr h
          unfold RomeLibrary.RegisterAttribute at this
          rw [hnone] at this
          exact this

theorem KeyedByName_load (unmarshal : String → Except String Attribute) (romeFS : EmbedFS)
    (customDir : String) (lib : RomeLibrary)
    (h : NewEmbeddedRomeLibrary unmarshal romeFS customDir = Except.ok lib) : KeyedByName lib := by
  unfold NewEmbeddedRomeLibrary at h
  simp only at h
  split at h
  · exact absurd h (by simp)
  · exact KeyedByName_loadFiles unmarshal romeFS _ _ _ lib (fun k a hk => absurd hk (by simp)) h

theorem romeDecode_json_id (l : RomeLibrary) (h : KeyedByName l) (key : String) :
    romeDecode l true key = key := by
  unfold romeDecode
  cases hk : l.Attributes key with
  | none => rfl
  | some a => simp only [if_true]; exact h key a hk


theorem firstNamed_isSome (name : String) (attrs : List Attribute) :
    (firstNamed name attrs).isSome = true ↔ ∃ b ∈ attrs, b.AttributeName = name := by
  unfold firstNamed
  rw [List.find?_isSome]
  simp

theorem firstNamed_first (pre post : List Attribute) (a : Attribute)
    (h : ∀ b ∈ pre, b.AttributeName ≠ a.AttributeName) :
    firstNamed a.AttributeName (pre ++ a :: post) = some a := by
  unfold firstNamed
  induction pre with
  | nil => simp [List.find?_cons]
  | cons b rest ih =>
    have hb := h b (List.mem_cons_self _ _)
    simp only [List.cons_append, List.find?_cons, hb, decide_False]
    exact ih (fun c hc => h c (List.mem_cons_of_mem _ hc))

theorem register_error_iff (l : RomeLibrary) (a : Attribute) :
    (l.RegisterAttribute a).2 ≠ none ↔ (l.Attributes a.AttributeName).isSome = true := by
  unfold RomeLibrary.RegisterAttribute
  cases h : l.Attributes a.AttributeName <;> simp

theorem addedFirst_isSome (l : RomeLibrary) (attrs : List Attribute) (name : String) :
    (addedFirst l attrs name).isSome = true ↔
      ((l.Attributes name).isSome = true ∨ ∃ b ∈ attrs, b.AttributeName = name) := by
  unfold addedFirst
  cases h : l.Attributes name with
  | some a => simp
  | none => simp [firstNamed_isSome]

theorem loadFiles_error_iff (unmarshal : String → Except String Attribute) (romeFS : EmbedFS)
    (basePath : String) (entries : List (String × String)) : ∀ (l : RomeLibrary),
    (∀ e ∈ entries, romeFS.ReadFile (pathJoin basePath e.1) = Except.ok e.2) →
    ((∃ err, loadFiles unmarshal romeFS basePath (entries.map (fun e => e.1)) l =
        Except.error err) ↔
      ∃ e ∈ entries, ∃ perr, unmarshal e.2 = Except.error perr) := by
  induction entries with
  | nil => intro l _; simp [loadFiles]
  | cons e rest ih =>
    intro l h
    have he := h e (List.mem_cons_self _ _)
    have hrest : ∀ e ∈ rest, romeFS.ReadFile (pathJoin basePath e.1) = Except.ok e.2 :=
      fun c hc => h c (List.mem_cons_of_mem _ hc)
    simp only [List.map_cons, loadFiles, he]
    cases hu : unmarshal e.2 with
    | error perr =>
      simp only [Except.error.injEq, exists_eq', true_iff]
      exact ⟨e, List.mem_cons_self _ _, perr, hu⟩
    | ok attr =>
      have hno : ¬ ∃ perr, (Except.ok attr : Except String Attribute) = Except.error perr := by
        rintro ⟨perr, hp⟩
        exact absurd hp (by simp)
      simp only [List.mem_cons, exists_eq_or_imp, hu, hno, false_or]
      cases hl : l.Attributes attr.AttributeName with
      | some old => exact ih l hrest
      | none => exact ih _ hrest

theorem loadFiles_first_error (unmarshal : String → Except String Attribute) (romeFS : EmbedFS)
    (basePath : String) (pre : List (String × String)) (bad : String × String) (perr : String)
    (post : List (String × String)) : ∀ (l : RomeLibrary),
    (∀ e ∈ pre ++ bad :: post, romeFS.ReadFile (pathJoin basePath e.1) = Except.ok e.2) →
    (∀ e ∈ pre, ∃ a, unmarshal e.2 = Except.ok a) →
    unmarshal bad.2 = Except.error perr →
    loadFiles unmarshal romeFS basePath ((pre ++ bad :: post).map (fun e => e.1)) l =
      Except.error (errorsJoin perr bad.2) := by
  induction pre with
  | nil =>
    intro l h _ hu
    have hb := h bad (by simp)
    simp only [List.nil_append, List.map_cons, loadFiles, hb, hu]
  | cons e rest ih =>
    intro l h hp hu
    have he := h e (by simp)
    obtain ⟨a, ha⟩ := hp e (List.mem_cons_self _ _)
    have hrest : ∀ c ∈ rest ++ bad :: post,
        romeFS.ReadFile (pathJoin basePath c.1) = Except.ok c.2 :=
      fun c hc => h c (by simp only [List.cons_append, List.mem_cons]; exact Or.inr hc)
    have hp2 : ∀ c ∈ rest, ∃ a, unmarshal c.2 = Except.ok a :=
      fun c hc => hp c (List.mem_cons_of_mem _ hc)
    simp only [List.cons_append, List.map_cons, loadFiles, he, ha]
    cases hl : l.Attributes a.AttributeName with
    | some old => exact ih l hrest hp2 hu
    | none => exact ih _ hrest hp2 hu

theorem exampleDocs_ok : ∀ d ∈ [("a.json", "temp-document", tempAttr),
      ("b.json", "temp-document-2", tempAttr2), ("c.json", "fan-document", fanAttr)],
    (listFS [("a.json", "temp-document"), ("b.json", "temp-document-2"),
        ("c.json", "fan-document")]).ReadFile (pathJoin "amd/epyc/rome" d.1) = Except.ok d.2.1 ∧
      exampleUnmarshal d.2.1 = Except.ok d.2.2 := by
  intro d hd
  simp only [List.mem_cons, List.mem_singleton, List.not_mem_nil, or_false] at hd
  rcases hd with rfl | rfl | rfl <;> exact ⟨rfl, rfl⟩



theorem exampleEntries_ok : ∀ e ∈ [("a.json", "temp-document"), ("x.json", "not a document"),
      ("y.json", "nor this"), ("c.json", "fan-document")],
    (listFS [("a.json", "temp-document"), ("x.json", "not a document"), ("y.json", "nor this"),
        ("c.json", "fan-document")]).ReadFile (pathJoin "amd/epyc/rome" e.1) = Except.ok e.2 := by
  intro e he
  simp only [List.mem_cons, List.mem_singleton, List.not_mem_nil, or_false] at he
  rcases he with rfl | rfl | rfl | rfl <;> rfl

/-! ## `scanWords` on arbitrary bytes: stability and progress -/

set_option maxRecDepth 100000 in
theorem first_class_lt (b : Nat) (hb : b < 256) :
    first.getD b xx ≥ as ∨
      ((first.getD b xx &&& 7 = 2 ∨ first.getD b xx &&& 7 = 3 ∨ first.getD b xx &&& 7 = 4) ∧
        0x80 ≤ (acceptRanges.getD (first.getD b xx >>> 4) (0, 0)).1 ∧
        (acceptRanges.getD (first.getD b xx >>> 4) (0, 0)).2 ≤ 0xBF) := by
  revert b
  decide

/-- An entry of the table `first` stands for a sequence of one byte, or for one
of two, three or four bytes whose second byte is a continuation byte. -/
theorem first_class (b : Nat) :
    first.getD b xx ≥ as ∨
      ((first.getD b xx &&& 7 = 2 ∨ first.getD b xx &&& 7 = 3 ∨ first.getD b xx &&& 7 = 4) ∧
        0x80 ≤ (acceptRanges.getD (first.getD b xx >>> 4) (0, 0)).1 ∧
        (acceptRanges.getD (first.getD b xx >>> 4) (0, 0)).2 ≤ 0xBF) := by
  by_cases hb : b < 256
  · exact first_class_lt b hb
  · left
    rw [first_ge b (by omega)]
    decide

/-- The width that `DecodeRune` returns is at most the number of bytes given. -/
theorem DecodeRune_size_le (q : List Nat) : (DecodeRune q).2 ≤ q.length := by
  cases q with
  | nil => decide
  | cons b0 t =>
    unfold DecodeRune
    simp only [List.length_cons]
    rcases first_class b0 with hx | ⟨hsz, -, -⟩
    · simp only [List.getD_cons_zero, hx, if_true]
      rw [if_neg (by omega)]
      simp
    · split_ifs <;> simp only [List.getD_cons_zero] at * <;> omega

theorem DecodeRune_append_full (b0 : Nat) (t rest : List Nat)
    (h : first.getD b0 xx ≥ as ∨ first.getD b0 xx &&& 7 ≤ t.length + 1) :
    DecodeRune (b0 :: t ++ rest) = DecodeRune (b0 :: t) := by
  have hc := first_class b0
  unfold DecodeRune
  simp only [List.cons_append, List.length_cons, List.length_append, List.getD_cons_zero,
    List.getD_cons_succ]
  obtain ⟨x, hxdef⟩ : ∃ x, x = first.getD b0 xx := ⟨_, rfl⟩
  rw [← hxdef] at h hc
  simp only [← hxdef]
  obtain ⟨acc, haccdef⟩ : ∃ acc, acc = acceptRanges.getD (x >>> 4) (0, 0) := ⟨_, rfl⟩
  rw [← haccdef] at hc
  simp only [← haccdef]
  obtain ⟨sz, hszdef⟩ : ∃ sz, sz = x &&& 7 := ⟨_, rfl⟩
  rw [← hszdef] at h hc
  simp only [← hszdef]
  have e1 : ¬ (t.length + 1 < 1) := by omega
  have e0 : ¬ (t.length + rest.length + 1 < 1) := by omega
  by_cases hx : x ≥ as
  · simp only [hx, e0, e1, if_true, if_false]
  · have hsz : sz ≤ t.length + 1 := by
      rcases h with h | h
      · exact absurd h hx
      · exact h
    have hsz2 : sz = 2 ∨ sz = 3 ∨ sz = 4 := by
      rcases hc with hc | hc
      · exact absurd hc hx
      · exact hc.1
    have e2 : ¬ (t.length + rest.length + 1 < sz) := by omega
    have e3 : ¬ (t.length + 1 < sz) := by omega
    simp only [hx, e0, e1, e2, e3, if_false]
    rcases t with _ | ⟨b1, _ | ⟨b2, _ | ⟨b3, t'⟩⟩⟩
    · simp only [List.length_nil] at hsz; omega
    · simp only [List.length_cons, List.length_nil] at hsz
      have : sz = 2 := by omega
      subst this
      simp
    · simp only [List.length_cons, List.length_nil] at hsz
      simp only [List.cons_append, List.getD_cons_zero, List.getD_cons_succ, List.nil_append,
        List.getD_nil]
      rcases hsz2 with rfl | rfl | rfl
      · simp
      · simp
      · omega
    · simp only [List.cons_append, List.getD_cons_zero, List.getD_cons_succ]

theorem DecodeRune_short (b0 : Nat) (t : List Nat)
    (h : ¬ first.getD b0 xx ≥ as ∧ t.length + 1 < first.getD b0 xx &&& 7) :
    DecodeRune (b0 :: t) = (((RuneError : Nat) : Int), 1) := by
  unfold DecodeRune
  simp only [List.length_cons, List.getD_cons_zero]
  rw [if_neg (by omega), if_neg h.1, if_pos h.2]

/-- A sequence whose second, third or fourth byte is no continuation byte is
not decoded as one rune. -/
theorem DecodeRune_not_cont (b0 : Nat) (p : List Nat) (hx : ¬ first.getD b0 xx ≥ as)
    (k : Nat) (hk : k + 1 < first.getD b0 xx &&& 7)
    (hb : p.getD k 0 < 0x80 ∨ 0xBF < p.getD k 0) :
    DecodeRune (b0 :: p) = (((RuneError : Nat) : Int), 1) := by
  have hc := first_class b0
  unfold DecodeRune
  simp only [List.length_cons, List.getD_cons_zero, List.getD_cons_succ]
  obtain ⟨x, hxdef⟩ : ∃ x, x = first.getD b0 xx := ⟨_, rfl⟩
  rw [← hxdef] at hx hk hc
  simp only [← hxdef]
  obtain ⟨acc, haccdef⟩ : ∃ acc, acc = acceptRanges.getD (x >>> 4) (0, 0) := ⟨_, rfl⟩
  rw [← haccdef] at hc
  simp only [← haccdef]
  obtain ⟨sz, hszdef⟩ : ∃ sz, sz = x &&& 7 := ⟨_, rfl⟩
  rw [← hszdef] at hk hc
  simp only [← hszdef]
  have hc2 : (sz = 2 ∨ sz = 3 ∨ sz = 4) ∧ 128 ≤ acc.1 ∧ acc.2 ≤ 191 := by
    rcases hc with hc | hc
    · exact absurd hc hx
    · exact hc
  have e1 : ¬ (p.length + 1 < 1) := by omega
  simp only [hx, e1, if_false, locb, hicb]
  have hk3 : k = 0 ∨ k = 1 ∨ k = 2 := by omega
  rcases hk3 with rfl | rfl | rfl
  · split_ifs <;> first | rfl | omega
  · split_ifs <;> first | rfl | omega
  · split_ifs <;> first | rfl | omega

/-- More bytes behind `q` change what `DecodeRune` returns only when `q` is a
cut-off sequence: then `q` decodes to `RuneError` and holds nothing but
continuation bytes after its first byte. -/
theorem DecodeRune_append (q rest : List Nat) (hq : q ≠ []) :
    DecodeRune (q ++ rest) = DecodeRune q ∨
      (DecodeRune q = (((RuneError : Nat) : Int), 1) ∧ ∀ b ∈ q.tail, 0x80 ≤ b ∧ b ≤ 0xBF) := by
  cases q with
  | nil => exact absurd rfl hq
  | cons b0 t =>
    by_cases h : first.getD b0 xx ≥ as ∨ first.getD b0 xx &&& 7 ≤ t.length + 1
    · exact Or.inl (DecodeRune_append_full b0 t rest h)
    · have hx : ¬ first.getD b0 xx ≥ as := fun hx => h (Or.inl hx)
      have hsz : t.length + 1 < first.getD b0 xx &&& 7 := by
        have : ¬ first.getD b0 xx &&& 7 ≤ t.length + 1 := fun hs => h (Or.inr hs)
        omega
      have hshort := DecodeRune_short b0 t ⟨hx, hsz⟩
      by_cases hall : ∀ b ∈ t, 0x80 ≤ b ∧ b ≤ 0xBF
      · exact Or.inr ⟨hshort, hall⟩
      · left
        rw [hshort]
        simp only [not_forall] at hall
        obtain ⟨b, hb, hnc⟩ := hall
        obtain ⟨k, hk⟩ := List.mem_iff_getElem?.mp hb
        have hklt : k < t.length := by
          by_contra hge
          rw [List.getElem?_eq_none (by omega)] at hk
          exact absurd hk (by simp)
        have hget : (t ++ rest).getD k 0 = b := by
          rw [List.getD_eq_getElem?_getD, List.getElem?_append_left hklt, hk]
          rfl
        exact DecodeRune_not_cont b0 (t ++ rest) hx k (by omega) (by rw [hget]; omega)

/-- Up to a position where `p` decodes to a delimiter, the bytes of `p` decode
in the same way whatever follows `p`. -/
theorem DecodeRune_drop_append (p rest : List Nat) (j k : Nat) (hj : j < p.length)
    (hd : isDelimiter (DecodeRune (p.drop j)).1 = true) (hk : k ≤ j) :
    DecodeRune ((p ++ rest).drop k) = DecodeRune (p.drop k) := by
  rw [List.drop_append_of_le_length (by omega)]
  rcases DecodeRune_append (p.drop k) rest (drop_ne_nil_of_lt p k (by omega)) with h | ⟨hre, hc⟩
  · exact h
  · exfalso
    by_cases hkj : k = j
    · subst hkj
      rw [hre] at hd
      exact absurd hd (by decide)
    · rw [List.tail_drop] at hc
      have hmem : p.getD j 0 ∈ p.drop (k + 1) := by
        rw [List.mem_iff_getElem?]
        refine ⟨j - (k + 1), ?_⟩
        rw [List.getElem?_drop, List.getD_eq_getElem?_getD]
        have : k + 1 + (j - (k + 1)) = j := by omega
        rw [this, List.getElem?_eq_getElem hj]
        rfl
      have hcont := hc _ hmem
      have hdrop : p.drop j = p.getD j 0 :: p.drop (j + 1) := by
        rw [List.getD_eq_getElem?_getD, List.getElem?_eq_getElem hj]
        exact List.drop_eq_getElem_cons hj
      rw [hdrop, decode_cont _ _ hcont] at hd
      exact absurd hd (by decide)

/-- The first loop runs in the same way on `p` and on `p` with more bytes behind
it, when it stops at or before a position of `p` that decodes to a delimiter. -/
theorem skipLeading_append (p rest : List Nat) (j : Nat) (hj : j < p.length)
    (hd : isDelimiter (DecodeRune (p.drop j)).1 = true) (fuel : Nat) :
    ∀ (i : Nat) (h : p.length - i ≤ fuel), skipLeading p fuel i h ≤ j →
      ∀ (fuel2 : Nat) (h2 : (p ++ rest).length - i ≤ fuel2),
        skipLeading (p ++ rest) fuel2 i h2 = skipLeading p fuel i h := by
  induction fuel with
  | zero =>
    intro i h hle fuel2 h2
    unfold skipLeading at hle
    omega
  | succ fuel ih =>
    intro i h hle fuel2 h2
    have hi : i ≤ j := le_trans (skipLeading_spec p (fuel + 1) i h).1 hle
    have hdec := DecodeRune_drop_append p rest j i hj hd hi
    have hlen : (p ++ rest).length = p.length + rest.length := List.length_append _ _
    cases fuel2 with
    | zero => omega
    | succ fuel2 =>
      unfold skipLeading at hle ⊢
      rw [dif_pos (by omega)] at hle ⊢
      rw [dif_pos (by omega)]
      simp only [hdec]
      by_cases hdi : isDelimiter (DecodeRune (p.drop i)).1 = true
      · simp only [hdi, Bool.not_true, Bool.false_eq_true, if_false] at hle ⊢
        exact ih _ _ hle _ _
      · have hdi2 : isDelimiter (DecodeRune (p.drop i)).1 = false := by simpa using hdi
        simp only [hdi2, Bool.not_false, if_true]

theorem slice_append (p rest : List Nat) (start i : Nat) (hi : i ≤ p.length) :
    ((p ++ rest).drop start).take (i - start) = (p.drop start).take (i - start) := by
  by_cases hs : start ≤ p.length
  · rw [List.drop_append_of_le_length hs,
      List.take_append_of_le_length (by rw [List.length_drop]; omega)]
  · have : i - start = 0 := by omega
    rw [this, List.take_zero, List.take_zero]

/-- A return of the second loop on `p` is the return of the loop on `p` with
more bytes behind it. -/
theorem scanUntilSpace_append (p rest : List Nat) (start : Nat) (fuel : Nat) :
    ∀ (i : Nat) (h : p.length - i ≤ fuel) (adv : Nat) (tok : List Nat),
      scanUntilSpace p start fuel i h = some (adv, tok) →
      ∀ (fuel2 : Nat) (h2 : (p ++ rest).length - i ≤ fuel2),
        scanUntilSpace (p ++ rest) start fuel2 i h2 = some (adv, tok) := by
  induction fuel with
  | zero =>
    intro i h adv tok hres
    unfold scanUntilSpace at hres
    exact absurd hres (by simp)
  | succ fuel ih =>
    intro i h adv tok hres fuel2 h2
    obtain ⟨j, hj1, hj2, hj3, -, -⟩ := scanUntilSpace_spec p start (fuel + 1) i h adv tok hres
    have hdec := DecodeRune_drop_append p rest j i hj2 hj3 hj1
    have hlen : (p ++ rest).length = p.length + rest.length := List.length_append _ _
    cases fuel2 with
    | zero => omega
    | succ fuel2 =>
      unfold scanUntilSpace at hres ⊢
      rw [dif_pos (by omega)] at hres
      rw [dif_pos (by omega)]
      simp only [hdec]
      by_cases hdi : isDelimiter (DecodeRune (p.drop i)).1 = true
      · simp only [hdi, if_true] at hres ⊢
        rw [slice_append p rest start i (by omega)]
        exact hres
      · simp only [hdi, if_false] at hres ⊢
        exact ih _ _ adv tok hres _ _

/-- A token that `scanWords` returns before the end of input is returned again,
with the same advance, when more bytes follow. -/
theorem scanWords_append (p rest : List Nat) (atEOF : Bool) (t : List Nat)
    (h : (scanWords p false).token = some t) :
    scanWords (p ++ rest) atEOF = scanWords p false := by
  cases hres : scanUntilSpace p (skipLeading p p.length 0 (Nat.sub_le _ _)) p.length
      (skipLeading p p.length 0 (Nat.sub_le _ _)) (Nat.sub_le _ _) with
  | none =>
    rw [scanWords_of_none p false _ rfl (fun _ => hres)] at h
    simp at h
  | some at_ =>
    obtain ⟨adv, tok⟩ := at_
    obtain ⟨j, hj1, hj2, hj3, -, -⟩ := scanUntilSpace_spec p _ _ _ _ adv tok hres
    have hskip := skipLeading_append p rest j hj2 hj3 p.length 0 (Nat.sub_le _ _) hj1
      (p ++ rest).length (Nat.sub_le _ _)
    have hscan := fun h2 => scanUntilSpace_append p rest _ p.length _ _ adv tok hres
      (p ++ rest).length h2
    rw [scanWords_of_some (p ++ rest) atEOF _ adv tok hskip hscan,
      scanWords_of_some p false _ adv tok rfl (fun _ => hres)]

/-- The first loop never moves `start` past the end of the data. -/
theorem skipLeading_le (data : List Nat) (fuel : Nat) :
    ∀ (i : Nat) (h : data.length - i ≤ fuel), i ≤ data.length →
      skipLeading data fuel i h ≤ data.length := by
  induction fuel with
  | zero => intro i h hi; unfold skipLeading; exact hi
  | succ fuel ih =>
    intro i h hi
    unfold skipLeading
    by_cases hlt : i < data.length
    · rw [dif_pos hlt]
      have hw := DecodeRune_size_le (data.drop i)
      rw [List.length_drop] at hw
      by_cases hd : isDelimiter (DecodeRune (data.drop i)).1 = true
      · simp only [hd, Bool.not_true, Bool.false_eq_true, if_false]
        exact ih _ _ (by omega)
      · have hd2 : isDelimiter (DecodeRune (data.drop i)).1 = false := by simpa using hd
        simp only [hd2, Bool.not_false, if_true]
        exact hi
    · rw [dif_neg hlt]; exact hi

/-- The results of `scanWords` make valid progress. -/
theorem scanWords_progress (data : List Nat) (atEOF : Bool) :
    (scanWords data atEOF).err = none ∧
    (scanWords data atEOF).advance ≤ data.length ∧
    (∀ t, (scanWords data atEOF).token = some t →
      t.length ≤ (scanWords data atEOF).advance ∧ 1 ≤ (scanWords data atEOF).advance) ∧
    (atEOF = true → data ≠ [] → 0 < (scanWords data atEOF).advance) := by
  have hsle := skipLeading_le data data.length 0 (Nat.sub_le _ _) (Nat.zero_le _)
  cases hres : scanUntilSpace data (skipLeading data data.length 0 (Nat.sub_le _ _)) data.length
      (skipLeading data data.length 0 (Nat.sub_le _ _)) (Nat.sub_le _ _) with
  | some at_ =>
    obtain ⟨adv, tok⟩ := at_
    obtain ⟨j, hj1, hj2, hj3, hj4, hj5⟩ := scanUntilSpace_spec data _ _ _ _ adv tok hres
    have hw := DecodeRune_size_le (data.drop j)
    rw [List.length_drop] at hw
    have hpos := DecodeRune_size_pos (data.drop j) (drop_ne_nil_of_lt data j hj2)
    rw [scanWords_of_some data atEOF _ adv tok rfl (fun _ => hres)]
    refine ⟨rfl, by show adv ≤ _; omega, ?_, fun _ _ => by show 0 < adv; omega⟩
    intro t ht
    simp only [Option.some.injEq] at ht
    subst ht
    show tok.length ≤ adv ∧ 1 ≤ adv
    rw [hj5, List.length_take, List.length_drop]
    omega
  | none =>
    rw [scanWords_of_none data atEOF _ rfl (fun _ => hres)]
    by_cases hc : atEOF = true ∧ data.length > skipLeading data data.length 0 (Nat.sub_le _ _)
    · rw [if_pos hc]
      refine ⟨rfl, le_refl _, ?_, fun _ _ => by show 0 < data.length; omega⟩
      intro t ht
      simp only [Option.some.injEq] at ht
      subst ht
      show (data.drop _).length ≤ data.length ∧ 1 ≤ data.length
      rw [List.length_drop]
      omega
    · rw [if_neg hc]
      refine ⟨rfl, hsle, fun t ht => absurd ht (by simp), ?_⟩
      intro hE hne
      have hlen : 0 < data.length := List.length_pos.mpr hne
      show 0 < skipLeading data data.length 0 (Nat.sub_le _ _)
      have : ¬ data.length > skipLeading data data.length 0 (Nat.sub_le _ _) :=
        fun h2 => hc ⟨hE, h2⟩
      omega

/-! ## The loop of the Scanner -/

theorem setErr_of_none (s : Scanner) (e : String) (hs : s.err = none) :
    s.setErr e = { s with err := some e } := by
  unfold Scanner.setErr
  rw [if_pos (Or.inl hs)]

/-- A read into a buffer that has free space leaves the buffer in order and
brings the loop closer to its end. -/
theorem read_progress (s : Scanner) (hs : s.err = none)
    (hfree : s.start + s.window.length < s.bufLen) :
    ∀ (reads : List (List Nat)) (loop : Nat),
      (s.read loop reads).1.start + (s.read loop reads).1.window.length ≤
        (s.read loop reads).1.bufLen ∧
      scanMeasure (s.read loop reads).1 (s.read loop reads).2 < scanMeasure s reads := by
  intro reads
  induction reads with
  | nil =>
    intro loop
    simp only [Scanner.read, setErr_of_none s EOF hs, scanMeasure, hs, List.flatten_nil,
      List.length_nil, if_true]
    simp
    omega
  | cons c cs ih =>
    intro loop
    unfold Scanner.read
    by_cases hc : c = []
    · rw [if_pos hc]
      by_cases hl : loop + 1 > maxConsecutiveEmptyReads
      · rw [if_pos hl]
        simp only [setErr_of_none s ErrNoProgress hs, scanMeasure, hs, hc, List.flatten_cons,
          List.nil_append, List.length_cons, if_true]
        simp
        omega
      · rw [if_neg hl]
        refine ⟨(ih (loop + 1)).1, lt_trans (ih (loop + 1)).2 ?_⟩
        simp only [scanMeasure, hc, List.flatten_cons, List.nil_append, List.length_cons]
        omega
    · rw [if_neg hc]
      have hcl : 0 < c.length := List.length_pos.mpr hc
      simp only [scanMeasure, hs, List.length_append, List.length_take, List.flatten_cons,
        List.length_cons, if_true]
      constructor
      · omega
      · by_cases hle : c.length ≤ s.bufLen - (s.start + s.window.length)
        · rw [if_pos hle]
          omega
        · rw [if_neg hle]
          simp only [List.flatten_cons, List.length_append, List.length_drop, List.length_cons]
          omega

/-- What the second half of a round does before the end of input: the scan stops
with `ErrTooLong` on a window of `MaxScanTokenSize` bytes or more that starts the
buffer, and otherwise input is read into a buffer with free space. -/
theorem fill_of_no_error (s : Scanner) (reads : List (List Nat)) (hs : s.err = none)
    (hinv : s.start + s.window.length ≤ s.bufLen) :
    (∃ s1 : Scanner, s.fill reads = ScanStep.stop (s1.setErr ErrTooLong) ∧ s1.err = none ∧
      MaxScanTokenSize ≤ s.window.length) ∨
    (∃ s0 : Scanner, s0.err = none ∧ s0.window = s.window ∧
      s0.start + s0.window.length < s0.bufLen ∧
      s.fill reads = ScanStep.again (s0.read 0 reads).1 (s0.read 0 reads).2) := by
  unfold Scanner.fill
  rw [if_neg (by rw [hs]; simp)]
  by_cases hshift : s.start > 0 ∧ (s.start + s.window.length = s.bufLen ∨ s.start > s.bufLen / 2)
  · simp only [hshift, and_self, if_true]
    have hnf : ¬ (0 + s.window.length = s.bufLen) := by omega
    simp only [hnf, if_false]
    exact Or.inr ⟨{ s with start := 0 }, hs, rfl, by simp only; omega, rfl⟩
  · simp only [hshift, if_false]
    by_cases hfull : s.start + s.window.length = s.bufLen
    · have hstart : s.start = 0 := by
        by_contra hne
        exact hshift ⟨Nat.pos_of_ne_zero hne, Or.inl hfull⟩
      simp only [hfull, if_true]
      by_cases hbig : s.bufLen ≥ MaxScanTokenSize ∨ s.bufLen > maxInt / 2
      · rw [if_pos hbig]
        refine Or.inl ⟨s, rfl, hs, ?_⟩
        have hmax : MaxScanTokenSize ≤ maxInt / 2 := by decide
        rcases hbig with h | h <;> omega
      · rw [if_neg hbig]
        have hlt : s.bufLen < MaxScanTokenSize := by omega
        refine Or.inr ⟨_, ?_, ?_, ?_, rfl⟩
        · exact hs
        · rfl
        simp only
        have h4 : 0 < startBufSize := by decide
        split_ifs <;> omega
    · simp only [hfull, if_false]
      exact Or.inr ⟨s, hs, rfl, by omega, rfl⟩

/-- The second half of a round stops the scan or brings the loop closer to its
end. -/
theorem fill_progress (s : Scanner) (reads : List (List Nat))
    (hinv : s.start + s.window.length ≤ s.bufLen) :
    (∃ s1, s.fill reads = ScanStep.stop s1) ∨
    (∃ s2 rest, s.fill reads = ScanStep.again s2 rest ∧
      s2.start + s2.window.length ≤ s2.bufLen ∧ scanMeasure s2 rest < scanMeasure s reads) := by
  by_cases hs : s.err = none
  · rcases fill_of_no_error s reads hs hinv with ⟨s1, h1, -, -⟩ | ⟨s0, h0, hw, hfree, hfill⟩
    · exact Or.inl ⟨_, h1⟩
    · have hp := read_progress s0 h0 hfree reads 0
      refine Or.inr ⟨_, _, hfill, hp.1, lt_of_lt_of_le hp.2 ?_⟩
      simp only [scanMeasure, hw, h0, hs, le_refl]
  · left
    unfold Scanner.fill
    rw [if_pos hs]
    exact ⟨_, rfl⟩

/-- The loop of the Scanner comes to an end without panic within the rounds that
its measure allows, whatever the input is. -/
theorem scanLoop_terminates (fuel : Nat) : ∀ (s : Scanner) (reads : List (List Nat)),
    s.start + s.window.length ≤ s.bufLen → scanMeasure s reads < fuel →
    ∃ tokens s1, scanLoop fuel s reads = some (tokens, ScanEnd.stopped s1) := by
  induction fuel with
  | zero => intro s reads _ h; omega
  | succ fuel ih =>
    intro s reads hinv hm
    have hfill : ∀ s0 : Scanner, s0.start + s0.window.length ≤ s0.bufLen →
        scanMeasure s0 reads ≤ scanMeasure s reads → s.step reads = s0.fill reads →
        ∃ tokens s1, scanLoop (fuel + 1) s reads = some (tokens, ScanEnd.stopped s1) := by
      intro s0 hinv0 hm0 hstep
      rcases fill_progress s0 reads hinv0 with ⟨s1, h1⟩ | ⟨s2, rest, h2, hinv2, hm2⟩
      · exact ⟨[], s1, by simp only [scanLoop, hstep, h1]⟩
      · obtain ⟨tokens, s1, hrec⟩ := ih s2 rest hinv2 (by omega)
        exact ⟨tokens, s1, by simp only [scanLoop, hstep, h2, hrec]⟩
    by_cases hc : s.window.length > 0 ∨ s.err ≠ none
    · obtain ⟨herr, hadv, htok, -⟩ := scanWords_progress s.window (decide (s.err ≠ none))
      have hadv2 : ¬ (scanWords s.window (decide (s.err ≠ none))).advance > s.window.length := by
        omega
      cases ht : (scanWords s.window (decide (s.err ≠ none))).token with
      | some token =>
        obtain ⟨-, hpos⟩ := htok token ht
        have hstep : s.step reads = ScanStep.token token
            { s with start := s.start + (scanWords s.window (decide (s.err ≠ none))).advance,
                     window := s.window.drop
                       (scanWords s.window (decide (s.err ≠ none))).advance,
                     empties := 0 } reads := by
          unfold Scanner.step
          simp only [hc, if_true, herr, hadv2, if_false, ht]
          rw [if_pos (Or.inr (by omega))]
        obtain ⟨tokens, s1, hrec⟩ := ih
          { s with start := s.start + (scanWords s.window (decide (s.err ≠ none))).advance,
                   window := s.window.drop
                     (scanWords s.window (decide (s.err ≠ none))).advance,
                   empties := 0 } reads
          (by simp only [List.length_drop]; omega)
          (by simp only [scanMeasure, List.length_drop] at hm ⊢; omega)
        exact ⟨token :: tokens, s1, by simp only [scanLoop, hstep, hrec, Option.map]⟩
      | none =>
        refine hfill { s with
            start := s.start + (scanWords s.window (decide (s.err ≠ none))).advance,
            window := s.window.drop (scanWords s.window (decide (s.err ≠ none))).advance }
          (by simp only [List.length_drop]; omega)
          (by simp only [scanMeasure, List.length_drop]; omega) ?_
        unfold Scanner.step
        simp only [hc, if_true, herr, hadv2, if_false, ht]
    · refine hfill s hinv (le_refl _) ?_
      unfold Scanner.step
      rw [if_neg hc]

theorem ParseHosts_piped_returns (reads : List (List Nat)) (args : List (List Nat)) :
    ∃ hosts stderr, ParseHosts true reads args = some (Outcome.returned hosts stderr) := by
  obtain ⟨tokens, s1, ht⟩ := scanLoop_terminates (2 * reads.flatten.length + reads.length + 2)
    NewScanner reads (by simp [NewScanner]) (by simp [scanMeasure, NewScanner])
  unfold ParseHosts
  rw [if_pos rfl, ht]
  cases he : s1.Err with
  | none => exact ⟨tokens, "", by simp only [he]⟩
  | some err => exact ⟨tokens, (Fprintln "" ["reading input:", err]).1, by simp only [he]⟩

/-- The encoding of a delimiter takes at most three bytes. -/
theorem EncodeRune_delim_length (d : Int) (hd : isDelimiter d = true) :
    (EncodeRune d).length ≤ 3 := by
  have hr : 0 ≤ d ∧ d ≤ 0x3000 := by
    rcases (isDelimiter_iff d).mp hd with h | h
    · unfold specIsSpace at h
      omega
    · omega
  obtain ⟨n, rfl⟩ : ∃ n : Nat, d = (n : Int) := ⟨d.toNat, by omega⟩
  rw [EncodeRune_nat n (by omega)]
  split_ifs <;> first | (simp; done) | (exfalso; omega)

/-- A window that holds the first bytes of a well-formed input whose words are
of at most `MaxScanTokenSize - 3` bytes, and in which no delimiter is decoded,
is shorter than `MaxScanTokenSize`. -/
theorem NoDelimiter_window_short (lead : List Int) (items : List (List Int × List Int))
    (buf fut : List Nat) (hlead : isDelimiterRun lead = true) (hwf : wellFormed items = true)
    (hsize : ∀ p ∈ items, (encodeRunes p.1).length + 3 ≤ MaxScanTokenSize)
    (h : buf ++ fut = encodeRunes lead ++ joinWords items) (hnd : NoDelimiter buf) :
    buf.length < MaxScanTokenSize := by
  by_contra hge
  have hge : MaxScanTokenSize ≤ buf.length := by omega
  have hM : MaxScanTokenSize = 65536 := by decide
  have hne : buf ≠ [] := by
    intro hnil
    rw [hnil] at hge
    simp only [List.length_nil] at hge
    omega
  have hrun : LeadingRun buf 0 := LeadingRun.stop buf (NoDelimiter_head buf hnd)
  have hsw := (scanWords_of_run buf 0 hrun (by simpa using hnd)).1
  cases lead with
  | cons d ds =>
    have hdd : isDelimiter d = true ∧ isDelimiterRun ds = true := by
      simpa [isDelimiterRun] using hlead
    have hlen := EncodeRune_delim_length d hdd.1
    have hbuf := buffer_eq_take buf fut _ h
    simp only [encodeRunes, List.append_assoc] at hbuf
    rw [List.take_append_eq_append_take, List.take_of_length_le (by omega)] at hbuf
    have hdec := (DecodeRune_EncodeRune d (isDelimiter_valid d hdd.1)
      ((encodeRunes ds ++ joinWords items).take (buf.length - (EncodeRune d).length))).1
    rw [← hbuf] at hdec
    have := (NoDelimiter_inv buf hnd hne).1
    rw [hdec] at this
    simp only at this
    rw [hdd.1] at this
    exact absurd this (by simp)
  | nil =>
    simp only [encodeRunes, List.nil_append] at h
    cases items with
    | nil =>
      have := congrArg List.length h
      simp only [joinWords, List.length_append, List.length_nil] at this
      omega
    | cons it rest =>
      obtain ⟨w, sep⟩ := it
      obtain ⟨hw, hsep, hlast, hrest⟩ := wellFormed_cons w sep rest hwf
      have hws := hsize (w, sep) (List.mem_cons_self _ _)
      simp only at hws
      cases sep with
      | nil =>
        have hr : rest = [] := by
          rcases hlast with h1 | h1
          · exact absurd rfl h1
          · exact h1
        subst hr
        have := congrArg List.length h
        simp only [joinWords, encodeRunes, List.length_append, List.length_nil] at this
        omega
      | cons d ds =>
        have hdd : isDelimiter d = true ∧ isDelimiterRun ds = true := by
          simpa [isDelimiterRun] using hsep
        have hlen := EncodeRune_delim_length d hdd.1
        have hJ : joinWords ((w, d :: ds) :: rest) =
            encodeRunes w ++ (EncodeRune d ++ (encodeRunes ds ++ joinWords rest)) := by
          simp [joinWords, encodeRunes]
        rw [hJ] at h
        have hbuf := buffer_eq_take buf fut _ h
        rw [List.take_append_eq_append_take, List.take_of_length_le (by omega),
          List.take_append_eq_append_take, List.take_of_length_le (by omega)] at hbuf
        have hword := scanWords_word [] w d ((encodeRunes ds ++ joinWords rest).take
          (buf.length - (encodeRunes w).length - (EncodeRune d).length)) false rfl hw hdd.1
        simp only [encodeRunes, List.nil_append] at hword
        rw [← hbuf, hsw] at hword
        exact absurd (congrArg SplitResult.token hword) (by simp)

theorem read_nil (s : Scanner) (loop : Nat) (hs : s.err = none) :
    s.read loop [] = ({ s with err := some EOF }, []) := by
  simp only [Scanner.read, setErr_of_none s EOF hs]

theorem read_cons (s : Scanner) (loop : Nat) (c : List Nat) (cs : List (List Nat))
    (hc : c ≠ []) :
    s.read loop (c :: cs) =
      ({ s with window := s.window ++ c.take (s.bufLen - (s.start + s.window.length)),
                empties := 0 },
        if c.length ≤ s.bufLen - (s.start + s.window.length) then cs
        else c.drop (s.bufLen - (s.start + s.window.length)) :: cs) := by
  unfold Scanner.read
  rw [if_neg hc]

/-- After the end of input the loop of the Scanner applies `scanWords` again and
again to what is left in the window. -/
theorem scanLoop_atEOF (fuel : Nat) : ∀ (s : Scanner) (reads : List (List Nat))
    (tokens : List (List Nat)), s.err = some EOF → scanAll fuel s.window true = some tokens →
    ∃ s1, scanLoop fuel s reads = some (tokens, ScanEnd.stopped s1) ∧ s1.err = some EOF := by
  induction fuel with
  | zero =>
    intro s reads tokens _ h
    exact absurd h (by simp [scanAll])
  | succ fuel ih =>
    intro s reads tokens hs h
    have hd : decide (s.err ≠ none) = true := by rw [hs]; rfl
    have hc : s.window.length > 0 ∨ s.err ≠ none := Or.inr (by rw [hs]; simp)
    obtain ⟨herr, hadv, htok, -⟩ := scanWords_progress s.window true
    have hadv2 : ¬ (scanWords s.window true).advance > s.window.length := by omega
    unfold scanAll at h
    cases ht : (scanWords s.window true).token with
    | some token =>
      obtain ⟨-, hpos⟩ := htok token ht
      simp only [ht] at h
      cases hrest : scanAll fuel (s.window.drop (scanWords s.window true).advance) true with
      | none => rw [hrest] at h; exact absurd h (by simp)
      | some rest =>
        rw [hrest] at h
        simp only [Option.map, Option.some.injEq] at h
        obtain ⟨s1, hrec, hs1⟩ := ih
          { s with start := s.start + (scanWords s.window true).advance,
                   window := s.window.drop (scanWords s.window true).advance,
                   empties := 0 } reads rest hs hrest
        refine ⟨s1, ?_, hs1⟩
        have hstep : s.step reads = ScanStep.token token
            { s with start := s.start + (scanWords s.window true).advance,
                     window := s.window.drop (scanWords s.window true).advance,
                     empties := 0 } reads := by
          unfold Scanner.step
          simp only [hc, if_true, hd, herr, hadv2, if_false, ht]
          rw [if_pos (Or.inr (by omega))]
        simp only [scanLoop, hstep, hrec, Option.map, ← h]
    | none =>
      simp only [ht, if_true, Option.some.injEq] at h
      refine ⟨{ s with start := 0, window := [] }, ?_, hs⟩
      have hstep : s.step reads = ScanStep.stop { s with start := 0, window := [] } := by
        unfold Scanner.step
        simp only [hc, if_true, hd, herr, hadv2, if_false, ht]
        unfold Scanner.fill
        simp only [hs]
        simp
      simp only [scanLoop, hstep, ← h]

/-- The loop of the Scanner returns the words of a well-formed input in order,
in whatever pieces the input arrives, when no word is longer than
`MaxScanTokenSize - 3` bytes. -/
theorem scanLoop_words (fuel : Nat) : ∀ (items : List (List Int × List Int)) (lead : List Int)
    (s : Scanner) (reads : List (List Nat)),
    isDelimiterRun lead = true → wellFormed items = true →
    (∀ p ∈ items, (encodeRunes p.1).length + 3 ≤ MaxScanTokenSize) →
    s.err = none → s.start + s.window.length ≤ s.bufLen → (∀ c ∈ reads, c ≠ []) →
    s.window ++ reads.flatten = encodeRunes lead ++ joinWords items →
    scanMeasure s reads < fuel →
    ∃ s1, scanLoop fuel s reads =
        some (items.map (fun p => encodeRunes p.1), ScanEnd.stopped s1) ∧
      s1.err = some EOF := by
  induction fuel with
  | zero => intro items lead s reads _ _ _ _ _ _ _ hf; omega
  | succ fuel ih =>
    intro items lead s reads hlead hwf hsize hs hinv hreads h hf
    have hd : decide (s.err ≠ none) = false := by rw [hs]; rfl
    -- the second half of a round, from a state that holds the same input
    have hfill : ∀ (s0 : Scanner) (lead2 : List Int), s0.err = none →
        s0.start + s0.window.length ≤ s0.bufLen → s0.window.length < MaxScanTokenSize →
        isDelimiterRun lead2 = true →
        s0.window ++ reads.flatten = encodeRunes lead2 ++ joinWords items →
        scanMeasure s0 reads ≤ scanMeasure s reads → s.step reads = s0.fill reads →
        ∃ s1, scanLoop (fuel + 1) s reads =
            some (items.map (fun p => encodeRunes p.1), ScanEnd.stopped s1) ∧
          s1.err = some EOF := by
      intro s0 lead2 hs0 hinv0 hshort hlead2 h0 hm0 hstep
      rcases fill_of_no_error s0 reads hs0 hinv0 with ⟨_, -, -, hbig⟩ | ⟨s2, hs2, hw2, hfree, hfl⟩
      · omega
      · cases reads with
        | nil =>
          rw [read_nil s2 0 hs2] at hfl
          simp only [List.flatten_nil, List.append_nil] at h0
          have hlen := joinWords_length items hwf
          have hwl : items.length ≤ s0.window.length := by
            rw [h0, List.length_append]; omega
          have hall := scanAll_atEOF items lead2 fuel hlead2 hwf (by
            simp only [scanMeasure, List.flatten_nil, List.length_nil, hs, hs0, if_true] at hm0 hf
            omega)
          obtain ⟨s1, hrec, hs1⟩ := scanLoop_atEOF fuel { s2 with err := some EOF } [] _ rfl
            (by simp only [hw2, h0]; exact hall)
          exact ⟨s1, by simp only [scanLoop, hstep, hfl, hrec], hs1⟩
        | cons c cs =>
          have hc : c ≠ [] := hreads c (List.mem_cons_self _ _)
          have hp := read_progress s2 hs2 hfree (c :: cs) 0
          rw [read_cons s2 0 c cs hc] at hfl hp
          simp only at hp
          have hcl : 0 < c.length := List.length_pos.mpr hc
          obtain ⟨s1, hrec, hs1⟩ := ih items lead2
            { s2 with window := s2.window ++ c.take (s2.bufLen - (s2.start + s2.window.length)),
                      empties := 0 }
            (if c.length ≤ s2.bufLen - (s2.start + s2.window.length) then cs
              else c.drop (s2.bufLen - (s2.start + s2.window.length)) :: cs)
            hlead2 hwf hsize hs2 hp.1
            (by
              intro x hx
              by_cases hle : c.length ≤ s2.bufLen - (s2.start + s2.window.length)
              · rw [if_pos hle] at hx
                exact hreads x (List.mem_cons_of_mem _ hx)
              · rw [if_neg hle] at hx
                rcases List.mem_cons.mp hx with hx | hx
                · rw [hx]
                  intro hnil
                  have := congrArg List.length hnil
                  rw [List.length_drop, List.length_nil] at this
                  omega
                · exact hreads x (List.mem_cons_of_mem _ hx))
            (by
              simp only
              rw [← h0, ← hw2]
              by_cases hle : c.length ≤ s2.bufLen - (s2.start + s2.window.length)
              · rw [if_pos hle, List.take_of_length_le hle]
                simp
              · rw [if_neg hle]
                simp only [List.flatten_cons, List.append_assoc]
                rw [← List.append_assoc (c.take _), List.take_append_drop])
            (by
              have h2 : scanMeasure s2 (c :: cs) = scanMeasure s0 (c :: cs) := by
                simp only [scanMeasure, hw2, hs2, hs0]
              omega)
          exact ⟨s1, by simp only [scanLoop, hstep, hfl, hrec], hs1⟩
    by_cases hc : s.window.length > 0 ∨ s.err ≠ none
    · obtain ⟨herr, hadv, htok, -⟩ := scanWords_progress s.window false
      have hadv2 : ¬ (scanWords s.window false).advance > s.window.length := by omega
      rcases scanWords_on_buffer lead items s.window reads.flatten hlead hwf h with
        ⟨w, sep, rest, lead2, hit, hl2, htk, hrem⟩ | ⟨lead2, hl2, htk, hrem, hnd⟩
      · subst hit
        obtain ⟨-, -, -, hrest⟩ := wellFormed_cons w sep rest hwf
        obtain ⟨-, hpos⟩ := htok _ htk
        have hstep : s.step reads = ScanStep.token (encodeRunes w)
            { s with start := s.start + (scanWords s.window false).advance,
                     window := s.window.drop (scanWords s.window false).advance,
                     empties := 0 } reads := by
          unfold Scanner.step
          simp only [hc, if_true, hd, herr, hadv2, if_false, htk]
          rw [if_pos (Or.inl hs)]
        obtain ⟨s1, hrec, hs1⟩ := ih rest lead2
          { s with start := s.start + (scanWords s.window false).advance,
                   window := s.window.drop (scanWords s.window false).advance,
                   empties := 0 } reads hl2 hrest
          (fun p hp => hsize p (List.mem_cons_of_mem _ hp)) hs
          (by simp only [List.length_drop]; omega) hreads hrem
          (by simp only [scanMeasure, List.length_drop] at hf ⊢; omega)
        exact ⟨s1, by simp only [scanLoop, hstep, hrec, Option.map, List.map_cons], hs1⟩
      · refine hfill
          { s with start := s.start + (scanWords s.window false).advance,
                   window := s.window.drop (scanWords s.window false).advance }
          lead2 hs (by simp only [List.length_drop]; omega)
          (NoDelimiter_window_short lead2 items _ reads.flatten hl2 hwf hsize hrem hnd)
          hl2 hrem (by simp only [scanMeasure, List.length_drop]; omega) ?_
        unfold Scanner.step
        simp only [hc, if_true, hd, herr, hadv2, if_false, htk]
    · have hw0 : s.window.length < MaxScanTokenSize := by
        have hM : MaxScanTokenSize = 65536 := by decide
        omega
      refine hfill s lead hs hinv hw0 hlead h (le_refl _) ?_
      unfold Scanner.step
      rw [if_neg hc]

/-- On piped input that holds the words of a well-formed input, none longer than
`MaxScanTokenSize - 3` bytes, and arrives in pieces none of which is empty,
`ParseHosts` returns the words and writes nothing to standard error. -/
theorem ParseHosts_piped_words (lead : List Int) (items : List (List Int × List Int))
    (reads : List (List Nat)) (args : List (List Nat))
    (hlead : isDelimiterRun lead = true) (hwf : wellFormed items = true)
    (hreads : reads.flatten = encodeRunes lead ++ joinWords items)
    (hne : ∀ c ∈ reads, c ≠ [])
    (hsize : ∀ p ∈ items, (encodeRunes p.1).length ≤ 65533) :
    ParseHosts true reads args =
      some (Outcome.returned (items.map (fun p => encodeRunes p.1)) "") := by
  obtain ⟨s1, hrec, hs1⟩ := scanLoop_words (2 * reads.flatten.length + reads.length + 2) items
    lead NewScanner reads hlead hwf
    (fun p hp => by
      have := hsize p hp
      have hM : MaxScanTokenSize = 65536 := by decide
      omega)
    rfl (by simp [NewScanner]) hne (by simpa [NewScanner] using hreads)
    (by simp [scanMeasure, NewScanner])
  unfold ParseHosts
  rw [if_pos rfl, hrec]
  have he : s1.Err = none := by
    unfold Scanner.Err
    rw [if_pos hs1]
  simp only [he]

/-! ## A word that does not fit into the buffer of the Scanner -/

theorem NoDelimiter_replicate (n : Nat) : NoDelimiter (List.replicate n 0x61) := by
  induction n with
  | zero => exact NoDelimiter.nil
  | succ n ih =>
    have hd := decode1 0x61 (List.replicate n 0x61) (by decide)
    rw [List.replicate_succ]
    refine NoDelimiter.rune _ (List.cons_ne_nil _ _) (by rw [hd]; decide) ?_
    rw [hd]
    exact ih

theorem scanWords_replicate (n : Nat) :
    scanWords (List.replicate n 0x61) false = ⟨0, none, none⟩ :=
  (scanWords_of_run _ 0 (LeadingRun.stop _ (NoDelimiter_head _ (NoDelimiter_replicate n)))
    (NoDelimiter_replicate n)).1

theorem encodeRunes_replicate (n : Nat) :
    encodeRunes (List.replicate n 0x61) = List.replicate n 0x61 := by
  induction n with
  | zero => rfl
  | succ n ih =>
    have he : EncodeRune 0x61 = [0x61] := by decide
    rw [List.replicate_succ, encodeRunes, ih, he]
    rfl

theorem isWord_replicate (n : Nat) (hn : 0 < n) : isWord (List.replicate n 0x61) = true := by
  rw [isWord_iff]
  constructor
  · intro h
    have := congrArg List.length h
    simp at this
    omega
  · rw [List.all_eq_true]
    intro r hr
    rw [List.eq_of_mem_replicate hr]
    decide

/-- A round of the loop on a full buffer that holds only the letter "a": the
buffer is resized to `n` bytes and filled from the piece that is left. -/
theorem scanLoop_grow (fuel b k n e : Nat) (hb : b < MaxScanTokenSize)
    (hn : n = min (if b * 2 = 0 then startBufSize else b * 2) MaxScanTokenSize)
    (hk : n - b ≤ k) :
    scanLoop (fuel + 1) ⟨b, 0, List.replicate b 0x61, none, e⟩ [List.replicate k 0x61] =
      scanLoop fuel ⟨n, 0, List.replicate n 0x61, none, 0⟩
        (if k ≤ n - b then [] else [List.replicate (k - (n - b)) 0x61]) := by
  have hnb : b < n := by
    have h4 : 0 < startBufSize := by decide
    rw [hn]
    split_ifs <;> omega
  have hstep : (⟨b, 0, List.replicate b 0x61, none, e⟩ : Scanner).step [List.replicate k 0x61] =
      (⟨b, 0, List.replicate b 0x61, none, e⟩ : Scanner).fill [List.replicate k 0x61] := by
    unfold Scanner.step
    by_cases hc : b > 0
    · simp only [List.length_replicate, hc, true_or, if_true, ne_eq, not_true_eq_false,
        decide_False, scanWords_replicate, Nat.add_zero, List.drop_zero]
      simp
    · have : b = 0 := by omega
      subst this
      simp
  have hmax : ¬ (b ≥ MaxScanTokenSize ∨ b > maxInt / 2) := by
    have : MaxScanTokenSize ≤ maxInt / 2 := by decide
    omega
  have hfill : (⟨b, 0, List.replicate b 0x61, none, e⟩ : Scanner).fill [List.replicate k 0x61] =
      ScanStep.again ⟨n, 0, List.replicate n 0x61, none, 0⟩
        (if k ≤ n - b then [] else [List.replicate (k - (n - b)) 0x61]) := by
    unfold Scanner.fill
    simp only [ne_eq, not_true_eq_false, if_false, gt_iff_lt, Nat.lt_irrefl, false_and,
      Nat.zero_add, List.length_replicate, if_true, hmax, ← hn]
    have hkne : List.replicate k 0x61 ≠ [] := by
      intro h
      have := congrArg List.length h
      simp at this
      omega
    rw [read_cons _ 0 _ _ hkne]
    simp only [Nat.zero_add, List.length_replicate, List.take_replicate, List.drop_replicate,
      Nat.min_eq_left hk]
    have hrep : List.replicate b 0x61 ++ List.replicate (n - b) 0x61 = List.replicate n 0x61 := by
      rw [← List.replicate_add]
      congr 1
      omega
    rw [hrep]
  simp only [scanLoop, hstep, hfill]

/-- The round of the loop on a buffer of `MaxScanTokenSize` bytes or more that is
full of the letter "a": the scan stops with `ErrTooLong`. -/
theorem scanLoop_full (fuel m e : Nat) (reads : List (List Nat)) (hm : MaxScanTokenSize ≤ m) :
    scanLoop (fuel + 1) ⟨m, 0, List.replicate m 0x61, none, e⟩ reads =
      some ([], ScanEnd.stopped ⟨m, 0, List.replicate m 0x61, some ErrTooLong, e⟩) := by
  have hpos : m > 0 := by
    have : 0 < MaxScanTokenSize := by decide
    omega
  have hstep : (⟨m, 0, List.replicate m 0x61, none, e⟩ : Scanner).step reads =
      ScanStep.stop ⟨m, 0, List.replicate m 0x61, some ErrTooLong, e⟩ := by
    unfold Scanner.step
    simp only [List.length_replicate, hpos, true_or, if_true, ne_eq, not_true_eq_false,
      decide_False, scanWords_replicate, Nat.add_zero, List.drop_zero]
    simp only [gt_iff_lt, Nat.not_lt_zero, if_false]
    unfold Scanner.fill
    simp only [ne_eq, not_true_eq_false, if_false, gt_iff_lt, Nat.lt_irrefl, false_and,
      Nat.zero_add, List.length_replicate, if_true, ge_iff_le, hm, true_or]
    rw [setErr_of_none _ _ rfl]
  simp only [scanLoop, hstep]

/-- The loop of the Scanner on one word of 65536 letters "a": no token, and the
error `ErrTooLong`. -/
theorem scanLoop_long_word (fuel : Nat) (hf : 6 ≤ fuel) :
    scanLoop fuel NewScanner [List.replicate 65536 0x61] =
      some ([], ScanEnd.stopped ⟨65536, 0, List.replicate 65536 0x61, some ErrTooLong, 0⟩) := by
  obtain ⟨f, rfl⟩ : ∃ f, fuel = f + 1 + 1 + 1 + 1 + 1 + 1 := ⟨fuel - 6, by omega⟩
  have h0 : NewScanner = ⟨0, 0, List.replicate 0 0x61, none, 0⟩ := rfl
  rw [h0, scanLoop_grow _ 0 65536 4096 0 (by decide) (by decide) (by decide)]
  rw [if_neg (by decide)]
  rw [scanLoop_grow _ 4096 (65536 - (4096 - 0)) 8192 0 (by decide) (by decide) (by decide)]
  rw [if_neg (by decide)]
  rw [scanLoop_grow _ 8192 _ 16384 0 (by decide) (by decide) (by decide)]
  rw [if_neg (by decide)]
  rw [scanLoop_grow _ 16384 _ 32768 0 (by decide) (by decide) (by decide)]
  rw [if_neg (by decide)]
  rw [scanLoop_grow _ 32768 _ 65536 0 (by decide) (by decide) (by decide)]
  rw [if_pos (by decide)]
  exact scanLoop_full f 65536 0 [] (by decide)

theorem fuel_one_piece (n : Nat) (hn : 2 ≤ n) :
    6 ≤ 2 * [List.replicate n 0x61].flatten.length + [List.replicate n 0x61].length + 2 := by
  simp only [List.flatten_cons, List.flatten_nil, List.append_nil, List.length_replicate,
    List.length_cons, List.length_nil]
  omega

/-- What `ParseHosts` makes of the end of the loop of the Scanner, with an error
that is not the end of input. -/
theorem ParseHosts_of_error (reads : List (List Nat)) (args : List (List Nat))
    (tokens : List (List Nat)) (s1 : Scanner) (err : String) (herr : s1.err = some err)
    (hne : err ≠ EOF)
    (h : scanLoop (2 * reads.flatten.length + reads.length + 2) NewScanner reads =
      some (tokens, ScanEnd.stopped s1)) :
    ParseHosts true reads args =
      some (Outcome.returned tokens (Fprintln "" ["reading input:", err]).1) := by
  have he : s1.Err = some err := by
    unfold Scanner.Err
    rw [herr, if_neg (by simpa using hne)]
  unfold ParseHosts
  rw [if_pos rfl, h]
  simp only [he]

theorem ParseHosts_long_word (args : List (List Nat)) :
    ParseHosts true [List.replicate 65536 0x61] args =
      some (Outcome.returned [] "reading input: bufio.Scanner: token too long\n") := by
  have hf : 6 ≤ 2 * [List.replicate 65536 0x61].flatten.length +
      [List.replicate 65536 0x61].length + 2 := fuel_one_piece 65536 (by decide)
  have hstr : (Fprintln "" ["reading input:", ErrTooLong]).1 =
      "reading input: bufio.Scanner: token too long\n" := by decide
  rw [← hstr]
  exact ParseHosts_of_error _ args [] _ ErrTooLong rfl (by decide) (scanLoop_long_word _ hf)

theorem wellFormed_single (w : List Int) (hw : isWord w = true) :
    wellFormed [(w, [])] = true := by
  simp [wellFormed, hw, isDelimiterRun]

theorem joinWords_single (w : List Int) :
    encodeRunes [] ++ joinWords [(w, [])] = encodeRunes w := by
  simp [encodeRunes, joinWords]

/-- The input of one word of 65536 letters "a" is an input of the specification,
and `ParseHosts` does not return the word. -/
theorem long_word_example :
    isWord (List.replicate 65536 0x61) = true ∧
    wellFormed [(List.replicate 65536 0x61, [])] = true ∧
    encodeRunes [] ++ joinWords [(List.replicate 65536 0x61, [])] = List.replicate 65536 0x61 ∧
    ParseHosts true [List.replicate 65536 0x61] [] =
      some (Outcome.returned [] "reading input: bufio.Scanner: token too long\n") ∧
    ParseHosts true [List.replicate 65536 0x61] [] ≠
      some (Outcome.returned [List.replicate 65536 0x61] "") := by
  have hw := isWord_replicate 65536 (by decide)
  refine ⟨hw, wellFormed_single _ hw, ?_, ParseHosts_long_word [], ?_⟩
  · rw [joinWords_single, encodeRunes_replicate]
  · rw [ParseHosts_long_word]
    intro h
    injection h with h
    injection h with h
    exact absurd h (List.cons_ne_nil _ _).symm

/-! ## MapPrint -/

instance strLe.isTotal : IsTotal String strLe :=
  ⟨fun a b => le_total a.data b.data⟩

instance strLe.isTrans : IsTrans String strLe :=
  ⟨fun _ _ _ h1 h2 => le_trans (α := List Char) h1 h2⟩

instance strLe.isAntisymm : IsAntisymm String strLe :=
  ⟨fun _ _ h1 h2 => String.ext (le_antisymm h1 h2)⟩

theorem sortStrings_sorted (keys : List String) : (sortStrings keys).Sorted strLe :=
  List.sorted_insertionSort strLe keys

theorem sortStrings_perm (keys : List String) : (sortStrings keys).Perm keys :=
  List.perm_insertionSort strLe keys

/-- The result of `sort.Strings` depends on the strings only, not on their order. -/
theorem sortStrings_eq_of_perm (l1 l2 : List String) (h : l1.Perm l2) :
    sortStrings l1 = sortStrings l2 :=
  List.eq_of_perm_of_sorted
    (((sortStrings_perm l1).trans h).trans (sortStrings_perm l2).symm)
    (sortStrings_sorted l1) (sortStrings_sorted l2)

/-- A list that is sorted and holds the strings of `keys` is what `sort.Strings`
makes of `keys`. -/
theorem sortStrings_unique (keys l : List String) (hp : l.Perm keys) (hs : l.Sorted strLe) :
    sortStrings keys = l :=
  List.eq_of_perm_of_sorted ((sortStrings_perm keys).trans hp.symm) (sortStrings_sorted keys) hs

theorem lookup_of_mem {β : Type} (l : List (String × β)) (k : String) (v : β)
    (hn : (l.map (fun e => e.1)).Nodup) (hm : (k, v) ∈ l) : l.lookup k = some v := by
  induction l with
  | nil => exact absurd hm (List.not_mem_nil _)
  | cons e rest ih =>
    obtain ⟨k2, v2⟩ := e
    simp only [List.map_cons, List.nodup_cons, List.mem_map, not_exists, not_and] at hn
    rcases List.mem_cons.mp hm with h | h
    · simp only [Prod.mk.injEq] at h
      rw [h.1, h.2]
      exact List.lookup_cons_self
    · have hne : ¬ k = k2 := fun he => hn.1 (k, v) h he
      rw [List.lookup_cons, show (k == k2) = false from by simpa using hne]
      exact ih hn.2 h

theorem lookup_none_of_not_mem {β : Type} (l : List (String × β)) (k : String)
    (hk : k ∉ l.map (fun e => e.1)) : l.lookup k = none := by
  induction l with
  | nil => rfl
  | cons e rest ih =>
    obtain ⟨k2, v2⟩ := e
    simp only [List.map_cons, List.mem_cons, not_or] at hk
    rw [List.lookup_cons, show (k == k2) = false from by simpa using hk.1]
    exact ih hk.2

theorem lookup_mem {β : Type} (l : List (String × β)) (k : String) (v : β)
    (h : l.lookup k = some v) : (k, v) ∈ l := by
  induction l with
  | nil => exact absurd h (by simp)
  | cons e rest ih =>
    obtain ⟨k2, v2⟩ := e
    rw [List.lookup_cons] at h
    by_cases he : k = k2
    · subst he
      simp only [beq_self_eq_true, Option.some.injEq] at h
      rw [h]
      exact List.mem_cons_self _ _
    · rw [show (k == k2) = false from by simpa using he] at h
      exact List.mem_cons_of_mem _ (ih h)

/-- The lookup in a map does not depend on the order of its entries. -/
theorem lookup_perm {β : Type} (l1 l2 : List (String × β)) (hp : l1.Perm l2)
    (hn : (l2.map (fun e => e.1)).Nodup) (k : String) : l1.lookup k = l2.lookup k := by
  have hn1 : (l1.map (fun e => e.1)).Nodup := (hp.map _).nodup_iff.mpr hn
  cases h2 : l2.lookup k with
  | some v => exact lookup_of_mem l1 k v hn1 (hp.mem_iff.mpr (lookup_mem l2 k v h2))
  | none =>
    apply lookup_none_of_not_mem
    intro hk
    obtain ⟨e, he, hek⟩ := List.mem_map.mp hk
    have := lookup_of_mem l2 e.1 e.2 hn (hp.mem_iff.mp he)
    rw [hek, h2] at this
    exact absurd this (by simp)

/-- The entries of a map in the order of their keys. -/
theorem sorted_entries {β : Type} (l : List (String × β)) :
    ∃ sorted : List (String × β), sorted.Perm l ∧
      sortStrings (l.map (fun e => e.1)) = sorted.map (fun e => e.1) := by
  haveI : DecidableRel (fun a b : String × β => strLe a.1 b.1) :=
    fun a b => strLe.decidable a.1 b.1
  haveI : IsTotal (String × β) (fun a b => strLe a.1 b.1) :=
    ⟨fun a b => le_total a.1.data b.1.data⟩
  haveI : IsTrans (String × β) (fun a b => strLe a.1 b.1) :=
    ⟨fun _ _ _ h1 h2 => le_trans (α := List Char) h1 h2⟩
  have hp := List.perm_insertionSort (fun a b : String × β => strLe a.1 b.1) l
  have hs := List.sorted_insertionSort (fun a b : String × β => strLe a.1 b.1) l
  refine ⟨_, hp, sortStrings_unique _ _ (hp.map _) ?_⟩
  exact List.pairwise_map.mpr hs

theorem flatMap_congr_mem {α β : Type} (l : List α) (f g : α → List β)
    (h : ∀ a ∈ l, f a = g a) : l.flatMap f = l.flatMap g := by
  induction l with
  | nil => rfl
  | cons a rest ih =>
    rw [List.flatMap_cons, List.flatMap_cons, h a (List.mem_cons_self _ _),
      ih (fun b hb => h b (List.mem_cons_of_mem _ hb))]

theorem flatMap_map_fst {α β γ : Type} (l : List (α × β)) (f : α → List γ) :
    (l.map (fun e => e.1)).flatMap f = l.flatMap (fun e => f e.1) := by
  induction l with
  | nil => rfl
  | cons a rest ih => simp only [List.map_cons, List.flatMap_cons, ih]

/-- The text mode of `MapPrint` writes the sections of the hosts in the order of
the host names. -/
theorem MapPrint_text_sorted (marshalIndent : List (String × Record) → Except String String)
    (content : List (String × Record)) (hn : (content.map (fun e => e.1)).Nodup) :
    ∃ sorted : List (String × Record), sorted.Perm content ∧
      (sorted.map (fun e => e.1)).Sorted strLe ∧
      MapPrint marshalIndent false content =
        PrintOutcome.printed (sorted.flatMap (fun e => (e.1 ++ ":\n") :: recordLines e.2)) := by
  obtain ⟨sorted, hp, hs⟩ := sorted_entries content
  refine ⟨sorted, hp, by rw [← hs]; exact sortStrings_sorted _, ?_⟩
  unfold MapPrint
  simp only [Bool.false_eq_true, if_false, hs, flatMap_map_fst]
  congr 1
  apply flatMap_congr_mem
  intro e he
  unfold hostLines
  rw [lookup_of_mem content e.1 e.2 hn (hp.mem_iff.mp he)]

/-- The text mode of `MapPrint` writes the same for every order of the entries
of the map. -/
theorem MapPrint_text_perm (marshalIndent : List (String × Record) → Except String String)
    (content content2 : List (String × Record)) (hn : (content.map (fun e => e.1)).Nodup)
    (hp : content2.Perm content) :
    MapPrint marshalIndent false content2 = MapPrint marshalIndent false content := by
  unfold MapPrint
  simp only [Bool.false_eq_true, if_false]
  rw [sortStrings_eq_of_perm _ _ (hp.map _)]
  congr 1
  apply flatMap_congr_mem
  intro k _
  unfold hostLines
  rw [lookup_perm content2 content hp hn k]

/-- The lines of a field that holds a map with at least one key. -/
theorem fieldLines_mapping (name : String) (m : List (String × AnyValue)) (hne : m ≠ [])
    (hn : (m.map (fun e => e.1)).Nodup) :
    ∃ sorted : List (String × AnyValue), sorted.Perm m ∧
      (sorted.map (fun e => e.1)).Sorted strLe ∧
      fieldLines name (FieldValue.mapping (some m)) =
        ("\t" ++ name ++ ":\n") :: sorted.map (fun e =>
          "\t\t" ++ padRight 60 e.1 ++ ": " ++
            (if e.2 = AnyValue.null then "<nil>" else padRight 60 (fmtV e.2)) ++ "\n") := by
  obtain ⟨sorted, hp, hs⟩ := sorted_entries m
  refine ⟨sorted, hp, by rw [← hs]; exact sortStrings_sorted _, ?_⟩
  have hlen : (m.map (fun e => e.1)).length ≠ 0 := by
    rw [List.length_map]
    exact fun h => hne (List.length_eq_zero.mp h)
  unfold fieldLines
  simp only [Option.getD_some, hlen, ne_eq, not_false_eq_true, if_true, hs, List.map_map]
  congr 1
  apply List.map_congr_left
  intro e he
  simp only [Function.comp, fmtMapIndex, lookup_of_mem m e.1 e.2 hn (hp.mem_iff.mp he)]
  cases e.2 <;> simp

/-- The line of a field that holds a string which is not empty. -/
theorem fieldLines_string (name s : String) (hs : s ≠ "") :
    fieldLines name (FieldValue.other (AnyValue.str s)) =
      ["\t" ++ padRight 60 name ++ ": " ++ padRight 60 s ++ "\n"] := by
  unfold fieldLines
  simp [hs, fmtPadS]

/-- The line of a field that holds an integer: the verb `%s` does not fit. -/
theorem fieldLines_int (name : String) (n : Int) :
    fieldLines name (FieldValue.other (AnyValue.int n)) =
      ["\t" ++ padRight 60 name ++ ": " ++ ("%!s(int=" ++ padRight 60 (toString n) ++ ")") ++
        "\n"] := by
  unfold fieldLines
  simp [fmtPadS]

/-- The line of a field that holds a boolean: the verb `%s` does not fit. -/
theorem fieldLines_bool (name : String) (b : Bool) :
    fieldLines name (FieldValue.other (AnyValue.bool b)) =
      ["\t" ++ padRight 60 name ++ ": " ++ ("%!s(bool=" ++
        padRight 60 (if b then "true" else "false") ++ ")") ++ "\n"] := by
  unfold fieldLines
  simp [fmtPadS]

theorem recordLines_field (pre post : Record) (name : String) (value : FieldValue) :
    recordLines (pre ++ (name, value) :: post) =
      recordLines pre ++ (fieldLines name value ++ recordLines post) := by
  unfold recordLines
  rw [List.flatMap_append, List.flatMap_cons]

/-- The text mode of `MapPrint` for one host: the header of the host, then the
lines of the fields before the given one, the lines of that field and the lines
of the fields after it. -/
theorem MapPrint_text_field (marshalIndent : List (String × Record) → Except String String)
    (host name : String) (pre post : Record) (value : FieldValue) :
    MapPrint marshalIndent false [(host, pre ++ (name, value) :: post)] =
      PrintOutcome.printed ((host ++ ":\n") ::
        (recordLines pre ++ (fieldLines name value ++ recordLines post))) := by
  unfold MapPrint
  simp only [Bool.false_eq_true, if_false, List.map_cons, List.map_nil]
  have hs : sortStrings [host] = [host] := rfl
  rw [hs]
  simp only [List.flatMap_cons, List.flatMap_nil, List.append_nil, hostLines,
    List.lookup_cons, beq_self_eq_true, recordLines_field]

theorem fieldLines_skipped (name : String) :
    fieldLines name (FieldValue.other AnyValue.null) = [] ∧
    fieldLines name (FieldValue.other (AnyValue.str "")) = [] ∧
    fieldLines name (FieldValue.mapping none) = [] ∧
    fieldLines name (FieldValue.mapping (some [])) = [] := by
  refine ⟨rfl, ?_, ?_, ?_⟩ <;> (unfold fieldLines; simp)

theorem fieldLines_no_element (name : String) :
    fieldLines name (FieldValue.strings none) = ["\t" ++ name ++ ":\n"] ∧
    fieldLines name (FieldValue.strings (some [])) = ["\t" ++ name ++ ":\n"] :=
  ⟨rfl, rfl⟩

theorem fieldLines_formatted (name text : String) :
    fieldLines name (FieldValue.formatted text) =
      ["\t" ++ padRight 60 name ++ ": " ++ text ++ "\n"] := rfl

set_option maxRecDepth 100000 in
theorem exampleStringMap_line :
    MapPrint exampleMarshal false [("h", [("Labels", stringMap (some [("a", "x")]))])] =
      PrintOutcome.printed ["h:\n",
        "\tLabels                                                      : map[a                                                           :x                                                           ]\n"] ∧
    MapPrint exampleMarshal false [("h", [("Labels", stringMap (some [("a", "x")]))])] ≠
      PrintOutcome.printed ["h:\n", "\tLabels:\n",
        "\t\ta                                                           : x                                                           \n"] := by
  constructor <;> decide

/-! # The claims -/

/-- Claim C1, amended: for every run `lead` of delimiter runes and every list
`items` of words, each a non-empty sequence of valid runes none of which is a
delimiter and each followed by its run of delimiter runes (not empty between
two words, possibly empty after the last), applying `scanWords` again and again
to the remaining input yields exactly the bytes of the words in their order,
whichever value `atEOF` has at the start; and so does `ParseHosts` on piped
input, in whatever pieces `reads` (none of them empty) the input arrives and
with nothing written to standard error, provided that no word is longer than
65533 bytes, the 64 KiB of the buffer of the Scanner less the bytes of the
longest delimiter.  With no word (`items = []`) the input holds only delimiters
and the list of tokens is empty. -/
theorem tokenize_words (lead : List Int) (items : List (List Int × List Int)) (atEOF : Bool)
    (reads : List (List Nat)) (args : List (List Nat))
    (hlead : isDelimiterRun lead = true) (hwf : wellFormed items = true)
    (hreads : reads.flatten = encodeRunes lead ++ joinWords items) :
    scanAll ((encodeRunes lead ++ joinWords items).length + 2)
        (encodeRunes lead ++ joinWords items) atEOF =
      some (items.map (fun p => encodeRunes p.1)) ∧
    ((∀ c ∈ reads, c ≠ []) → (∀ p ∈ items, (encodeRunes p.1).length ≤ 65533) →
      ParseHosts true reads args =
        some (Outcome.returned (items.map (fun p => encodeRunes p.1)) "")) := by
  have hlen := joinWords_length items hwf
  have hfuel : items.length + 2 ≤ (encodeRunes lead ++ joinWords items).length + 2 := by
    rw [List.length_append]; omega
  constructor
  · cases atEOF with
    | true => exact scanAll_atEOF items lead _ hlead hwf (by omega)
    | false => exact scanAll_notEOF items lead _ hlead hwf hfuel
  · intro hne hsize
    exact ParseHosts_piped_words lead items reads args hlead hwf hreads hne hsize

/-- Witness of C1: a space and U+2003, the word "a" followed by U+1F600, a comma
and U+3000, and the word "b"; the input arrives in three pieces, two of them
ending inside a multi-byte sequence. -/
theorem tokenize_words_witness :
    scanAll 15 [0x20, 0xE2, 0x80, 0x83, 0x61, 0xF0, 0x9F, 0x98, 0x80, 0x2C, 0xE3, 0x80, 0x80,
        0x62] false = some [[0x61, 0xF0, 0x9F, 0x98, 0x80], [0x62]] ∧
    ParseHosts true [[0x20, 0xE2], [0x80, 0x83, 0x61, 0xF0, 0x9F],
        [0x98, 0x80, 0x2C, 0xE3, 0x80, 0x80, 0x62]] [] =
      some (Outcome.returned [[0x61, 0xF0, 0x9F, 0x98, 0x80], [0x62]] "") :=
  have h := tokenize_words [0x20, 0x2003] [([0x61, 0x1F600], [0x2C, 0x3000]), ([0x62], [])] false
    [[0x20, 0xE2], [0x80, 0x83, 0x61, 0xF0, 0x9F], [0x98, 0x80, 0x2C, 0xE3, 0x80, 0x80, 0x62]]
    [] (by decide) (by decide) (by decide)
  ⟨h.1, h.2 (by decide) (by decide)⟩

/-- Counterexample to C1 as stated: the input is one word of 65536 letters "a",
without any delimiter, piped in one piece.  The word fills the buffer of the
Scanner, which gives up with `ErrTooLong`: `ParseHosts` writes the error to
standard error and returns no host, not the word. -/
theorem tokenize_long_word :
    isWord (List.replicate 65536 0x61) = true ∧
    wellFormed [(List.replicate 65536 0x61, [])] = true ∧
    encodeRunes [] ++ joinWords [(List.replicate 65536 0x61, [])] = List.replicate 65536 0x61 ∧
    ParseHosts true [List.replicate 65536 0x61] [] =
      some (Outcome.returned [] "reading input: bufio.Scanner: token too long\n") ∧
    ParseHosts true [List.replicate 65536 0x61] [] ≠
      some (Outcome.returned [List.replicate 65536 0x61] "") :=
  long_word_example

/-- Claim C2: for every byte sequence `data`, valid UTF-8 or not, and every
value of `atEOF`, a token that `scanWords` returns is never empty: when the
token is not nil its length is at least 1. -/
theorem scanWords_never_empty_token (data : List Nat) (atEOF : Bool) (token : List Nat)
    (h : (scanWords data atEOF).token = some token) : 1 ≤ token.length :=
  scanWords_token_length_pos data atEOF token h

/-- Witness of C2: the token "ab" of the input " ab,c". -/
theorem scanWords_never_empty_token_witness :
    (scanWords [0x20, 0x61, 0x62, 0x2C, 0x63] false).token = some [0x61, 0x62] ∧
      1 ≤ [0x61, 0x62].length :=
  ⟨by decide,
    scanWords_never_empty_token [0x20, 0x61, 0x62, 0x2C, 0x63] false [0x61, 0x62] (by decide)⟩

/-- Claim C3: for every rune `r`, `isDelimiter r` is true exactly when `r` is a
white space character of `unicode.IsSpace` (U+0009..U+000D, U+0020, U+0085,
U+00A0, U+1680, U+2000..U+200A, U+2028, U+2029, U+202F, U+205F, U+3000) or one
of ',', ';', '|', and false for every other rune. -/
theorem isDelimiter_spec (r : Int) :
    (isDelimiter r = true ↔ (specIsSpace r ∨ r = 0x2C ∨ r = 0x3B ∨ r = 0x7C)) ∧
    (isDelimiter r = false ↔ ¬ (specIsSpace r ∨ r = 0x2C ∨ r = 0x3B ∨ r = 0x7C)) := by
  have h := isDelimiter_iff r
  refine ⟨h, ?_⟩
  rw [← h]
  cases isDelimiter r <;> simp

/-- Claim C4: for every byte sequence `data` whose leading run of delimiters is
`n` bytes long and in which no delimiter rune occurs after that run,
`scanWords data false` returns no token, no error and the advance `n` (a request
for more data); with `atEOF = true` and at least one byte after the run it
returns the whole remainder `data[n:]` as token, with advance `len(data)` and no
error. -/
theorem scanWords_requests_more_data (data : List Nat) (n : Nat) (hrun : LeadingRun data n)
    (hnd : NoDelimiter (data.drop n)) :
    scanWords data false = ⟨n, none, none⟩ ∧
    (n < data.length → scanWords data true = ⟨data.length, some (data.drop n), none⟩) :=
  scanWords_of_run data n hrun hnd

/-- Witness of C4: a space and U+00A0, then "a" and the first two bytes of a
three-byte sequence. -/
theorem scanWords_requests_more_data_witness :
    scanWords [0x20, 0xC2, 0xA0, 0x61, 0xE2, 0x80] false = ⟨3, none, none⟩ ∧
    scanWords [0x20, 0xC2, 0xA0, 0x61, 0xE2, 0x80] true =
      ⟨6, some [0x61, 0xE2, 0x80], none⟩ :=
  have h := scanWords_requests_more_data [0x20, 0xC2, 0xA0, 0x61, 0xE2, 0x80] 3
    (LeadingRun.step [0x20, 0xC2, 0xA0, 0x61, 0xE2, 0x80] 2 (by decide) (by decide)
      (LeadingRun.step [0xC2, 0xA0, 0x61, 0xE2, 0x80] 0 (by decide) (by decide)
        (LeadingRun.stop [0x61, 0xE2, 0x80] (Or.inr (by decide)))))
    (NoDelimiter.rune [0x61, 0xE2, 0x80] (by decide) (by decide)
      (NoDelimiter.rune [0xE2, 0x80] (by decide) (by decide)
        (NoDelimiter.rune [0x80] (by decide) (by decide) NoDelimiter.nil)))
  ⟨h.1, h.2 (by decide)⟩

/-- Claim C5: when standard input is not piped, `ParseHosts args` returns `args`
unchanged for every non-empty `args`, with nothing written to standard error,
and it ends with the "no hosts given" condition (the error written to standard
error, exit status 1, no list returned) if and only if `args` is empty. -/
theorem ParseHosts_not_piped (reads : List (List Nat)) (args : List (List Nat)) :
    (args ≠ [] → ParseHosts false reads args = some (Outcome.returned args "")) ∧
    (ParseHosts false reads args = some (Outcome.exited 1 "no hosts given\n") ↔ args = []) ∧
    (args = [] → ∀ hosts stderr,
      ParseHosts false reads args ≠ some (Outcome.returned hosts stderr)) := by
  cases args with
  | nil =>
    refine ⟨fun h => absurd rfl h, ⟨fun _ => rfl, fun _ => rfl⟩, fun _ hosts stderr => by
      simp [ParseHosts, Fprintln]⟩
  | cons a t =>
    have h : ParseHosts false reads (a :: t) = some (Outcome.returned (a :: t) "") := by
      simp [ParseHosts]
    refine ⟨fun _ => h, ⟨fun h2 => ?_, fun h2 => by simp at h2⟩, fun h2 => by simp at h2⟩
    rw [h] at h2
    simp at h2

/-- Claim C6: for every library and every attribute `a`, `RegisterAttribute a`
returns an error if and only if `a.AttributeName` is already a key of the
library; when it returns no error, the lookup of `a.AttributeName` in the
library after the call yields exactly `a`. -/
theorem RegisterAttribute_error_iff (l : RomeLibrary) (a : Attribute) :
    ((l.RegisterAttribute a).2 ≠ none ↔ ∃ old, l.Attributes a.AttributeName = some old) ∧
    ((l.RegisterAttribute a).2 = none →
      (l.RegisterAttribute a).1.Attributes a.AttributeName = some a) := by
  unfold RomeLibrary.RegisterAttribute
  cases h : l.Attributes a.AttributeName with
  | none => simp [mapSet]
  | some old => simp

/-- Claim C7: for every library and every attribute `a` whose `AttributeName`
is already present, with attribute `orig`, `RegisterAttribute a` fails and
leaves the library unchanged: every key maps to what it mapped to before, and
decoding the name with the JSON flag off still shows the display name of
`orig`, not that of `a`. -/
theorem RegisterAttribute_existing (l : RomeLibrary) (a orig : Attribute)
    (h : l.Attributes a.AttributeName = some orig) :
    (l.RegisterAttribute a).2 = some (a.AttributeName ++ " already exists") ∧
    (l.RegisterAttribute a).1 = l ∧
    (∀ k, (l.RegisterAttribute a).1.Attributes k = l.Attributes k) ∧
    romeDecode (l.RegisterAttribute a).1 false a.AttributeName =
      orig.AttributeName ++ " (" ++ orig.DisplayName ++ ")" := by
  have hr : l.RegisterAttribute a = (l, some (a.AttributeName ++ " already exists")) := by
    unfold RomeLibrary.RegisterAttribute
    rw [h]
  rw [hr]
  refine ⟨rfl, rfl, fun _ => rfl, ?_⟩
  unfold romeDecode
  simp [h]

/-- Witness of C7: `tempAttr2` is registered in a library that holds `tempAttr`
under the same name. -/
theorem RegisterAttribute_existing_witness :
    tempLibrary.Attributes tempAttr2.AttributeName = some tempAttr ∧
    (tempLibrary.RegisterAttribute tempAttr2).2 = some "Temp1ThresholdCritical already exists" ∧
    (tempLibrary.RegisterAttribute tempAttr2).1 = tempLibrary ∧
    romeDecode (tempLibrary.RegisterAttribute tempAttr2).1 false "Temp1ThresholdCritical" =
      "Temp1ThresholdCritical (CPU1 Critical Temperature)" :=
  have h := RegisterAttribute_existing tempLibrary tempAttr2 tempAttr (by decide)
  ⟨by decide, h.1, h.2.1, h.2.2.2⟩

/-- Claim C8: for every library, every key that is not present in it and both
values of the JSON flag, `romeDecode key` returns `key` unchanged; the function
is total, so the decoding never fails. -/
theorem romeDecode_unknown (l : RomeLibrary) (json : Bool) (key : String)
    (h : l.Attributes key = none) : romeDecode l json key = key := by
  unfold romeDecode
  rw [h]

/-- Witness of C8: "Unknown123" decodes to "Unknown123" with the flag off and on. -/
theorem romeDecode_unknown_witness :
    tempLibrary.Attributes "Unknown123" = none ∧
    romeDecode tempLibrary false "Unknown123" = "Unknown123" ∧
    romeDecode tempLibrary true "Unknown123" = "Unknown123" :=
  ⟨by decide, romeDecode_unknown tempLibrary false "Unknown123" (by decide),
    romeDecode_unknown tempLibrary true "Unknown123" (by decide)⟩

/-- Claim C9: for every library and every key present in it, `romeDecode key`
with the JSON flag off returns exactly "<Name> (<DisplayName>)", built from the
`AttributeName` and the `DisplayName` of the stored attribute, whatever the
display name is (the empty one included). -/
theorem romeDecode_text (l : RomeLibrary) (key : String) (a : Attribute)
    (h : l.Attributes key = some a) :
    romeDecode l false key = a.AttributeName ++ " (" ++ a.DisplayName ++ ")" := by
  unfold romeDecode
  simp [h]

/-- Witness of C9: the end-to-end example of the specification. -/
theorem romeDecode_text_witness :
    tempLibrary.Attributes "Temp1ThresholdCritical" = some tempAttr ∧
    romeDecode tempLibrary false "Temp1ThresholdCritical" =
      "Temp1ThresholdCritical (CPU1 Critical Temperature)" :=
  ⟨by decide, romeDecode_text tempLibrary "Temp1ThresholdCritical" tempAttr (by decide)⟩

/-- Claim C10: for every library and every key, `romeDecode key` with the JSON
flag on returns either `key` unchanged or the `AttributeName` of the attribute
stored under `key`, and never the composite form "<Name> (<DisplayName>)" of
that attribute. -/
theorem romeDecode_json (l : RomeLibrary) (key : String) :
    (romeDecode l true key = key ∨
      ∃ a, l.Attributes key = some a ∧ romeDecode l true key = a.AttributeName) ∧
    (∀ a, l.Attributes key = some a →
      romeDecode l true key ≠ a.AttributeName ++ " (" ++ a.DisplayName ++ ")") := by
  unfold romeDecode
  cases h : l.Attributes key with
  | none => simp
  | some a =>
    refine ⟨Or.inr ⟨a, rfl, by simp⟩, ?_⟩
    intro b hb
    simp only [Option.some.injEq] at hb
    subst hb
    simp only [if_true]
    exact append_paren_ne _ _

/-- Claim C11: for every corpus given as an ordered list of well-formed
attribute documents (`docs`: file name, raw content and the attribute the
content is read as), the bulk load `NewEmbeddedRomeLibrary` succeeds, also when
several documents share an `AttributeName`, and the library it returns maps each
name to the first document of the enumeration that carries it: a later document
with the same name is ignored, and a name that no document carries is not
present. -/
theorem bulk_load_first_wins (unmarshal : String → Except String Attribute) (romeFS : EmbedFS)
    (customDir : String) (docs : List (String × String × Attribute))
    (hdir : romeFS.ReadDir "amd/epyc/rome" = Except.ok (docs.map (fun d => d.1)))
    (hdocs : ∀ d ∈ docs, romeFS.ReadFile (pathJoin "amd/epyc/rome" d.1) = Except.ok d.2.1 ∧
      unmarshal d.2.1 = Except.ok d.2.2) :
    ∃ lib, NewEmbeddedRomeLibrary unmarshal romeFS customDir = Except.ok lib ∧
      (∀ name, lib.Attributes name = firstNamed name (docs.map (fun d => d.2.2))) ∧
      (∀ pre d post, docs = pre ++ d :: post →
        (∀ e ∈ pre, e.2.2.AttributeName ≠ d.2.2.AttributeName) →
        lib.Attributes d.2.2.AttributeName = some d.2.2) ∧
      (∀ name, (lib.Attributes name).isSome = true ↔ ∃ d ∈ docs, d.2.2.AttributeName = name) := by
  have hload : NewEmbeddedRomeLibrary unmarshal romeFS customDir =
      Except.ok (registerAll ⟨fun _ => none⟩ (docs.map (fun d => d.2.2))) := by
    unfold NewEmbeddedRomeLibrary
    simp only [hdir]
    exact loadFiles_ok unmarshal romeFS _ docs _ hdocs
  have hlook : ∀ name, (registerAll ⟨fun _ => none⟩ (docs.map (fun d => d.2.2))).Attributes name =
      firstNamed name (docs.map (fun d => d.2.2)) := by
    intro name
    rw [registerAll_lookup]
    rfl
  refine ⟨_, hload, hlook, ?_, ?_⟩
  · intro pre d post hd hpre
    rw [hlook, hd, List.map_append, List.map_cons]
    apply firstNamed_first
    intro b hb
    obtain ⟨e, he, rfl⟩ := List.mem_map.mp hb
    exact hpre e he
  · intro name
    rw [hlook, firstNamed_isSome]
    constructor
    · rintro ⟨b, hb, hn⟩
      obtain ⟨e, he, rfl⟩ := List.mem_map.mp hb
      exact ⟨e, he, hn⟩
    · rintro ⟨d, hd, hn⟩
      exact ⟨d.2.2, List.mem_map.mpr ⟨d, hd, rfl⟩, hn⟩

/-- Witness of C11: three documents, the second with the name of the first. -/
theorem bulk_load_first_wins_witness :
    ∃ lib, NewEmbeddedRomeLibrary exampleUnmarshal (listFS [("a.json", "temp-document"),
        ("b.json", "temp-document-2"), ("c.json", "fan-document")]) "" = Except.ok lib ∧
      lib.Attributes "Temp1ThresholdCritical" = some tempAttr ∧
      lib.Attributes "FanMode" = some fanAttr ∧
      lib.Attributes "Unknown123" = none := by
  obtain ⟨lib, h1, h2, -, -⟩ := bulk_load_first_wins exampleUnmarshal
    (listFS [("a.json", "temp-document"), ("b.json", "temp-document-2"),
      ("c.json", "fan-document")]) ""
    [("a.json", "temp-document", tempAttr), ("b.json", "temp-document-2", tempAttr2),
      ("c.json", "fan-document", fanAttr)] rfl exampleDocs_ok
  exact ⟨lib, h1, by rw [h2]; rfl, by rw [h2]; rfl, by rw [h2]; rfl⟩

/-- Claim C12: for every hosts mapping `content` (each host one entry), the text
mode of `MapPrint` writes the sections of the hosts, each opened by its header
"<host>:", in ascending order of the host names, one section for each host, and
it writes the same for every order `content2` in which the entries of the
mapping are visited. -/
theorem MapPrint_hosts_in_order (marshalIndent : List (String × Record) → Except String String)
    (content content2 : List (String × Record)) (hn : (content.map (fun e => e.1)).Nodup)
    (hp : content2.Perm content) :
    (∃ sorted : List (String × Record), sorted.Perm content ∧
      (sorted.map (fun e => e.1)).Sorted strLe ∧ (sorted.map (fun e => e.1)).Nodup ∧
      MapPrint marshalIndent false content =
        PrintOutcome.printed (sorted.flatMap (fun e => (e.1 ++ ":\n") :: recordLines e.2))) ∧
    MapPrint marshalIndent false content2 = MapPrint marshalIndent false content := by
  obtain ⟨sorted, hps, hs, hout⟩ := MapPrint_text_sorted marshalIndent content hn
  exact ⟨⟨sorted, hps, hs, (hps.map _).nodup_iff.mpr hn, hout⟩,
    MapPrint_text_perm marshalIndent content content2 hn hp⟩

/-- Witness of C12: the hosts "b-host" and "a-host"; the section of "a-host"
comes first, in both orders of the entries. -/
theorem MapPrint_hosts_in_order_witness :
    MapPrint exampleMarshal false [("a-host", []), ("b-host", exampleRecord)] =
      MapPrint exampleMarshal false [("b-host", exampleRecord), ("a-host", [])] ∧
    MapPrint exampleMarshal false [("b-host", exampleRecord), ("a-host", [])] =
      PrintOutcome.printed ["a-host:\n", "b-host:\n",
        "\tState                                                       : On                                                          \n",
        "\tAttributes:\n",
        "\t\ta                                                           : x                                                           \n",
        "\t\tb                                                           : 2                                                           \n",
        "\tMembers:\n"] :=
  ⟨(MapPrint_hosts_in_order exampleMarshal [("b-host", exampleRecord), ("a-host", [])]
      [("a-host", []), ("b-host", exampleRecord)] (by decide) (List.Perm.swap _ _ _)).2,
    by decide⟩

/-- Claim C13, amended: in the text mode of `MapPrint`, for every host and every
record, a field writes nothing when its value is the nil interface, the empty
string of type `string`, or a `map[string]interface{}` that is nil or has no
key: after the header of the host come the lines of the fields before it and
then the lines of the fields after it.  A field whose value is a `[]string`
without element, nil or not, is still written: its sub-header, followed by no
line of elements.  A value of any other dynamic type is written as a scalar
line, whatever it holds.  Nothing is raised: the call ends with what it has
printed. -/
theorem MapPrint_empty_fields (marshalIndent : List (String × Record) → Except String String)
    (host name : String) (pre post : Record) :
    MapPrint marshalIndent false [(host, pre ++ (name, FieldValue.other AnyValue.null) :: post)] =
      PrintOutcome.printed ((host ++ ":\n") :: (recordLines pre ++ recordLines post)) ∧
    MapPrint marshalIndent false
        [(host, pre ++ (name, FieldValue.other (AnyValue.str "")) :: post)] =
      PrintOutcome.printed ((host ++ ":\n") :: (recordLines pre ++ recordLines post)) ∧
    MapPrint marshalIndent false [(host, pre ++ (name, FieldValue.mapping none) :: post)] =
      PrintOutcome.printed ((host ++ ":\n") :: (recordLines pre ++ recordLines post)) ∧
    MapPrint marshalIndent false [(host, pre ++ (name, FieldValue.mapping (some [])) :: post)] =
      PrintOutcome.printed ((host ++ ":\n") :: (recordLines pre ++ recordLines post)) ∧
    MapPrint marshalIndent false [(host, pre ++ (name, FieldValue.strings (some [])) :: post)] =
      PrintOutcome.printed ((host ++ ":\n") ::
        (recordLines pre ++ ("\t" ++ name ++ ":\n") :: recordLines post)) ∧
    MapPrint marshalIndent false [(host, pre ++ (name, FieldValue.strings none) :: post)] =
      PrintOutcome.printed ((host ++ ":\n") ::
        (recordLines pre ++ ("\t" ++ name ++ ":\n") :: recordLines post)) ∧
    (∀ text : String,
      MapPrint marshalIndent false [(host, pre ++ (name, FieldValue.formatted text) :: post)] =
        PrintOutcome.printed ((host ++ ":\n") ::
          (recordLines pre ++ ("\t" ++ padRight 60 name ++ ": " ++ text ++ "\n") ::
            recordLines post))) := by
  have hs := fieldLines_skipped name
  have he := fieldLines_no_element name
  refine ⟨?_, ?_, ?_, ?_, ?_, ?_, fun text => ?_⟩
  · rw [MapPrint_text_field, hs.1, List.nil_append]
  · rw [MapPrint_text_field, hs.2.1, List.nil_append]
  · rw [MapPrint_text_field, hs.2.2.1, List.nil_append]
  · rw [MapPrint_text_field, hs.2.2.2, List.nil_append]
  · rw [MapPrint_text_field, he.2, List.singleton_append]
  · rw [MapPrint_text_field, he.1, List.singleton_append]
  · rw [MapPrint_text_field, fieldLines_formatted, List.singleton_append]

/-- Counterexample to C13 as stated: a field "Order" whose value is a nil
`[]string` is written, with its sub-header; so is a field "State" that holds
the empty string of a defined string type, as a line with a blank value, and a
field "Labels" that holds a nil `map[string]string`, as the line of `map[]`.
None of the three is left out. -/
theorem MapPrint_nil_values_written :
    MapPrint exampleMarshal false [("h", [("Order", FieldValue.strings none)])] =
      PrintOutcome.printed ["h:\n", "\tOrder:\n"] ∧
    MapPrint exampleMarshal false [("h", [("State", definedString "")])] =
      PrintOutcome.printed ["h:\n",
        "\tState                                                       :                                                             \n"] ∧
    MapPrint exampleMarshal false [("h", [("Labels", stringMap none)])] =
      PrintOutcome.printed ["h:\n",
        "\tLabels                                                      : map[]\n"] ∧
    MapPrint exampleMarshal false [("h", [("Order", FieldValue.strings none)])] ≠
      PrintOutcome.printed ["h:\n"] ∧
    MapPrint exampleMarshal false [("h", [("State", definedString "")])] ≠
      PrintOutcome.printed ["h:\n"] ∧
    MapPrint exampleMarshal false [("h", [("Labels", stringMap none)])] ≠
      PrintOutcome.printed ["h:\n"] := by
  refine ⟨?_, ?_, ?_, ?_, ?_, ?_⟩ <;> decide

/-- Claim C14, amended: in the text mode of `MapPrint`, for every host and every
record, a field whose value is a `map[string]interface{}` with at least one key
is written as the field name as sub-header and then exactly one line for each
key of the map, in ascending order of the keys: the key in a column of 60
characters, ": ", and the value stored under that key (`<nil>` for a nil value,
and otherwise the value in a column of 60 characters).  A field whose value is
a map of another type, such as `map[string]string`, is written as one scalar
line instead. -/
theorem MapPrint_map_lines (marshalIndent : List (String × Record) → Except String String)
    (host name : String) (pre post : Record) (m : List (String × AnyValue)) (hne : m ≠ [])
    (hn : (m.map (fun e => e.1)).Nodup) :
    (∃ sorted : List (String × AnyValue), sorted.Perm m ∧
      (sorted.map (fun e => e.1)).Sorted strLe ∧
      MapPrint marshalIndent false
          [(host, pre ++ (name, FieldValue.mapping (some m)) :: post)] =
        PrintOutcome.printed ((host ++ ":\n") :: (recordLines pre ++
          ((("\t" ++ name ++ ":\n") :: sorted.map (fun e =>
            "\t\t" ++ padRight 60 e.1 ++ ": " ++
              (if e.2 = AnyValue.null then "<nil>" else padRight 60 (fmtV e.2)) ++ "\n")) ++
            recordLines post)))) ∧
    (∀ sm : Option (List (String × String)),
      MapPrint marshalIndent false [(host, pre ++ (name, stringMap sm) :: post)] =
        PrintOutcome.printed ((host ++ ":\n") :: (recordLines pre ++
          ("\t" ++ padRight 60 name ++ ": " ++ fmtStringMap (sm.getD []) ++ "\n") ::
            recordLines post))) := by
  obtain ⟨sorted, hp, hs, hf⟩ := fieldLines_mapping name m hne hn
  refine ⟨⟨sorted, hp, hs, ?_⟩, fun sm => ?_⟩
  · rw [MapPrint_text_field, hf]
  · rw [stringMap, MapPrint_text_field, fieldLines_formatted, List.singleton_append]

/-- Witness of C14: a map with the keys "b", "a" and "c", the last with a nil
value, in a record between two other fields. -/
theorem MapPrint_map_lines_witness :
    (∃ sorted : List (String × AnyValue),
      sorted.Perm [("b", AnyValue.int 2), ("a", AnyValue.str "x"), ("c", AnyValue.null)] ∧
      (sorted.map (fun e => e.1)).Sorted strLe ∧
      MapPrint exampleMarshal false
          [("h", [("State", FieldValue.other (AnyValue.str "On"))] ++
            ("Attributes", FieldValue.mapping
              (some [("b", AnyValue.int 2), ("a", AnyValue.str "x"), ("c", AnyValue.null)])) ::
            [("Members", FieldValue.strings (some ["m"]))])] =
        PrintOutcome.printed (("h" ++ ":\n") ::
          (recordLines [("State", FieldValue.other (AnyValue.str "On"))] ++
            ((("\t" ++ "Attributes" ++ ":\n") :: sorted.map (fun e =>
              "\t\t" ++ padRight 60 e.1 ++ ": " ++
                (if e.2 = AnyValue.null then "<nil>" else padRight 60 (fmtV e.2)) ++ "\n")) ++
              recordLines [("Members", FieldValue.strings (some ["m"]))])))) ∧
    MapPrint exampleMarshal false
        [("h", [("State", FieldValue.other (AnyValue.str "On")),
          ("Attributes", FieldValue.mapping
            (some [("b", AnyValue.int 2), ("a", AnyValue.str "x"), ("c", AnyValue.null)])),
          ("Members", FieldValue.strings (some ["m"]))])] =
      PrintOutcome.printed ["h:\n",
        "\tState                                                       : On                                                          \n",
        "\tAttributes:\n",
        "\t\ta                                                           : x                                                           \n",
        "\t\tb                                                           : 2                                                           \n",
        "\t\tc                                                           : <nil>\n",
        "\tMembers:\n",
        "\t\tm                                                           \n"] :=
  ⟨(MapPrint_map_lines exampleMarshal "h" "Attributes"
      [("State", FieldValue.other (AnyValue.str "On"))]
      [("Members", FieldValue.strings (some ["m"]))]
      [("b", AnyValue.int 2), ("a", AnyValue.str "x"), ("c", AnyValue.null)]
      (by decide) (by decide)).1, by decide⟩

/-- Counterexample to C14 as stated: a field "Labels" whose value is the
`map[string]string` with the key "a" and the value "x", a mapping from string
to scalar with one key, is written as one scalar line, not as a sub-header
followed by the line of the key. -/
theorem MapPrint_string_map_one_line :
    MapPrint exampleMarshal false [("h", [("Labels", stringMap (some [("a", "x")]))])] =
      PrintOutcome.printed ["h:\n",
        "\tLabels                                                      : map[a                                                           :x                                                           ]\n"] ∧
    MapPrint exampleMarshal false [("h", [("Labels", stringMap (some [("a", "x")]))])] ≠
      PrintOutcome.printed ["h:\n", "\tLabels:\n",
        "\t\ta                                                           : x                                                           \n"] :=
  exampleStringMap_line

/-- Claim C15, at an input where the code departs from it: for a field "Count"
with the integer 5 the text mode of `MapPrint` writes one line, but the value
in it is the report `%!s(int=5 ...)` of a verb that does not fit, not the plain
text "5" of the scalar. -/
theorem fieldLines_integer_field :
    fieldLines "Count" (FieldValue.other (AnyValue.int 5)) =
      ["\tCount                                                       : %!s(int=5                                                           )\n"] ∧
    fieldLines "Count" (FieldValue.other (AnyValue.int 5)) ≠
      ["\t" ++ padRight 60 "Count" ++ ": " ++ padRight 60 "5" ++ "\n"] := by
  constructor <;> decide

/-- Claim C16: first registration wins and nothing is ever deleted.  For every
library `l` and every finite sequence `attrs` of `RegisterAttribute` calls: at
the end each name maps to the attribute it had in `l` or, if it was absent
there, to the attribute of the first call of the sequence that carried the
name; a name present after some of the calls is present after all of them, with
the same attribute; and a call is rejected exactly when its name was in `l` or
was carried by an earlier call. -/
theorem register_first_wins (l : RomeLibrary) (attrs : List Attribute) :
    (∀ name, (registerAll l attrs).Attributes name =
      match l.Attributes name with
      | some a => some a
      | none => firstNamed name attrs) ∧
    (∀ as1 as2 name a, attrs = as1 ++ as2 → (registerAll l as1).Attributes name = some a →
      (registerAll l attrs).Attributes name = some a) ∧
    (∀ as1 a as2, attrs = as1 ++ a :: as2 →
      (((registerAll l as1).RegisterAttribute a).2 ≠ none ↔
        ((l.Attributes a.AttributeName).isSome = true ∨
          ∃ b ∈ as1, b.AttributeName = a.AttributeName))) := by
  refine ⟨fun name => registerAll_lookup attrs l name, ?_, ?_⟩
  · intro as1 as2 name a ha h
    rw [ha, registerAll_append, registerAll_lookup]
    unfold addedFirst
    rw [h]
  · intro as1 a as2 _
    rw [register_error_iff, registerAll_lookup, addedFirst_isSome]

/-- Claim C17: for a corpus `entries` of files, name and raw content, the bulk
load `NewEmbeddedRomeLibrary` fails if and only if some document of the corpus
is malformed (`unmarshal` gives a parse error for it); it then returns no
library but the error that joins the parse error with the raw content of the
first malformed document of the enumeration, however many well-formed documents
come before it. -/
theorem bulk_load_fails_iff (unmarshal : String → Except String Attribute) (romeFS : EmbedFS)
    (customDir : String) (entries : List (String × String))
    (hdir : romeFS.ReadDir "amd/epyc/rome" = Except.ok (entries.map (fun e => e.1)))
    (hread : ∀ e ∈ entries, romeFS.ReadFile (pathJoin "amd/epyc/rome" e.1) = Except.ok e.2) :
    ((∃ err, NewEmbeddedRomeLibrary unmarshal romeFS customDir = Except.error err) ↔
      ∃ e ∈ entries, ∃ perr, unmarshal e.2 = Except.error perr) ∧
    (∀ pre bad post perr, entries = pre ++ bad :: post →
      (∀ e ∈ pre, ∃ a, unmarshal e.2 = Except.ok a) → unmarshal bad.2 = Except.error perr →
      NewEmbeddedRomeLibrary unmarshal romeFS customDir =
        Except.error (errorsJoin perr bad.2)) := by
  have hload : NewEmbeddedRomeLibrary unmarshal romeFS customDir =
      loadFiles unmarshal romeFS "amd/epyc/rome" (entries.map (fun e => e.1))
        ⟨fun _ => none⟩ := by
    unfold NewEmbeddedRomeLibrary
    simp only [hdir]
  rw [hload]
  refine ⟨loadFiles_error_iff unmarshal romeFS _ entries _ hread, ?_⟩
  intro pre bad post perr he hpre hbad
  subst he
  exact loadFiles_first_error unmarshal romeFS _ pre bad perr post _ hread hpre hbad

/-- Witness of C17: the second and the third of four documents are malformed;
the error carries the content of the second. -/
theorem bulk_load_fails_iff_witness :
    NewEmbeddedRomeLibrary exampleUnmarshal (listFS [("a.json", "temp-document"),
        ("x.json", "not a document"), ("y.json", "nor this"), ("c.json", "fan-document")]) "" =
      Except.error "unexpected end of JSON input\nnot a document" :=
  (bulk_load_fails_iff exampleUnmarshal (listFS [("a.json", "temp-document"),
      ("x.json", "not a document"), ("y.json", "nor this"), ("c.json", "fan-document")]) ""
    [("a.json", "temp-document"), ("x.json", "not a document"), ("y.json", "nor this"),
      ("c.json", "fan-document")] rfl exampleEntries_ok).2
    [("a.json", "temp-document")] ("x.json", "not a document")
    [("y.json", "nor this"), ("c.json", "fan-document")] "unexpected end of JSON input" rfl
    (fun e he => ⟨tempAttr, by
      simp only [List.mem_singleton] at he
      subst he
      rfl⟩) rfl

/-- Claim C18: every library reachable from the bulk load followed by any
sequence of `RegisterAttribute` calls stores each attribute under a key equal to
the attribute's own `AttributeName`; so on such a library `romeDecode` with the
JSON flag on is the identity on every key, present or absent. -/
theorem reachable_keyed_by_name (unmarshal : String → Except String Attribute)
    (romeFS : EmbedFS) (customDir : String) (lib0 : RomeLibrary) (attrs : List Attribute)
    (h : NewEmbeddedRomeLibrary unmarshal romeFS customDir = Except.ok lib0) :
    KeyedByName (registerAll lib0 attrs) ∧
    (∀ key, romeDecode (registerAll lib0 attrs) true key = key) := by
  have hk := KeyedByName_registerAll attrs lib0 (KeyedByName_load unmarshal romeFS customDir lib0 h)
  exact ⟨hk, romeDecode_json_id _ hk⟩

/-- Witness of C18: the library loaded from three documents, with one more
registration. -/
theorem reachable_keyed_by_name_witness :
    NewEmbeddedRomeLibrary exampleUnmarshal (listFS [("a.json", "temp-document"),
        ("b.json", "temp-document-2"), ("c.json", "fan-document")]) "" =
      Except.ok (registerAll emptyLibrary [tempAttr, tempAttr2, fanAttr]) ∧
    romeDecode (registerAll (registerAll emptyLibrary [tempAttr, tempAttr2, fanAttr]) [tempAttr2])
      true "Temp1ThresholdCritical" = "Temp1ThresholdCritical" :=
  ⟨rfl, (reachable_keyed_by_name exampleUnmarshal (listFS [("a.json", "temp-document"),
      ("b.json", "temp-document-2"), ("c.json", "fan-document")]) ""
    (registerAll emptyLibrary [tempAttr, tempAttr2, fanAttr]) [tempAttr2] rfl).2
    "Temp1ThresholdCritical"⟩

/-- Claim C19: `scanWords` emits only tokens that more input cannot change.  For
all byte sequences `p` and `rest`, if `scanWords p false` returns a token `t`
that is not nil, then `scanWords (p ++ rest) atEOF` returns the same token `t`,
the same advance and no error, for both values of `atEOF`; `p` may end in the
middle of a multi-byte UTF-8 sequence. -/
theorem scanWords_token_stable (p rest : List Nat) (atEOF : Bool) (t : List Nat)
    (h : (scanWords p false).token = some t) :
    (scanWords (p ++ rest) atEOF).token = some t ∧
    (scanWords (p ++ rest) atEOF).advance = (scanWords p false).advance ∧
    (scanWords (p ++ rest) atEOF).err = none := by
  rw [scanWords_append p rest atEOF t h]
  exact ⟨h, rfl, (scanWords_progress p false).1⟩

/-- Witness of C19: "a," and the first byte of a three-byte sequence, then the
other two bytes and "b". -/
theorem scanWords_token_stable_witness :
    (scanWords [0x61, 0x2C, 0xE2] false).token = some [0x61] ∧
    (scanWords ([0x61, 0x2C, 0xE2] ++ [0x80, 0x83, 0x62]) true).token = some [0x61] ∧
    (scanWords ([0x61, 0x2C, 0xE2] ++ [0x80, 0x83, 0x62]) true).advance = 2 :=
  have h := scanWords_token_stable [0x61, 0x2C, 0xE2] [0x80, 0x83, 0x62] true [0x61] (by decide)
  ⟨by decide, h.1, h.2.1.trans (by decide)⟩

/-- Claim C20: `scanWords` always makes valid progress, so the scanning loop of
`ParseHosts` terminates.  For every byte sequence `data` and every `atEOF` the
error is nil and the advance is at most `len(data)`; when a token is returned
the advance is at least the length of the token and at least 1; when `atEOF` is
true and `data` is not empty the advance is positive.  And for every input, in
whatever pieces it arrives, `ParseHosts` on piped input returns a list. -/
theorem scanWords_valid_progress (data : List Nat) (atEOF : Bool) (reads : List (List Nat))
    (args : List (List Nat)) :
    (scanWords data atEOF).err = none ∧
    (scanWords data atEOF).advance ≤ data.length ∧
    (∀ t, (scanWords data atEOF).token = some t →
      t.length ≤ (scanWords data atEOF).advance ∧ 1 ≤ (scanWords data atEOF).advance) ∧
    (atEOF = true → data ≠ [] → 0 < (scanWords data atEOF).advance) ∧
    (∃ hosts stderr, ParseHosts true reads args = some (Outcome.returned hosts stderr)) :=
  ⟨(scanWords_progress data atEOF).1, (scanWords_progress data atEOF).2.1,
    (scanWords_progress data atEOF).2.2.1, (scanWords_progress data atEOF).2.2.2,
    ParseHosts_piped_returns reads args⟩

end Gru
